import Mathlib

/-!
# Graph topologies and neighbourhood queries of `details/graph.cpp`

A shallow embedding of the `Graph_blaze` engine (namespace `metric::mapping::SOM_details`):
the edge builder, the level-synchronous neighbour explorer, the stack-based explorer and the
topology generators, with the depth-first walk of the legacy `Graph`, followed by the
properties proved about them.

Conventions of the embedding.

* `size_t` and `int` values are natural numbers (integers for the offsets `-1, 0, 1` of the
  grids).  Every index the code computes is below the number of nodes, and a store of `n` nodes
  holds `n * n` entries, so no index reaches `2 ^ 64`; likewise `maxDeep + 1`, the length of a
  result, does not wrap.  Where a value can pass `2 ^ 64` the reduction modulo `2 ^ 64` is
  written out: the loop bound `s - 1` and the square `p * p` in `miller_rabin_pass`, the
  product `c * base` in `modularPow`.
* `std::vector<T>` is `List T`, `push_back` appends at the end.
* The template arguments of `Graph_blaze<WeightType, isDense, isSymmetric>` are passed as
  explicit booleans (`isWeighted` is `!std::is_same<WeightType, bool>::value`).
-/

namespace SOM_details

/-! ## The adjacency container -/

/-- Modelled from the spec: the adjacency container `MatrixType` of `Graph_blaze`.  Its declaration
(`graph.hpp`) and the matrix library are not part of the sources; the spec lists the capability the
engine consumes: `resize(rows, cols)`, `reset()`, element get/set by `(row, col)`, row iteration
yielding neighbour indices, `rows()` and `columns()`.  The container is an `rows × columns` table
of edge indicators; `get i j` is `m(i, j)`. -/
structure MatrixType where
  rows : Nat
  columns : Nat
  get : Nat → Nat → Bool

namespace MatrixType

/-- Modelled from the spec: a default-constructed container, `0 × 0`, no entry set. -/
def empty : MatrixType := ⟨0, 0, fun _ _ => false⟩

/-- Modelled from the spec: `m.resize(r, c)`; entries inside both the old and the new shape are
kept, no other entry is set. -/
def resize (m : MatrixType) (r c : Nat) : MatrixType :=
  ⟨r, c, fun i j => decide (i < r) && decide (j < c) && decide (i < m.rows) &&
    decide (j < m.columns) && m.get i j⟩

/-- Modelled from the spec: `m.reset()` clears every entry and keeps the shape. -/
def reset (m : MatrixType) : MatrixType := ⟨m.rows, m.columns, fun _ _ => false⟩

/-- Modelled from the spec: the assignment `m(i, j) = 1`.  On a symmetric container
(`isSymmetric`, the spec's "symmetric undirected graph") the write reaches `(i, j)` and `(j, i)`;
on a general container it reaches `(i, j)` only. -/
def assign (isSymmetric : Bool) (m : MatrixType) (i j : Nat) : MatrixType :=
  ⟨m.rows, m.columns, fun a b =>
    (a == i && b == j) || (isSymmetric && (a == j && b == i)) || m.get a b⟩

/-- Modelled from the spec: row iteration of a sparse container, `m.begin(el) .. m.end(el)`:
the column indices of the entries stored in row `el`, in ascending order.  The engine stores an
entry only by `m(i, j) = 1` after `reset()`, so the stored entries are the set ones. -/
def sparseRow (m : MatrixType) (el : Nat) : List Nat :=
  (List.range m.columns).filter (fun idx => m.get el idx)

/-- Modelled from the spec: row iteration of a dense container: `it - m.begin(el)` takes every
column position `0 .. columns - 1` in turn. -/
def denseRow (m : MatrixType) (_el : Nat) : List Nat := List.range m.columns

end MatrixType

/-! ## `Graph_blaze` -/

/-- The data members of `Graph_blaze`: `nodesNumber`, `valid` and the adjacency container `m`. -/
structure Graph_blaze where
  nodesNumber : Nat
  valid : Bool
  m : MatrixType

namespace Graph_blaze

/-- Constructor `Graph_blaze(size_t nodesNumber) : nodesNumber(nodesNumber), valid(false)`;
`m` is default-constructed. -/
def init (nodesNumber : Nat) : Graph_blaze := ⟨nodesNumber, false, MatrixType.empty⟩

/-- Accessor `getNodesNumber()`. -/
def getNodesNumber (g : Graph_blaze) : Nat := g.nodesNumber

/-- Accessor `isValid()`. -/
def isValid (g : Graph_blaze) : Bool := g.valid

/-- Accessor `get_matrix()`. -/
def get_matrix (g : Graph_blaze) : MatrixType := g.m

/-- Loop `for (size_t e = 0; e < exponent; ++e) c = (c * base) % modulus;` of `modularPow`,
run for `exponent` rounds from `c`.  The product `c * base` is taken in `size_t`, modulo
`2 ^ 64`. -/
def modularPowLoop (base modulus : Nat) : Nat → Nat → Nat
  | 0, c => c
  | exponent + 1, c => modularPowLoop base modulus exponent ((c * base) % 2 ^ 64 % modulus)

/-- Function `modularPow(base, exponent, modulus)`. -/
def modularPow (base exponent modulus : Nat) : Nat :=
  if modulus = 1 then 1 else modularPowLoop base modulus exponent 1

/-- First loop of `buildEdges`: the largest index occurring in `edgesPairs` (`0` when empty). -/
def maxIndex (edgesPairs : List (Nat × Nat)) : Nat :=
  edgesPairs.foldl
    (fun max p =>
      let max := if p.1 > max then p.1 else max
      if p.2 > max then p.2 else max)
    0

/-- Function `buildEdges(edgesPairs)`, for a container that is symmetric or not. -/
def buildEdges (isSymmetric : Bool) (edgesPairs : List (Nat × Nat)) (g : Graph_blaze) :
    Graph_blaze :=
  let max := maxIndex edgesPairs + 1
  let nodesNumber := if max > g.nodesNumber then max else g.nodesNumber
  let m := (g.m.resize max max).reset
  let m := edgesPairs.foldl
    (fun m p => if p.1 ≠ p.2 then m.assign isSymmetric p.1 p.2 else m) m
  ⟨nodesNumber, g.valid, m⟩

/-! ### `getNeighborsNew` -/

/-- The locals the loops of `getNeighborsNew` write: the result `neighboursList`, the next
frontier `children` and the visited marks `nodes`. -/
structure Level where
  neighboursList : List (List Nat)
  children : List Nat
  nodes : List Bool

/-- Body of the innermost loop of `getNeighborsNew` for the neighbour `idx` at `depth`:
`if (!nodes[idx]) neighboursList[depth].push_back(idx); children.push_back(idx);
nodes[idx] = true;`. -/
def visit (depth idx : Nat) (st : Level) : Level :=
  ⟨if st.nodes.getD idx false = false then
      st.neighboursList.set depth (st.neighboursList.getD depth [] ++ [idx])
    else st.neighboursList,
   st.children ++ [idx],
   st.nodes.set idx true⟩

/-- Row loop of the sparse specialization: every stored entry of row `el` is visited. -/
def scanSparse (m : MatrixType) (depth el : Nat) (st : Level) : Level :=
  (m.sparseRow el).foldl (fun st idx => visit depth idx st) st

/-- Row loop of the dense specialization: every column position `idx` is taken in turn,
`if (m(el, idx) != 1) continue;` skips the unset ones. -/
def scanDense (m : MatrixType) (depth el : Nat) (st : Level) : Level :=
  (m.denseRow el).foldl
    (fun st idx => if m.get el idx ≠ true then st else visit depth idx st) st

/-- Loop `while (depth <= maxDeep)` of `getNeighborsNew`; the first argument counts the
iterations left, `maxDeep + 1 - depth`.  One iteration scans the rows of all `parents`, then
`depth++; parents.swap(children); children = {}`. -/
def bfsWhile (scan : Nat → Nat → Level → Level) :
    Nat → Nat → List Nat → List (List Nat) → List Bool → List (List Nat)
  | 0, _, _, neighboursList, _ => neighboursList
  | remaining + 1, depth, parents, neighboursList, nodes =>
    let st := parents.foldl (fun st el => scan depth el st) ⟨neighboursList, [], nodes⟩
    bfsWhile scan remaining (depth + 1) st.children st.neighboursList st.nodes

/-- The code shared by the two boolean specializations of `getNeighborsNew`, `scan` being the
row loop. -/
def getNeighborsNewWith (scan : Nat → Nat → Level → Level) (m : MatrixType)
    (index maxDeep : Nat) : List (List Nat) :=
  let neighboursList : List (List Nat) := List.replicate (maxDeep + 1) []
  if index ≥ m.columns then neighboursList
  else
    bfsWhile scan maxDeep 1 [index]
      (neighboursList.set 0 (neighboursList.getD 0 [] ++ [index]))
      ((List.replicate m.columns false).set index true)

/-- Specialization `getNeighborsNew` for a sparse boolean container. -/
def getNeighborsNew_sparse (g : Graph_blaze) (index maxDeep : Nat) : List (List Nat) :=
  getNeighborsNewWith (scanSparse g.m) g.m index maxDeep

/-- Specialization `getNeighborsNew` for a dense boolean container. -/
def getNeighborsNew_dense (g : Graph_blaze) (index maxDeep : Nat) : List (List Nat) :=
  getNeighborsNewWith (scanDense g.m) g.m index maxDeep

/-- Member `getNeighborsNew(index, maxDeep)`, the overload chosen by the template arguments:
the non-boolean specialization returns `std::vector<std::vector<size_t>>(0)`. -/
def getNeighborsNew (isWeighted isDense : Bool) (g : Graph_blaze) (index maxDeep : Nat) :
    List (List Nat) :=
  if isWeighted then []
  else if isDense then getNeighborsNew_dense g index maxDeep
  else getNeighborsNew_sparse g index maxDeep

/-! ### `getNeighbours`, the stack-based explorer kept for comparison -/

/-- Lookup `indices.find(key)` in the `std::unordered_map<size_t, size_t>`, kept as an
association list. -/
def mapFind (indices : List (Nat × Nat)) (key : Nat) : Option Nat :=
  (indices.find? (fun e => e.1 == key)).map (fun e => e.2)

/-- Write `indices[key] = value`: the entry of `key` is overwritten, a new key is added. -/
def mapSet (indices : List (Nat × Nat)) (key value : Nat) : List (Nat × Nat) :=
  if (indices.find? (fun e => e.1 == key)).isSome then
    indices.map (fun e => if e.1 == key then (key, value) else e)
  else indices ++ [(key, value)]

/-- Loop `while (true)` of `getNeighbours`.  The stacks are lists with the top at the head; an
iterator is the list of the row entries it has not passed yet, so it equals `m.end(row)` when
that list is empty.  The first argument bounds the number of iterations; `none` is returned
when it is used up. -/
def getNeighboursLoop (m : MatrixType) (maxDeep : Nat) :
    Nat → List Nat → List (List Nat) → List (Nat × Nat) → Nat → Option (List (Nat × Nat))
  | 0, _, _, _, _ => none
  | fuel + 1, row_stack, iterator_stack, indices, depth =>
    match row_stack, iterator_stack with
    | _ :: rows, top :: iterators =>
      if top = [] ∨ depth > maxDeep then
        -- `row_stack.pop(); iterator_stack.pop(); depth--; if (depth < 1) break;`
        if depth - 1 < 1 then some indices
        else
          -- `iterator_stack.top()++`
          match iterators with
          | below :: rest =>
            getNeighboursLoop m maxDeep fuel rows (below.tail :: rest) indices (depth - 1)
          | [] => none
      else
        -- `row_stack.push(iterator_stack.top()->index()); iterator_stack.push(m.begin(...));`
        let node := top.headD 0
        let depth := depth + 1
        let indices :=
          match mapFind indices node with
          | none => mapSet indices node (depth - 1)
          | some deep => if deep > depth - 1 then mapSet indices node (depth - 1) else indices
        getNeighboursLoop m maxDeep fuel (node :: row_stack)
          (m.sparseRow node :: top :: iterators) indices depth
    | _, _ => none

/-- Member `getNeighbours(index, maxDeep)`.  The map `indices` is read back in the order its
keys were added (the iteration order of `std::unordered_map` is unspecified).  `fuel` bounds the
iterations of the `while (true)` loop. -/
def getNeighbours (isWeighted : Bool) (fuel : Nat) (g : Graph_blaze) (index maxDeep : Nat) :
    Option (List (List Nat)) :=
  if isWeighted then some []
  else
    let neighboursList : List (List Nat) := List.replicate (maxDeep + 1) []
    match getNeighboursLoop g.m maxDeep fuel [index] [g.m.sparseRow index] [(index, 0)] 1 with
    | none => none
    | some indices =>
      some (indices.foldl
        (fun nl e => nl.set e.2 (nl.getD e.2 [] ++ [e.1])) neighboursList)

end Graph_blaze

open Graph_blaze

/-! ## Topology generators

The generators derive from `Graph_blaze<>`.  -/

/-- Modelled from the spec: the default template arguments of `Graph_blaze<>` (declared in
`graph.hpp`, not part of the sources): the adjacency of a generated topology is a "symmetric
boolean N×N relation", so the generators write to a symmetric container. -/
def defaultSymmetric : Bool := true

/-- The values `lo, lo + 1, .., hi` of a loop `for (int ii = lo; ii <= hi; ++ii)`. -/
def intRange (lo hi : Int) : List Int :=
  (List.range (hi - lo + 1).toNat).map (fun (k : Nat) => lo + (k : Int))

/-- The cell loops `for (size_t i = 0; i < height; ++i) for (size_t j = 0; j < width; ++j)` of
the generators, collecting what `body i j` appends to `edgesPairs`. -/
def cellLoop (width height : Nat) (body : Nat → Nat → List (Nat × Nat)) : List (Nat × Nat) :=
  (List.range height).flatMap (fun i => (List.range width).flatMap (fun j => body i j))

/-- Offset loops shared by `Grid4_blaze::construct` and `Grid8_blaze::construct` for the cell
`(i, j)`: `ii` runs over `ii0 .. ii1`, `jj` over `jj0 .. jj1` (clipped at the border), and the
pair `(i * width + j, (i + ii) * width + (j + jj))` is appended when `keep ii jj` holds.  The
sums `i + ii` and `j + jj` are taken in `size_t`; an offset `-1` only occurs for a positive
coordinate. -/
def offsetPairs (keep : Int → Int → Bool) (width height i j : Nat) : List (Nat × Nat) :=
  let ii0 : Int := if i > 0 then -1 else 0
  let jj0 : Int := if j > 0 then -1 else 0
  let ii1 : Int := if i < height - 1 then 1 else 0
  let jj1 : Int := if j < width - 1 then 1 else 0
  (intRange ii0 ii1).flatMap (fun ii =>
    (intRange jj0 jj1).flatMap (fun jj =>
      if keep ii jj then
        [(i * width + j, ((i : Int) + ii).toNat * width + ((j : Int) + jj).toNat)]
      else []))

namespace Grid4_blaze

/-- The list `edgesPairs` built by `Grid4_blaze::construct`: offsets with
`(ii == 0) or (jj == 0)`. -/
def edgesPairs (width height : Nat) : List (Nat × Nat) :=
  cellLoop width height (offsetPairs (fun ii jj => decide (ii = 0) || decide (jj = 0)) width height)

/-- Member `Grid4_blaze::construct(width, height)`. -/
def construct (width height : Nat) (g : Graph_blaze) : Graph_blaze :=
  let n_nodes := width * height
  let g : Graph_blaze := ⟨g.nodesNumber, g.valid, g.m.resize n_nodes n_nodes⟩
  let g := buildEdges defaultSymmetric (edgesPairs width height) g
  ⟨g.nodesNumber, true, g.m⟩

/-- Constructor `Grid4_blaze(size_t nodesNumber)`; `sqrt` is the integer square root. -/
def ofNodesNumber (nodesNumber : Nat) : Graph_blaze :=
  let s := Nat.sqrt nodesNumber
  let g := Graph_blaze.init nodesNumber
  if s * s ≠ nodesNumber then ⟨g.nodesNumber, false, g.m⟩ else construct s s g

/-- Constructor `Grid4_blaze(size_t width, size_t height)`. -/
def ofSize (width height : Nat) : Graph_blaze :=
  construct width height (Graph_blaze.init (width * height))

end Grid4_blaze

namespace Grid6_blaze

/-- What `Grid6_blaze::construct` appends to `edgesPairs` for the cell `(i, j)`. -/
def cellPairs (width height i j : Nat) : List (Nat × Nat) :=
  let odd : Bool := if i % 2 = 0 then false else true
  let up : Bool := if i = 0 then false else true
  let down : Bool := if i = height - 1 then false else true
  let left : Bool := if j = 0 then false else true
  let right : Bool := if j = width - 1 then false else true
  (if up then [(i * width + j, (i - 1) * width + (j + 0))] else []) ++
  (if down then [(i * width + j, (i + 1) * width + (j + 0))] else []) ++
  (if left then [(i * width + j, (i + 0) * width + (j - 1))] else []) ++
  (if right then [(i * width + j, (i + 0) * width + (j + 1))] else []) ++
  (if !odd && left then
    (if up then [(i * width + j, (i - 1) * width + (j - 1))] else []) ++
    (if down then [(i * width + j, (i + 1) * width + (j - 1))] else [])
   else []) ++
  (if odd && right then
    (if up then [(i * width + j, (i - 1) * width + (j + 1))] else []) ++
    (if down then [(i * width + j, (i + 1) * width + (j + 1))] else [])
   else [])

/-- The list `edgesPairs` built by `Grid6_blaze::construct`. -/
def edgesPairs (width height : Nat) : List (Nat × Nat) :=
  cellLoop width height (cellPairs width height)

/-- Member `Grid6_blaze::construct(width, height)`; `valid = true` precedes `buildEdges`. -/
def construct (width height : Nat) (g : Graph_blaze) : Graph_blaze :=
  let n_nodes := width * height
  let g : Graph_blaze := ⟨g.nodesNumber, g.valid, g.m.resize n_nodes n_nodes⟩
  let g : Graph_blaze := ⟨g.nodesNumber, true, g.m⟩
  buildEdges defaultSymmetric (edgesPairs width height) g

/-- Constructor `Grid6_blaze(size_t nodesNumber)`; `sqrt` is the integer square root. -/
def ofNodesNumber (nodesNumber : Nat) : Graph_blaze :=
  let s := Nat.sqrt nodesNumber
  let g := Graph_blaze.init nodesNumber
  if s * s ≠ nodesNumber then ⟨g.nodesNumber, false, g.m⟩ else construct s s g

/-- Constructor `Grid6_blaze(size_t width, size_t height)`. -/
def ofSize (width height : Nat) : Graph_blaze :=
  construct width height (Graph_blaze.init (width * height))

end Grid6_blaze

namespace Grid8_blaze

/-- The list `edgesPairs` built by `Grid8_blaze::construct`: offsets with
`(ii != 0) or (jj != 0)`. -/
def edgesPairs (width height : Nat) : List (Nat × Nat) :=
  cellLoop width height (offsetPairs (fun ii jj => decide (ii ≠ 0) || decide (jj ≠ 0)) width height)

/-- Member `Grid8_blaze::construct(width, height)`. -/
def construct (width height : Nat) (g : Graph_blaze) : Graph_blaze :=
  let n_nodes := width * height
  let g : Graph_blaze := ⟨g.nodesNumber, g.valid, g.m.resize n_nodes n_nodes⟩
  let g := buildEdges defaultSymmetric (edgesPairs width height) g
  ⟨g.nodesNumber, true, g.m⟩

/-- Constructor `Grid8_blaze(size_t nodesNumber)`; `sqrt` is the integer square root. -/
def ofNodesNumber (nodesNumber : Nat) : Graph_blaze :=
  let s := Nat.sqrt nodesNumber
  let g := Graph_blaze.init nodesNumber
  if s * s ≠ nodesNumber then ⟨g.nodesNumber, false, g.m⟩ else construct s s g

/-- Constructor `Grid8_blaze(size_t width, size_t height)`. -/
def ofSize (width height : Nat) : Graph_blaze :=
  construct width height (Graph_blaze.init (width * height))

end Grid8_blaze

namespace Paley_blaze

/-- The vector `squareList` of `Paley_blaze`: `i * i % nodesNumber` for `i < l`, the product
taken exactly. -/
def squareList (nodesNumber : Nat) : List Nat :=
  let l := (nodesNumber - 1) / 2
  (List.range l).map (fun i => i * i % nodesNumber)

/-- The list `edgesPairs` built by `Paley_blaze`. -/
def edgesPairs (nodesNumber : Nat) : List (Nat × Nat) :=
  (List.range nodesNumber).flatMap (fun i =>
    (squareList nodesNumber).map (fun j => (i, (i + j) % nodesNumber)))

/-- Constructor `Paley_blaze(size_t nodesNumber)`. -/
def ofNodesNumber (nodesNumber : Nat) : Graph_blaze :=
  let g := Graph_blaze.init nodesNumber
  if nodesNumber % 4 ≠ 1 then g
  else
    let g := buildEdges defaultSymmetric (edgesPairs nodesNumber) g
    ⟨g.nodesNumber, true, g.m⟩

end Paley_blaze

namespace LPS_blaze

/-- Loop `while (d % 2 == 0) { d >>= 1; s += 1; }` of `millerRabin`, returning `(d, s)`.  The
first argument bounds the iterations; `none` when it is used up (the loop never ends for
`d == 0`). -/
def halveLoop : Nat → Nat → Nat → Option (Nat × Nat)
  | 0, _, _ => none
  | fuel + 1, d, s => if d % 2 = 0 then halveLoop fuel (d / 2) (s + 1) else some (d, s)

/-- Loop `for (auto i = 0; i < s - 1; ++i)` of `miller_rabin_pass` with what follows it; the
first argument counts the iterations left.  The square `p * p` is taken in `size_t`, modulo
`2 ^ 64`. -/
def passLoop (nodesNumber : Nat) : Nat → Nat → Bool
  | 0, p => decide (p = nodesNumber - 1)
  | left + 1, p =>
    if p = nodesNumber - 1 then true
    else passLoop nodesNumber left ((p * p) % 2 ^ 64 % nodesNumber)

/-- Function `miller_rabin_pass(a, s, d, nodesNumber)`.  `pow(a, d)` is the exact power; the
loop bound `s - 1` is computed in `size_t`, so it is `2 ^ 64 - 1` for `s == 0`. -/
def miller_rabin_pass (a s d nodesNumber : Nat) : Bool :=
  let p := (a ^ d) % nodesNumber
  if p = 1 then true
  else passLoop nodesNumber ((s + (2 ^ 64 - 1)) % 2 ^ 64) p

/-- Loop `for (int repeat = 0; repeat < 20; ++repeat)` of `millerRabin`; `witness r` is the
value of `a` with which round `r` leaves `while (a == 0) a = rand() % nodesNumber`. -/
def roundsLoop (witness : Nat → Nat) (s d nodesNumber : Nat) : Nat → Nat → Bool
  | 0, _ => true
  | left + 1, r =>
    if ¬ miller_rabin_pass (witness r) s d nodesNumber = true then false
    else roundsLoop witness s d nodesNumber left (r + 1)

/-- Function `millerRabin(nodesNumber)`.  No value is returned for `nodesNumber == 1` (the
halving loop runs on `d == 0` for ever) nor for `nodesNumber == 0` (`rand() % 0`). -/
def millerRabin (witness : Nat → Nat) (nodesNumber : Nat) : Option Bool :=
  if nodesNumber = 0 then none
  else
    match halveLoop nodesNumber (nodesNumber - 1) 0 with
    | none => none
    | some (d, s) => some (roundsLoop witness s d nodesNumber 20 0)

/-- What the loop of `LPS_blaze` appends to `edgesPairs` for the node `i`. -/
def nodePairs (nodesNumber i : Nat) : List (Nat × Nat) :=
  if i = 0 then [(0, nodesNumber - 1), (0, 1)]
  else [(i, i - 1), (i, (i + 1) % nodesNumber), (i, modularPow i (nodesNumber - 2) nodesNumber)]

/-- The list `edgesPairs` built by `LPS_blaze`. -/
def edgesPairs (nodesNumber : Nat) : List (Nat × Nat) :=
  (List.range nodesNumber).flatMap (nodePairs nodesNumber)

/-- Constructor `LPS_blaze(size_t nodesNumber)`; `none` when `millerRabin` returns no value. -/
def ofNodesNumber (witness : Nat → Nat) (nodesNumber : Nat) : Option Graph_blaze :=
  let g := Graph_blaze.init nodesNumber
  match millerRabin witness nodesNumber with
  | none => none
  | some false => some g
  | some true =>
    let g := buildEdges defaultSymmetric (edgesPairs nodesNumber) g
    some ⟨g.nodesNumber, true, g.m⟩

end LPS_blaze

namespace Margulis_blaze

/-- The list `edgesPairs` built by `Margulis_blaze` for the side `s`. -/
def edgesPairs (s : Nat) : List (Nat × Nat) :=
  cellLoop s s (fun i j =>
    [(i * s + j, ((i + 2 * j) % s) * s + j),
     (i * s + j, i * s + (2 * i + j) % s),
     (i * s + j, i * s + (2 * i + j + 1) % s),
     (i * s + j, ((i + 2 * j + 1) % s) * s + j)])

/-- Constructor `Margulis_blaze(size_t nodesNumber)`; `sqrt` is the integer square root. -/
def ofNodesNumber (nodesNumber : Nat) : Graph_blaze :=
  let s := Nat.sqrt nodesNumber
  let g := Graph_blaze.init nodesNumber
  if s * s ≠ nodesNumber then ⟨g.nodesNumber, false, g.m⟩
  else
    let g := buildEdges defaultSymmetric (edgesPairs s) g
    ⟨g.nodesNumber, true, g.m⟩

end Margulis_blaze

/-! ## Notions used to state the properties -/

/-- The adjacency relation the explorer reads: `v` is a column of the container and the entry
`(u, v)` is set. -/
def Adj (m : MatrixType) (u v : Nat) : Prop := v < m.columns ∧ m.get u v = true

/-- There is a walk of exactly `k` edges from `u` to `v`. -/
def IsWalk (m : MatrixType) : Nat → Nat → Nat → Prop
  | 0, u, v => u = v
  | k + 1, u, v => ∃ w, IsWalk m k u w ∧ Adj m w v

/-- The shortest-path distance from `u` to `v` is `d`: a walk of `d` edges exists and no
shorter one does. -/
def IsDist (m : MatrixType) (d u v : Nat) : Prop :=
  IsWalk m d u v ∧ ∀ k, k < d → ¬ IsWalk m k u v

/-- Node `v` carries a visited mark. -/
def Marked (nodes : List Bool) (v : Nat) : Prop := nodes.getD v false = true

/-- The bucket after the nodes `xs` have been visited in turn, starting from bucket `b` and
marks `nodes`. -/
def freshOf : List Nat → List Nat → List Bool → List Nat
  | [], b, _ => b
  | x :: xs, b, nodes =>
    freshOf xs (if nodes.getD x false = false then b ++ [x] else b) (nodes.set x true)

/-- The marks after the nodes `xs` have been visited. -/
def marksOf : List Nat → List Bool → List Bool
  | [], nodes => nodes
  | x :: xs, nodes => marksOf xs (nodes.set x true)

/-- The buckets of `r` consecutive levels explored from the frontier `parents` with the marks
`nodes`, `row` giving the neighbour indices of a node. -/
def levels (row : Nat → List Nat) : Nat → List Nat → List Bool → List (List Nat)
  | 0, _, _ => []
  | r + 1, parents, nodes =>
    freshOf (parents.flatMap row) [] nodes ::
      levels row r (parents.flatMap row) (marksOf (parents.flatMap row) nodes)

/-- The marks with which the explorer enters its loop. -/
def startMarks (m : MatrixType) (index : Nat) : List Bool :=
  (List.replicate m.columns false).set index true

/-- The result of the boolean explorers, whichever the storage: no bucket for an index outside
the container, otherwise the start node followed by `maxDeep` levels. -/
def explored (m : MatrixType) (index maxDeep : Nat) : List (List Nat) :=
  if index ≥ m.columns then List.replicate (maxDeep + 1) []
  else [index] :: levels m.sparseRow maxDeep [index] (startMarks m index)

/-- The container is symmetric and has no entry on its diagonal. -/
def SymmetricNoLoops (m : MatrixType) : Prop :=
  ∀ i j, m.get i j = m.get j i ∧ m.get i i = false

/-- The hexagonal adjacency of the cells `(i, j)` and `(i2, j2)`: horizontal or vertical
neighbours, or one row apart with `(i2, j2)` one column to the right of an odd row `i`, or one
column to the left of an even row `i`. -/
def Grid6Adjacent (i j i2 j2 : Nat) : Prop :=
  Nat.dist i i2 + Nat.dist j j2 = 1 ∨
  (Nat.dist i i2 = 1 ∧ j2 = j + 1 ∧ i % 2 = 1) ∨
  (Nat.dist i i2 = 1 ∧ j2 + 1 = j ∧ i % 2 = 0)

/-- The four nodes `Margulis_blaze` pairs with the node `(i, j)` of the `s × s` grid. -/
def margulisImages (s i j : Nat) : List Nat :=
  [((i + 2 * j) % s) * s + j, i * s + (2 * i + j) % s, i * s + (2 * i + j + 1) % s,
   ((i + 2 * j + 1) % s) * s + j]

/-- The four nodes of the `s × s` grid that `Margulis_blaze` pairs with the node `(i, j)` as
their image, one for each of the four rules. -/
def margulisPreimages (s i j : Nat) : List Nat :=
  [((i + (s - (2 * j) % s)) % s) * s + j, i * s + (j + (s - (2 * i) % s)) % s,
   i * s + (j + (s - (2 * i + 1) % s)) % s, ((i + (s - (2 * j + 1) % s)) % s) * s + j]

/-- Row loop of the sparse specialization over a sparse container known by the entries stored
in its rows: `rows el` lists the column indices `it->index()` of row `el` in iteration order.
`Graph_blaze.scanSparse m` is `scanRows m.sparseRow`. -/
def scanRows (rows : Nat → List Nat) (depth el : Nat) (st : Graph_blaze.Level) :
    Graph_blaze.Level :=
  (rows el).foldl (fun st idx => Graph_blaze.visit depth idx st) st

/-- A call of `getNeighborsNew` as a step of the object: the data members after the call and
the value returned.  The bodies of the three specializations assign to no data member (`m` is
only read, through `columns()`, `begin`/`end` and `m(el, idx)`; `neighboursList`, `parents`,
`children` and `nodes` are locals of the call), so the members are handed on as received. -/
def callGetNeighborsNew (isWeighted isDense : Bool) (g : Graph_blaze) (index maxDeep : Nat) :
    Graph_blaze × List (List Nat) :=
  (g, Graph_blaze.getNeighborsNew isWeighted isDense g index maxDeep)

/-- The frontiers of the loop `while (depth <= maxDeep)` of `getNeighborsNew`: the value of
`parents` at the start of each iteration, in order.  The loop is that of
`Graph_blaze.bfsWhile`. -/
def bfsParents (scan : Nat → Nat → Graph_blaze.Level → Graph_blaze.Level) :
    Nat → Nat → List Nat → List (List Nat) → List Bool → List (List Nat)
  | 0, _, _, _, _ => []
  | remaining + 1, depth, parents, neighboursList, nodes =>
    let st := parents.foldl (fun st el => scan depth el st) ⟨neighboursList, [], nodes⟩
    parents :: bfsParents scan remaining (depth + 1) st.children st.neighboursList st.nodes

/-- The frontiers of a call `getNeighborsNew(index, maxDeep)`: entry `k` is the list `parents`
whose rows are scanned at depth `k + 1`.  The set-up is that of
`Graph_blaze.getNeighborsNewWith`. -/
def frontiersWith (scan : Nat → Nat → Graph_blaze.Level → Graph_blaze.Level) (m : MatrixType)
    (index maxDeep : Nat) : List (List Nat) :=
  let neighboursList : List (List Nat) := List.replicate (maxDeep + 1) []
  if index ≥ m.columns then []
  else
    bfsParents scan maxDeep 1 [index]
      (neighboursList.set 0 (neighboursList.getD 0 [] ++ [index]))
      ((List.replicate m.columns false).set index true)

/-- A graph is consistently sized for `n`: it is valid, reports `n` nodes, and its adjacency
container has `n` rows and `n` columns. -/
def ConsistentlySized (g : Graph_blaze) (n : Nat) : Prop :=
  g.isValid = true ∧ g.getNodesNumber = n ∧ g.m.rows = n ∧ g.m.columns = n

/-! ## The legacy `Graph`

The class `Graph` keeps its adjacency as lists, `edges[i]` holding the neighbours of node `i`. -/

/-- The data members of the legacy `Graph`: `nodesNumber`, `valid` and the adjacency lists
`edges`. -/
structure Graph where
  nodesNumber : Nat
  valid : Bool
  edges : List (List Nat)

namespace Graph

/-- Loop `for (size_t e = 0; e < exponent; ++e) c = (c * base) % modulus;` of
`Graph::modularPow`, run for `exponent` rounds from `c`.  The product `c * base` is taken in
`size_t`, modulo `2 ^ 64`. -/
def modularPowLoop (base modulus : Nat) : Nat → Nat → Nat
  | 0, c => c
  | exponent + 1, c => modularPowLoop base modulus exponent ((c * base) % 2 ^ 64 % modulus)

/-- Function `Graph::modularPow(base, exponent, modulus)`. -/
def modularPow (base exponent modulus : Nat) : Nat :=
  if modulus = 1 then 1 else modularPowLoop base modulus exponent 1

/-- Function `Graph::neighboursWalk(index, indexes, deep, maxDeep)`, returning the map
`indexes` it leaves.  The first argument bounds the nesting of the recursive calls; `none` is
returned when it is used up, and when `edges[index]` is read for an index outside `edges`. -/
def neighboursWalk (edges : List (List Nat)) (maxDeep : Nat) :
    Nat → Nat → List (Nat × Nat) → Nat → Option (List (Nat × Nat))
  | 0, _, _, _ => none
  | fuel + 1, index, indexes, deep =>
    if deep > maxDeep then some indexes
    else
      let known : Bool :=
        match Graph_blaze.mapFind indexes index with
        | some second => decide (second ≤ deep)
        | none => false
      if known then some indexes
      else
        match edges[index]? with
        | none => none
        | some row =>
          row.foldl
            (fun acc i =>
              match acc with
              | none => none
              | some indexes => neighboursWalk edges maxDeep fuel i indexes (deep + 1))
            (some (Graph_blaze.mapSet indexes index deep))

/-- The neighbours of `u` in the adjacency lists `edges`: the list `edges[u]`, and no neighbour
for an index outside `edges`. -/
def neighbours (g : Graph) (u : Nat) : List Nat := g.edges.getD u []

/-- Member `Graph::getNeighbours(nodeIndex, maxDeep)`.  The map `indexes` is read back in the
order its keys were added (the iteration order of `std::unordered_map` is unspecified).  `fuel`
bounds the nesting of the calls of `neighboursWalk`. -/
def getNeighbours (fuel : Nat) (g : Graph) (nodeIndex maxDeep : Nat) :
    Option (List (List Nat)) :=
  let neighboursList : List (List Nat) := List.replicate (maxDeep + 1) []
  match neighboursWalk g.edges maxDeep fuel nodeIndex [] 0 with
  | none => none
  | some indexes =>
    some (indexes.foldl (fun nl e => nl.set e.2 (nl.getD e.2 [] ++ [e.1])) neighboursList)

end Graph

/-- A graph of a single node without edges: valid, one node, a `1 × 1` container with no entry
set, and from node 0 the explorers return `[0]` in bucket 0 followed by empty buckets. -/
def IsSingleNode (g : Graph_blaze) : Prop :=
  g.isValid = true ∧ g.getNodesNumber = 1 ∧ g.m.rows = 1 ∧ g.m.columns = 1 ∧
  (∀ i j, g.m.get i j = false) ∧
  ∀ maxDepth,
    g.getNeighborsNew_sparse 0 maxDepth = [0] :: List.replicate maxDepth [] ∧
    g.getNeighborsNew_dense 0 maxDepth = [0] :: List.replicate maxDepth []

/-! ## Notions for the depth-first explorers -/

/-- The write a depth-first explorer makes for the node `key` met at depth `value`: the entry is
set when there is none or when it is larger. -/
def mapLower (indices : List (Nat × Nat)) (key value : Nat) : List (Nat × Nat) :=
  match Graph_blaze.mapFind indices key with
  | none => Graph_blaze.mapSet indices key value
  | some deep => if deep > value then Graph_blaze.mapSet indices key value else indices

/-- The map holds an entry of depth at most `deep` for `node`. -/
def knownAt (indices : List (Nat × Nat)) (node deep : Nat) : Bool :=
  match Graph_blaze.mapFind indices node with
  | some second => decide (second ≤ deep)
  | none => false

/-- Depth-first exploration as a recursive function of the map: `node` is met at depth `deep`
with `k` levels left (`k = maxDeep + 1 - deep`), its entry is lowered and its neighbours
`row node` are explored in turn one level deeper.  With `prune` a node whose entry is at most
`deep` is left at once. -/
def walkSpec (row : Nat → List Nat) (prune : Bool) :
    Nat → Nat → List (Nat × Nat) → Nat → List (Nat × Nat)
  | 0, _, indices, _ => indices
  | k + 1, node, indices, deep =>
    if (prune && knownAt indices node deep) = true then indices
    else
      (row node).foldl (fun acc w => walkSpec row prune k w acc (deep + 1))
        (mapLower indices node deep)

/-- The buckets read back from a map of depths: entry `(index, deep)` puts `index` into bucket
`deep`, in the order of the map. -/
def bucketsOf (indices : List (Nat × Nat)) (n : Nat) : List (List Nat) :=
  indices.foldl (fun nl e => nl.set e.2 (nl.getD e.2 [] ++ [e.1])) (List.replicate n [])

/-- There is a walk of exactly `k` steps from `u` to `v`, each step going from a node to an
entry of its row. -/
def RowWalk (row : Nat → List Nat) : Nat → Nat → Nat → Prop
  | 0, u, v => u = v
  | k + 1, u, v => ∃ w, RowWalk row k u w ∧ v ∈ row w

/-- The length of a shortest walk from `u` to `v` along the rows is `d`. -/
def RowDist (row : Nat → List Nat) (d u v : Nat) : Prop :=
  RowWalk row d u v ∧ ∀ k, k < d → ¬ RowWalk row k u v

/-- The map holds at most one entry for each key. -/
def KeysNodup (indices : List (Nat × Nat)) : Prop := (indices.map Prod.fst).Nodup

/-- The entry of `u` is closed in a map explored to depth `maxDeep`: when `u` has depth `d` and
`d + 1 <= maxDeep`, every neighbour of `u` has an entry of depth at most `d + 1`. -/
def ClosedAt (row : Nat → List Nat) (maxDeep : Nat) (indices : List (Nat × Nat)) (u : Nat) :
    Prop :=
  ∀ d, Graph_blaze.mapFind indices u = some d → d + 1 ≤ maxDeep →
    ∀ w ∈ row u, ∃ d2, d2 ≤ d + 1 ∧ Graph_blaze.mapFind indices w = some d2

/-- No entry of the first map is lost or raised in the second. -/
def MapLe (indices result : List (Nat × Nat)) : Prop :=
  ∀ v d, Graph_blaze.mapFind indices v = some d →
    ∃ d2, d2 ≤ d ∧ Graph_blaze.mapFind result v = some d2

/-- Every entry that differs between the two maps, and every entry closed in the first, is
closed in the second. -/
def ClosedKept (row : Nat → List Nat) (maxDeep : Nat) (indices result : List (Nat × Nat)) :
    Prop :=
  ∀ u, (Graph_blaze.mapFind result u ≠ Graph_blaze.mapFind indices u ∨
      ClosedAt row maxDeep indices u) → ClosedAt row maxDeep result u

/-- What a depth-first exploration of the nodes `srcs`, met at depth `base`, has made of the
map `indices` when it returns `result`, in a search to depth `maxDeep`: one entry for each key,
no entry lost or raised, every changed entry closed, an entry of depth at most `base` for each
of `srcs`, and every new depth the length of a walk from one of `srcs`, counted from `base`. -/
def WalkPost (row : Nat → List Nat) (maxDeep : Nat) (srcs : List Nat) (base : Nat)
    (indices result : List (Nat × Nat)) : Prop :=
  KeysNodup result ∧ MapLe indices result ∧ ClosedKept row maxDeep indices result ∧
  (base ≤ maxDeep → ∀ w ∈ srcs, ∃ d, d ≤ base ∧ Graph_blaze.mapFind result w = some d) ∧
  (∀ v d, Graph_blaze.mapFind result v = some d →
    Graph_blaze.mapFind indices v = some d ∨
      ∃ w ∈ srcs, ∃ j, RowWalk row j w v ∧ d = base + j ∧ d ≤ maxDeep)

/-! ## The explorer as a function of levels -/

theorem set_getD_self (nl : List (List Nat)) (depth : Nat) :
    nl.set depth (nl.getD depth []) = nl := by
  apply List.ext_getElem?
  intro j
  rw [List.getElem?_set]
  by_cases h : depth = j
  · subst h
    by_cases hl : depth < nl.length
    · simp [hl, List.getD_eq_getElem?_getD]
    · simp [hl, List.getElem?_eq_none (Nat.le_of_not_lt hl)]
  · simp [h]

theorem getD_set_self (nl : List (List Nat)) (depth : Nat) (b : List Nat)
    (h : depth < nl.length) : (nl.set depth b).getD depth [] = b := by
  simp [List.getD_eq_getElem?_getD, List.getElem?_set, h]

theorem visit_foldl (depth : Nat) (xs : List Nat) :
    ∀ (nl : List (List Nat)) (ch : List Nat) (nodes : List Bool), depth < nl.length →
      xs.foldl (fun st idx => Graph_blaze.visit depth idx st) ⟨nl, ch, nodes⟩ =
        ⟨nl.set depth (freshOf xs (nl.getD depth []) nodes), ch ++ xs, marksOf xs nodes⟩ := by
  induction xs with
  | nil =>
    intro nl ch nodes _
    simp only [List.foldl_nil, freshOf, marksOf, set_getD_self, List.append_nil]
  | cons x xs ih =>
    intro nl ch nodes h
    rw [List.foldl_cons]
    cases hx : nodes.getD x false with
    | false =>
      have hv : Graph_blaze.visit depth x ⟨nl, ch, nodes⟩ =
          ⟨nl.set depth (nl.getD depth [] ++ [x]), ch ++ [x], nodes.set x true⟩ := by
        unfold Graph_blaze.visit
        simp only [hx, if_true]
      rw [hv, ih _ _ _ (by rw [List.length_set]; exact h), getD_set_self _ _ _ h]
      simp only [freshOf, marksOf, hx, if_true, List.set_set, List.append_assoc,
        List.singleton_append]
    | true =>
      have hv : Graph_blaze.visit depth x ⟨nl, ch, nodes⟩ =
          ⟨nl, ch ++ [x], nodes.set x true⟩ := by
        unfold Graph_blaze.visit
        simp only [hx, Bool.true_eq_false, if_false]
      rw [hv, ih _ _ _ h]
      simp only [freshOf, marksOf, hx, Bool.true_eq_false, if_false, List.append_assoc,
        List.singleton_append]

theorem foldl_skip_eq_filter {σ : Type} (p : Nat → Bool) (f : σ → Nat → σ) (l : List Nat) :
    ∀ st : σ, l.foldl (fun st idx => if p idx ≠ true then st else f st idx) st =
      (l.filter p).foldl f st := by
  induction l with
  | nil => intro st; rfl
  | cons a l ih =>
    intro st
    rw [List.foldl_cons]
    cases ha : p a with
    | false =>
      rw [if_pos (by simp), ih, List.filter_cons, ha]
      simp
    | true =>
      rw [if_neg (by simp), ih, List.filter_cons, ha]
      simp

theorem scanDense_eq_scanSparse (m : MatrixType) :
    Graph_blaze.scanDense m = Graph_blaze.scanSparse m := by
  funext depth el st
  unfold Graph_blaze.scanDense Graph_blaze.scanSparse MatrixType.denseRow MatrixType.sparseRow
  exact foldl_skip_eq_filter (fun idx => m.get el idx)
    (fun st idx => Graph_blaze.visit depth idx st) (List.range m.columns) st

theorem parents_foldl (m : MatrixType) (depth : Nat) (parents : List Nat) :
    ∀ st : Graph_blaze.Level,
      parents.foldl (fun st el => Graph_blaze.scanSparse m depth el st) st =
        (parents.flatMap m.sparseRow).foldl (fun st idx => Graph_blaze.visit depth idx st) st := by
  induction parents with
  | nil => intro st; rfl
  | cons el parents ih =>
    intro st
    rw [List.foldl_cons, ih, List.flatMap_cons, List.foldl_append]
    rfl

theorem bfsWhile_eq_levels (m : MatrixType) (r : Nat) :
    ∀ (depth : Nat) (parents : List Nat) (pre : List (List Nat)) (nodes : List Bool),
      pre.length = depth →
      Graph_blaze.bfsWhile (Graph_blaze.scanSparse m) r depth parents
          (pre ++ List.replicate r []) nodes =
        pre ++ levels m.sparseRow r parents nodes := by
  induction r with
  | zero =>
    intro depth parents pre nodes _
    simp [Graph_blaze.bfsWhile, levels]
  | succ r ih =>
    intro depth parents pre nodes hpre
    have hlen : depth < (pre ++ List.replicate (r + 1) ([] : List Nat)).length := by
      simp [hpre]
    have hget : (pre ++ List.replicate (r + 1) ([] : List Nat)).getD depth [] = [] := by
      subst hpre
      rw [List.getD_eq_getElem?_getD, List.getElem?_append_right (Nat.le_refl _)]
      simp [List.replicate_succ]
    have hset : ∀ b : List Nat, (pre ++ List.replicate (r + 1) ([] : List Nat)).set depth b =
        (pre ++ [b]) ++ List.replicate r [] := by
      intro b
      subst hpre
      simp [List.replicate_succ, List.set_append_right]
    unfold Graph_blaze.bfsWhile
    simp only []
    rw [parents_foldl, visit_foldl depth _ _ _ _ hlen, hget, hset]
    simp only [List.nil_append]
    rw [ih (depth + 1) _ (pre ++ [_]) _ (by simp [hpre])]
    simp [levels]

theorem getNeighborsNewWith_sparse_eq (m : MatrixType) (index maxDeep : Nat) :
    Graph_blaze.getNeighborsNewWith (Graph_blaze.scanSparse m) m index maxDeep =
      if index ≥ m.columns then List.replicate (maxDeep + 1) []
      else [index] :: levels m.sparseRow maxDeep [index] (startMarks m index) := by
  unfold Graph_blaze.getNeighborsNewWith
  by_cases h : index ≥ m.columns
  · simp [h]
  · simp only [h, if_false]
    have h0 : (List.replicate (maxDeep + 1) ([] : List Nat)).set 0
        ((List.replicate (maxDeep + 1) ([] : List Nat)).getD 0 [] ++ [index]) =
        [[index]] ++ List.replicate maxDeep [] := by
      simp [List.replicate_succ]
    rw [h0, bfsWhile_eq_levels m maxDeep 1 [index] [[index]] _ rfl]
    rfl

theorem getNeighborsNew_sparse_eq (g : Graph_blaze) (index maxDeep : Nat) :
    Graph_blaze.getNeighborsNew_sparse g index maxDeep =
      if index ≥ g.m.columns then List.replicate (maxDeep + 1) []
      else [index] :: levels g.m.sparseRow maxDeep [index] (startMarks g.m index) :=
  getNeighborsNewWith_sparse_eq g.m index maxDeep

theorem getNeighborsNew_dense_eq (g : Graph_blaze) (index maxDeep : Nat) :
    Graph_blaze.getNeighborsNew_dense g index maxDeep =
      if index ≥ g.m.columns then List.replicate (maxDeep + 1) []
      else [index] :: levels g.m.sparseRow maxDeep [index] (startMarks g.m index) := by
  unfold Graph_blaze.getNeighborsNew_dense
  rw [scanDense_eq_scanSparse]
  exact getNeighborsNewWith_sparse_eq g.m index maxDeep

/-! ## Marks, buckets and walks -/

theorem marked_set {nodes : List Bool} {x : Nat} (v : Nat) (hx : x < nodes.length) :
    Marked (nodes.set x true) v ↔ v = x ∨ Marked nodes v := by
  unfold Marked
  rw [List.getD_eq_getElem?_getD, List.getD_eq_getElem?_getD, List.getElem?_set]
  by_cases h : x = v
  · subst h
    simp [hx]
  · have h2 : ¬ v = x := fun e => h e.symm
    simp [h, h2]

theorem not_marked_replicate (n v : Nat) : ¬ Marked (List.replicate n false) v := by
  unfold Marked
  rw [List.getD_eq_getElem?_getD, List.getElem?_replicate]
  by_cases h : v < n <;> simp [h]

theorem marked_startMarks (m : MatrixType) {index : Nat} (v : Nat) (h : index < m.columns) :
    Marked (startMarks m index) v ↔ v = index := by
  unfold startMarks
  rw [marked_set v (by simpa using h)]
  constructor
  · rintro (h1 | h1)
    · exact h1
    · exact absurd h1 (not_marked_replicate _ _)
  · exact fun h1 => Or.inl h1

theorem length_startMarks (m : MatrixType) (index : Nat) :
    (startMarks m index).length = m.columns := by
  simp [startMarks]

theorem length_marksOf (xs : List Nat) : ∀ nodes : List Bool,
    (marksOf xs nodes).length = nodes.length := by
  induction xs with
  | nil => intro nodes; rfl
  | cons x xs ih => intro nodes; simp [marksOf, ih]

theorem marked_marksOf (xs : List Nat) : ∀ (nodes : List Bool) (v : Nat),
    (∀ x ∈ xs, x < nodes.length) →
      (Marked (marksOf xs nodes) v ↔ v ∈ xs ∨ Marked nodes v) := by
  induction xs with
  | nil => intro nodes v _; simp [marksOf]
  | cons x xs ih =>
    intro nodes v h
    have hx : x < nodes.length := h x (List.mem_cons_self _ _)
    have hxs : ∀ y ∈ xs, y < (nodes.set x true).length := by
      intro y hy
      rw [List.length_set]
      exact h y (List.mem_cons_of_mem _ hy)
    simp only [marksOf]
    rw [ih _ v hxs, marked_set v hx, List.mem_cons]
    tauto

theorem mem_freshOf (xs : List Nat) : ∀ (b : List Nat) (nodes : List Bool) (v : Nat),
    (∀ x ∈ xs, x < nodes.length) →
      (v ∈ freshOf xs b nodes ↔ v ∈ b ∨ (v ∈ xs ∧ ¬ Marked nodes v)) := by
  induction xs with
  | nil => intro b nodes v _; simp [freshOf]
  | cons x xs ih =>
    intro b nodes v h
    have hx : x < nodes.length := h x (List.mem_cons_self _ _)
    have hxs : ∀ y ∈ xs, y < (nodes.set x true).length := by
      intro y hy
      rw [List.length_set]
      exact h y (List.mem_cons_of_mem _ hy)
    simp only [freshOf]
    rw [ih _ _ v hxs, marked_set v hx, List.mem_cons]
    cases hq : nodes.getD x false with
    | false =>
      have hnm : ¬ Marked nodes x := by unfold Marked; rw [hq]; simp
      simp only [if_true, List.mem_append, List.mem_singleton]
      constructor
      · rintro ((h1 | h1) | ⟨h1, h2⟩)
        · exact Or.inl h1
        · subst h1; exact Or.inr ⟨Or.inl rfl, hnm⟩
        · exact Or.inr ⟨Or.inr h1, fun hm => h2 (Or.inr hm)⟩
      · rintro (h1 | ⟨h1 | h1, h2⟩)
        · exact Or.inl (Or.inl h1)
        · exact Or.inl (Or.inr h1)
        · by_cases hvx : v = x
          · exact Or.inl (Or.inr hvx)
          · exact Or.inr ⟨h1, fun hm => hm.elim hvx h2⟩
    | true =>
      have hm : Marked nodes x := hq
      simp only [Bool.true_eq_false, if_false]
      constructor
      · rintro (h1 | ⟨h1, h2⟩)
        · exact Or.inl h1
        · exact Or.inr ⟨Or.inr h1, fun hm2 => h2 (Or.inr hm2)⟩
      · rintro (h1 | ⟨h1 | h1, h2⟩)
        · exact Or.inl h1
        · subst h1; exact absurd hm h2
        · by_cases hvx : v = x
          · subst hvx; exact absurd hm h2
          · exact Or.inr ⟨h1, fun hm2 => hm2.elim hvx h2⟩

theorem nodup_freshOf (xs : List Nat) : ∀ (b : List Nat) (nodes : List Bool),
    (∀ x ∈ xs, x < nodes.length) → b.Nodup → (∀ v ∈ b, Marked nodes v) →
      (freshOf xs b nodes).Nodup := by
  induction xs with
  | nil => intro b nodes _ hb _; simpa [freshOf] using hb
  | cons x xs ih =>
    intro b nodes h hb hbm
    have hx : x < nodes.length := h x (List.mem_cons_self _ _)
    have hxs : ∀ y ∈ xs, y < (nodes.set x true).length := by
      intro y hy
      rw [List.length_set]
      exact h y (List.mem_cons_of_mem _ hy)
    simp only [freshOf]
    apply ih _ _ hxs
    · cases hq : nodes.getD x false with
      | false =>
        have hnm : ¬ Marked nodes x := by unfold Marked; rw [hq]; simp
        simp only [if_true]
        rw [List.nodup_append]
        refine ⟨hb, List.nodup_singleton x, ?_⟩
        intro a ha ha2
        rw [List.mem_singleton] at ha2
        subst ha2
        exact hnm (hbm a ha)
      | true => simpa using hb
    · intro v hv
      rw [marked_set v hx]
      cases hq : nodes.getD x false with
      | false =>
        rw [hq] at hv
        simp only [if_true, List.mem_append, List.mem_singleton] at hv
        exact hv.elim (fun h1 => Or.inr (hbm v h1)) Or.inl
      | true =>
        rw [hq] at hv
        simp only [Bool.true_eq_false, if_false] at hv
        exact Or.inr (hbm v hv)

theorem mem_sparseRow (m : MatrixType) (u v : Nat) : v ∈ m.sparseRow u ↔ Adj m u v := by
  simp [MatrixType.sparseRow, Adj]

theorem sparseRow_lt (m : MatrixType) (parents : List Nat) :
    ∀ x ∈ parents.flatMap m.sparseRow, x < m.columns := by
  intro x hx
  rw [List.mem_flatMap] at hx
  obtain ⟨u, _, hu⟩ := hx
  exact ((mem_sparseRow m u x).1 hu).1

theorem length_levels (row : Nat → List Nat) (r : Nat) : ∀ (parents : List Nat)
    (nodes : List Bool), (levels row r parents nodes).length = r := by
  induction r with
  | zero => intro _ _; rfl
  | succ r ih => intro parents nodes; simp [levels, ih]

theorem mem_flatMap_sparseRow (m : MatrixType) (s k : Nat) (parents : List Nat)
    (hP : ∀ v, v ∈ parents ↔ IsWalk m k s v) (v : Nat) :
    v ∈ parents.flatMap m.sparseRow ↔ IsWalk m (k + 1) s v := by
  rw [List.mem_flatMap]
  constructor
  · rintro ⟨w, hw, hv⟩
    exact ⟨w, (hP w).1 hw, (mem_sparseRow m w v).1 hv⟩
  · rintro ⟨w, hw, hv⟩
    exact ⟨w, (hP w).2 hw, (mem_sparseRow m w v).2 hv⟩

/-- Bucket `i` of the levels explored from the walks of length `k` holds the nodes at distance
`k + 1 + i`. -/
theorem mem_levels (m : MatrixType) (s : Nat) (r : Nat) :
    ∀ (k : Nat) (parents : List Nat) (nodes : List Bool),
      nodes.length = m.columns →
      (∀ v, v ∈ parents ↔ IsWalk m k s v) →
      (∀ v, Marked nodes v ↔ ∃ j, j ≤ k ∧ IsWalk m j s v) →
      ∀ i v, v ∈ (levels m.sparseRow r parents nodes).getD i [] ↔
        i < r ∧ IsDist m (k + 1 + i) s v := by
  induction r with
  | zero =>
    intro k parents nodes _ _ _ i v
    simp [levels]
  | succ r ih =>
    intro k parents nodes hlen hP hM i v
    have hX := mem_flatMap_sparseRow m s k parents hP
    have hlt : ∀ x ∈ parents.flatMap m.sparseRow, x < nodes.length := by
      rw [hlen]; exact sparseRow_lt m parents
    have hM2 : ∀ v, Marked (marksOf (parents.flatMap m.sparseRow) nodes) v ↔
        ∃ j, j ≤ k + 1 ∧ IsWalk m j s v := by
      intro v
      rw [marked_marksOf _ _ v hlt, hX, hM]
      constructor
      · rintro (h1 | ⟨j, hj, h1⟩)
        · exact ⟨k + 1, Nat.le_refl _, h1⟩
        · exact ⟨j, Nat.le_succ_of_le hj, h1⟩
      · rintro ⟨j, hj, h1⟩
        rcases Nat.lt_or_ge j (k + 1) with h2 | h2
        · exact Or.inr ⟨j, Nat.lt_succ_iff.1 h2, h1⟩
        · have : j = k + 1 := Nat.le_antisymm hj h2
          subst this
          exact Or.inl h1
    cases i with
    | zero =>
      simp only [levels, List.getD_cons_zero, Nat.add_zero]
      rw [mem_freshOf _ _ _ v hlt, hX, hM]
      unfold IsDist
      constructor
      · rintro (h1 | ⟨h1, h2⟩)
        · exact absurd h1 (List.not_mem_nil v)
        · exact ⟨Nat.succ_pos r, h1, fun j hj hw => h2 ⟨j, Nat.lt_succ_iff.1 hj, hw⟩⟩
      · rintro ⟨_, h1, h2⟩
        exact Or.inr ⟨h1, fun ⟨j, hj, hw⟩ => h2 j (Nat.lt_succ_of_le hj) hw⟩
    | succ i =>
      simp only [levels, List.getD_cons_succ]
      rw [ih (k + 1) _ _ (by rw [length_marksOf]; exact hlen) hX hM2 i v]
      have e : k + 1 + 1 + i = k + 1 + (i + 1) := by omega
      rw [e]
      constructor
      · rintro ⟨h1, h2⟩; exact ⟨Nat.succ_lt_succ h1, h2⟩
      · rintro ⟨h1, h2⟩; exact ⟨Nat.lt_of_succ_lt_succ h1, h2⟩

/-- The buckets of the levels hold every node at most once, and only nodes that were not
marked before. -/
theorem nodup_levels (m : MatrixType) (r : Nat) :
    ∀ (parents : List Nat) (nodes : List Bool), nodes.length = m.columns →
      (levels m.sparseRow r parents nodes).flatten.Nodup ∧
        ∀ v ∈ (levels m.sparseRow r parents nodes).flatten, ¬ Marked nodes v := by
  induction r with
  | zero =>
    intro parents nodes _
    simp [levels]
  | succ r ih =>
    intro parents nodes hlen
    have hlt : ∀ x ∈ parents.flatMap m.sparseRow, x < nodes.length := by
      rw [hlen]; exact sparseRow_lt m parents
    obtain ⟨ih1, ih2⟩ := ih (parents.flatMap m.sparseRow)
      (marksOf (parents.flatMap m.sparseRow) nodes) (by rw [length_marksOf]; exact hlen)
    have hB : ∀ v, v ∈ freshOf (parents.flatMap m.sparseRow) [] nodes →
        v ∈ parents.flatMap m.sparseRow ∧ ¬ Marked nodes v := by
      intro v hv
      rcases (mem_freshOf _ _ _ v hlt).1 hv with h1 | h1
      · exact absurd h1 (List.not_mem_nil v)
      · exact h1
    simp only [levels, List.flatten_cons]
    constructor
    · rw [List.nodup_append]
      refine ⟨nodup_freshOf _ _ _ hlt List.nodup_nil (fun v hv => absurd hv (List.not_mem_nil v)),
        ih1, ?_⟩
      intro v hv1 hv2
      exact ih2 v hv2 ((marked_marksOf _ _ v hlt).2 (Or.inl (hB v hv1).1))
    · intro v hv
      rw [List.mem_append] at hv
      rcases hv with hv | hv
      · exact (hB v hv).2
      · exact fun hm => ih2 v hv ((marked_marksOf _ _ v hlt).2 (Or.inr hm))

theorem mem_explored (m : MatrixType) (index maxDeep : Nat) (h : index < m.columns)
    (d v : Nat) :
    v ∈ (explored m index maxDeep).getD d [] ↔ d ≤ maxDeep ∧ IsDist m d index v := by
  unfold explored
  rw [if_neg (Nat.not_le_of_lt h)]
  cases d with
  | zero =>
    simp only [List.getD_cons_zero, List.mem_singleton, Nat.zero_le, true_and]
    unfold IsDist
    constructor
    · intro hv
      exact ⟨hv.symm, fun k hk => absurd hk (Nat.not_lt_zero k)⟩
    · intro hv
      exact hv.1.symm
  | succ d =>
    simp only [List.getD_cons_succ]
    have hP : ∀ v, v ∈ [index] ↔ IsWalk m 0 index v := by
      intro v
      rw [List.mem_singleton]
      exact ⟨fun e => e.symm, fun e => e.symm⟩
    have hM : ∀ v, Marked (startMarks m index) v ↔ ∃ j, j ≤ 0 ∧ IsWalk m j index v := by
      intro v
      rw [marked_startMarks m v h]
      constructor
      · intro e; exact ⟨0, Nat.le_refl 0, e.symm⟩
      · rintro ⟨j, hj, hw⟩
        have : j = 0 := Nat.le_zero.1 hj
        subst this
        exact hw.symm
    rw [mem_levels m index maxDeep 0 [index] _ (length_startMarks m index) hP hM d v]
    have e : 0 + 1 + d = d + 1 := by omega
    rw [e]
    constructor
    · rintro ⟨h1, h2⟩; exact ⟨h1, h2⟩
    · rintro ⟨h1, h2⟩; exact ⟨h1, h2⟩

theorem nodup_explored (m : MatrixType) (index maxDeep : Nat) :
    (explored m index maxDeep).flatten.Nodup := by
  unfold explored
  by_cases h : index ≥ m.columns
  · rw [if_pos h]
    have : (List.replicate (maxDeep + 1) ([] : List Nat)).flatten = [] := by
      rw [List.flatten_eq_nil_iff]
      intro l hl
      exact (List.mem_replicate.1 hl).2
    rw [this]
    exact List.nodup_nil
  · rw [if_neg h]
    obtain ⟨h1, h2⟩ := nodup_levels m maxDeep [index] (startMarks m index)
      (length_startMarks m index)
    simp only [List.flatten_cons, List.singleton_append]
    rw [List.nodup_cons]
    exact ⟨fun hv => h2 index hv ((marked_startMarks m index (Nat.lt_of_not_le h)).2 rfl), h1⟩

theorem length_explored (m : MatrixType) (index maxDeep : Nat) :
    (explored m index maxDeep).length = maxDeep + 1 := by
  unfold explored
  by_cases h : index ≥ m.columns
  · rw [if_pos h]; simp
  · rw [if_neg h]; simp [length_levels]

/-! ## The edge builder -/

theorem assignAll_shape (sym : Bool) (ps : List (Nat × Nat)) : ∀ m : MatrixType,
    (ps.foldl (fun m p => if p.1 ≠ p.2 then m.assign sym p.1 p.2 else m) m).rows = m.rows ∧
    (ps.foldl (fun m p => if p.1 ≠ p.2 then m.assign sym p.1 p.2 else m) m).columns =
      m.columns := by
  induction ps with
  | nil => intro m; exact ⟨rfl, rfl⟩
  | cons p ps ih =>
    intro m
    rw [List.foldl_cons]
    by_cases h : p.1 ≠ p.2
    · rw [if_pos h]; exact ih _
    · rw [if_neg h]; exact ih _

theorem assignAll_get (sym : Bool) (ps : List (Nat × Nat)) : ∀ (m : MatrixType) (a b : Nat),
    (ps.foldl (fun m p => if p.1 ≠ p.2 then m.assign sym p.1 p.2 else m) m).get a b = true ↔
      m.get a b = true ∨
        ∃ p ∈ ps, p.1 ≠ p.2 ∧ ((a = p.1 ∧ b = p.2) ∨ (sym = true ∧ a = p.2 ∧ b = p.1)) := by
  induction ps with
  | nil => intro m a b; simp
  | cons p ps ih =>
    intro m a b
    rw [List.foldl_cons, ih]
    by_cases h : p.1 ≠ p.2
    · rw [if_pos h]
      simp only [MatrixType.assign, Bool.or_eq_true, Bool.and_eq_true, beq_iff_eq,
        List.mem_cons, exists_eq_or_imp]
      constructor
      · rintro (((h1 | h1) | h1) | h1)
        · exact Or.inr (Or.inl ⟨h, Or.inl h1⟩)
        · exact Or.inr (Or.inl ⟨h, Or.inr h1⟩)
        · exact Or.inl h1
        · exact Or.inr (Or.inr h1)
      · rintro (h1 | ⟨_, h1 | h1⟩ | h1)
        · exact Or.inl (Or.inr h1)
        · exact Or.inl (Or.inl (Or.inl h1))
        · exact Or.inl (Or.inl (Or.inr h1))
        · exact Or.inr h1
    · rw [if_neg h]
      simp only [List.mem_cons, exists_eq_or_imp]
      constructor
      · rintro (h1 | h1)
        · exact Or.inl h1
        · exact Or.inr (Or.inr h1)
      · rintro (h1 | ⟨h2, _⟩ | h1)
        · exact Or.inl h1
        · exact absurd h2 h
        · exact Or.inr h1

theorem buildEdges_get (sym : Bool) (ps : List (Nat × Nat)) (g : Graph_blaze) (a b : Nat) :
    (Graph_blaze.buildEdges sym ps g).m.get a b = true ↔
      ∃ p ∈ ps, p.1 ≠ p.2 ∧ ((a = p.1 ∧ b = p.2) ∨ (sym = true ∧ a = p.2 ∧ b = p.1)) := by
  unfold Graph_blaze.buildEdges
  simp only []
  rw [assignAll_get]
  simp [MatrixType.reset]

theorem buildEdges_shape (sym : Bool) (ps : List (Nat × Nat)) (g : Graph_blaze) :
    (Graph_blaze.buildEdges sym ps g).m.rows = Graph_blaze.maxIndex ps + 1 ∧
    (Graph_blaze.buildEdges sym ps g).m.columns = Graph_blaze.maxIndex ps + 1 := by
  unfold Graph_blaze.buildEdges
  simp only []
  have h := assignAll_shape sym ps ((g.m.resize (Graph_blaze.maxIndex ps + 1)
    (Graph_blaze.maxIndex ps + 1)).reset)
  exact ⟨h.1, h.2⟩

theorem buildEdges_nodesNumber (sym : Bool) (ps : List (Nat × Nat)) (g : Graph_blaze) :
    (Graph_blaze.buildEdges sym ps g).nodesNumber =
      Nat.max g.nodesNumber (Graph_blaze.maxIndex ps + 1) := by
  unfold Graph_blaze.buildEdges
  simp only []
  by_cases h : Graph_blaze.maxIndex ps + 1 > g.nodesNumber
  · rw [if_pos h]; exact (Nat.max_eq_right (Nat.le_of_lt h)).symm
  · rw [if_neg h]; exact (Nat.max_eq_left (Nat.le_of_not_lt h)).symm

theorem buildEdges_valid (sym : Bool) (ps : List (Nat × Nat)) (g : Graph_blaze) :
    (Graph_blaze.buildEdges sym ps g).valid = g.valid := rfl

/-- With a symmetric container, the entry `(a, b)` is set exactly when `a != b` and the pair
is listed in one of the two orders. -/
theorem buildEdges_symmetric_get (ps : List (Nat × Nat)) (g : Graph_blaze) (a b : Nat) :
    (Graph_blaze.buildEdges true ps g).m.get a b = true ↔
      a ≠ b ∧ ((a, b) ∈ ps ∨ (b, a) ∈ ps) := by
  rw [buildEdges_get]
  constructor
  · rintro ⟨⟨p1, p2⟩, hp, hne, (⟨h1, h2⟩ | ⟨_, h1, h2⟩)⟩
    · simp only at h1 h2 hne
      subst h1 h2
      exact ⟨hne, Or.inl hp⟩
    · simp only at h1 h2 hne
      subst h1 h2
      exact ⟨fun e => hne e.symm, Or.inr hp⟩
  · rintro ⟨hne, (h | h)⟩
    · exact ⟨(a, b), h, hne, Or.inl ⟨rfl, rfl⟩⟩
    · exact ⟨(b, a), h, fun e => hne e.symm, Or.inr ⟨rfl, rfl, rfl⟩⟩

theorem symmetricNoLoops_buildEdges (ps : List (Nat × Nat)) (g : Graph_blaze) :
    SymmetricNoLoops (Graph_blaze.buildEdges true ps g).m := by
  intro i j
  constructor
  · rw [Bool.eq_iff_iff, buildEdges_symmetric_get, buildEdges_symmetric_get]
    constructor
    · rintro ⟨h1, h2⟩; exact ⟨fun e => h1 e.symm, h2.symm⟩
    · rintro ⟨h1, h2⟩; exact ⟨fun e => h1 e.symm, h2.symm⟩
  · rw [Bool.eq_false_iff]
    intro h
    exact ((buildEdges_symmetric_get ps g i i).1 h).1 rfl

theorem symmetricNoLoops_empty : SymmetricNoLoops MatrixType.empty := by
  intro i j
  exact ⟨rfl, rfl⟩

theorem maxFold_spec (ps : List (Nat × Nat)) : ∀ acc : Nat,
    acc ≤ ps.foldl (fun max p =>
        let max := if p.1 > max then p.1 else max
        if p.2 > max then p.2 else max) acc ∧
    (∀ p ∈ ps, p.1 ≤ ps.foldl (fun max p =>
        let max := if p.1 > max then p.1 else max
        if p.2 > max then p.2 else max) acc ∧
      p.2 ≤ ps.foldl (fun max p =>
        let max := if p.1 > max then p.1 else max
        if p.2 > max then p.2 else max) acc) := by
  induction ps with
  | nil => intro acc; simp
  | cons q ps ih =>
    intro acc
    rw [List.foldl_cons]
    obtain ⟨h1, h2⟩ := ih (let max := if q.1 > acc then q.1 else acc
      if q.2 > max then q.2 else max)
    have hacc : acc ≤ (let max := if q.1 > acc then q.1 else acc
        if q.2 > max then q.2 else max) ∧
        q.1 ≤ (let max := if q.1 > acc then q.1 else acc
        if q.2 > max then q.2 else max) ∧
        q.2 ≤ (let max := if q.1 > acc then q.1 else acc
        if q.2 > max then q.2 else max) := by
      simp only []
      split_ifs <;> omega
    refine ⟨Nat.le_trans hacc.1 h1, ?_⟩
    intro p hp
    rw [List.mem_cons] at hp
    rcases hp with hp | hp
    · subst hp
      exact ⟨Nat.le_trans hacc.2.1 h1, Nat.le_trans hacc.2.2 h1⟩
    · exact h2 p hp

theorem le_maxIndex (ps : List (Nat × Nat)) (p : Nat × Nat) (hp : p ∈ ps) :
    p.1 ≤ Graph_blaze.maxIndex ps ∧ p.2 ≤ Graph_blaze.maxIndex ps :=
  (maxFold_spec ps 0).2 p hp

/-- A fresh graph has a container no larger than its node count. -/
theorem init_columns_le (n : Nat) :
    (Graph_blaze.init n).m.columns ≤ (Graph_blaze.init n).nodesNumber :=
  Nat.zero_le n

/-- After `buildEdges`, whatever the graph was before, the container is no larger than the
node count. -/
theorem buildEdges_columns_le (sym : Bool) (ps : List (Nat × Nat)) (g : Graph_blaze) :
    (Graph_blaze.buildEdges sym ps g).m.columns ≤ (Graph_blaze.buildEdges sym ps g).nodesNumber := by
  rw [(buildEdges_shape sym ps g).2, buildEdges_nodesNumber]
  exact Nat.le_max_right _ _

/-! ## The neighbourhood explorer: claims -/

/-- C1. BFS depth partition: in a graph whose container has as many columns as the graph has
nodes, for a start node below the node count, node `v` occurs in bucket `d` of the sparse and of
the dense `getNeighborsNew(start, maxDepth)` exactly when `d <= maxDepth` and the shortest-path
distance from `start` to `v` is `d`; a node with no walk of at most `maxDepth` edges from
`start` occurs in no bucket.  (Symmetry of the container is not needed.) -/
theorem getNeighborsNew_depth_partition (g : Graph_blaze) (start maxDepth : Nat)
    (hsize : g.m.columns = g.nodesNumber) (hstart : start < g.nodesNumber) :
    (∀ d v, v ∈ (g.getNeighborsNew_sparse start maxDepth).getD d [] ↔
        d ≤ maxDepth ∧ IsDist g.m d start v) ∧
    (∀ d v, v ∈ (g.getNeighborsNew_dense start maxDepth).getD d [] ↔
        d ≤ maxDepth ∧ IsDist g.m d start v) ∧
    (∀ v, (∀ k, k ≤ maxDepth → ¬ IsWalk g.m k start v) →
        ∀ d, v ∉ (g.getNeighborsNew_sparse start maxDepth).getD d [] ∧
          v ∉ (g.getNeighborsNew_dense start maxDepth).getD d []) := by
  have hlt : start < g.m.columns := by rw [hsize]; exact hstart
  have hs : g.getNeighborsNew_sparse start maxDepth = explored g.m start maxDepth :=
    getNeighborsNew_sparse_eq g start maxDepth
  have hd : g.getNeighborsNew_dense start maxDepth = explored g.m start maxDepth :=
    getNeighborsNew_dense_eq g start maxDepth
  rw [hs, hd]
  refine ⟨mem_explored g.m start maxDepth hlt, mem_explored g.m start maxDepth hlt, ?_⟩
  intro v hno d
  have : v ∉ (explored g.m start maxDepth).getD d [] := by
    intro hv
    obtain ⟨h1, h2⟩ := (mem_explored g.m start maxDepth hlt d v).1 hv
    exact hno d h1 h2.1
  exact ⟨this, this⟩

/-- C2. At-most-once invariant: for every container (symmetric or not), every start and every
`maxDepth`, the concatenation of all buckets returned by the sparse and by the dense
`getNeighborsNew` holds no node index twice. -/
theorem getNeighborsNew_at_most_once (g : Graph_blaze) (start maxDepth : Nat) :
    (g.getNeighborsNew_sparse start maxDepth).flatten.Nodup ∧
    (g.getNeighborsNew_dense start maxDepth).flatten.Nodup := by
  rw [getNeighborsNew_sparse_eq g start maxDepth, getNeighborsNew_dense_eq g start maxDepth]
  exact ⟨nodup_explored g.m start maxDepth, nodup_explored g.m start maxDepth⟩

/-- C3. Result shape: in a graph whose container has as many columns as the graph has nodes
(every valid generated graph), for `start < getNodesNumber()` the sparse and the dense
`getNeighborsNew(start, maxDepth)` return exactly `maxDepth + 1` buckets and bucket 0 is the
one-element list `[start]`. -/
theorem getNeighborsNew_shape (g : Graph_blaze) (start maxDepth : Nat)
    (hsize : g.m.columns = g.getNodesNumber) (hstart : start < g.getNodesNumber) :
    ((g.getNeighborsNew_sparse start maxDepth).length = maxDepth + 1 ∧
      (g.getNeighborsNew_sparse start maxDepth)[0]? = some [start]) ∧
    ((g.getNeighborsNew_dense start maxDepth).length = maxDepth + 1 ∧
      (g.getNeighborsNew_dense start maxDepth)[0]? = some [start]) := by
  have hlt : ¬ start ≥ g.m.columns := by rw [hsize]; exact Nat.not_le_of_lt hstart
  rw [getNeighborsNew_sparse_eq g start maxDepth, getNeighborsNew_dense_eq g start maxDepth]
  have hl := length_explored g.m start maxDepth
  unfold explored at hl
  rw [if_neg hlt] at hl ⊢
  exact ⟨⟨hl, List.getElem?_cons_zero⟩, ⟨hl, List.getElem?_cons_zero⟩⟩

/-- C4. Out-of-range query: in a graph whose container has at most as many columns as the graph
has nodes (so is every graph the class produces: the container of a fresh graph is `0 × 0`,
and `buildEdges` leaves it no larger than the node count, see `init_columns_le` and
`buildEdges_columns_le`), for every `maxDepth` and every `start >= nodeCount` the sparse and the
dense `getNeighborsNew(start, maxDepth)` return exactly `maxDepth + 1` buckets, all empty. -/
theorem getNeighborsNew_out_of_range (g : Graph_blaze) (start maxDepth : Nat)
    (hsize : g.m.columns ≤ g.nodesNumber) (hstart : g.nodesNumber ≤ start) :
    g.getNeighborsNew_sparse start maxDepth = List.replicate (maxDepth + 1) [] ∧
    g.getNeighborsNew_dense start maxDepth = List.replicate (maxDepth + 1) [] := by
  have hge : start ≥ g.m.columns := Nat.le_trans hsize hstart
  rw [getNeighborsNew_sparse_eq g start maxDepth, getNeighborsNew_dense_eq g start maxDepth,
    if_pos hge]
  exact ⟨rfl, rfl⟩

/-- Witness of C1: the 2 × 2 four-connected grid, start node 0, depth 2. -/
theorem getNeighborsNew_depth_partition_witness :
    (Grid4_blaze.ofSize 2 2).m.columns = (Grid4_blaze.ofSize 2 2).nodesNumber ∧
    0 < (Grid4_blaze.ofSize 2 2).nodesNumber ∧
    (∀ d v, v ∈ ((Grid4_blaze.ofSize 2 2).getNeighborsNew_sparse 0 2).getD d [] ↔
        d ≤ 2 ∧ IsDist (Grid4_blaze.ofSize 2 2).m d 0 v) :=
  ⟨by decide, by decide,
    (getNeighborsNew_depth_partition (Grid4_blaze.ofSize 2 2) 0 2 (by decide) (by decide)).1⟩

/-- Witness of C3: the 2 × 2 four-connected grid, start node 3, depth 2. -/
theorem getNeighborsNew_shape_witness :
    (Grid4_blaze.ofSize 2 2).m.columns = (Grid4_blaze.ofSize 2 2).getNodesNumber ∧
    3 < (Grid4_blaze.ofSize 2 2).getNodesNumber ∧
    ((Grid4_blaze.ofSize 2 2).getNeighborsNew_sparse 3 2).length = 2 + 1 ∧
    ((Grid4_blaze.ofSize 2 2).getNeighborsNew_sparse 3 2)[0]? = some [3] :=
  ⟨by decide, by decide,
    (getNeighborsNew_shape (Grid4_blaze.ofSize 2 2) 3 2 (by decide) (by decide)).1⟩

/-- Witness of C4: the invalid `Paley_blaze(6)`, queried at index 6 with depth 2. -/
theorem getNeighborsNew_out_of_range_witness :
    (Paley_blaze.ofNodesNumber 6).m.columns ≤ (Paley_blaze.ofNodesNumber 6).nodesNumber ∧
    (Paley_blaze.ofNodesNumber 6).nodesNumber ≤ 6 ∧
    (Paley_blaze.ofNodesNumber 6).getNeighborsNew_sparse 6 2 = [[], [], []] :=
  ⟨by decide, by decide,
    (getNeighborsNew_out_of_range (Paley_blaze.ofNodesNumber 6) 6 2 (by decide) (by decide)).1⟩

/-- C5. Weighted store: when the element type is not boolean (`isWeighted`), `getNeighborsNew`
and `getNeighbours` return a result with no bucket at all, for every start, every `maxDepth`
and every content of the container. -/
theorem weighted_returns_no_bucket (isDense : Bool) (fuel : Nat) (g : Graph_blaze)
    (start maxDepth : Nat) :
    Graph_blaze.getNeighborsNew true isDense g start maxDepth = [] ∧
    Graph_blaze.getNeighbours true fuel g start maxDepth = some [] :=
  ⟨rfl, rfl⟩

/-! ## The edge builder: claims -/

/-- C6. Postcondition of `buildEdges` on a symmetric container: for every edge-pair list and
every prior graph, after `buildEdges(pairs)` the entry `(i, j)` is set if and only if `i != j`
and `(i, j)` or `(j, i)` is listed; so both orders of a listed pair are set, a pair with equal
components sets nothing, and nothing of the prior content survives. -/
theorem buildEdges_postcondition (pairs : List (Nat × Nat)) (g : Graph_blaze) (i j : Nat) :
    (Graph_blaze.buildEdges true pairs g).m.get i j = true ↔
      i ≠ j ∧ ((i, j) ∈ pairs ∨ (j, i) ∈ pairs) :=
  buildEdges_symmetric_get pairs g i j

/-- C8. What `buildEdges` does where the claim fails: on a graph of 5 nodes the one pair
`(0, 1)` leaves the node count at 5 and shrinks the container to `2 × 2`. -/
theorem buildEdges_store_smaller_than_nodeCount :
    (Graph_blaze.buildEdges true [(0, 1)] (Graph_blaze.init 5)).nodesNumber = 5 ∧
    (Graph_blaze.buildEdges true [(0, 1)] (Graph_blaze.init 5)).m.rows = 2 ∧
    (Graph_blaze.buildEdges true [(0, 1)] (Graph_blaze.init 5)).m.columns = 2 := by
  decide

/-! ## The generators: symmetry and the size check of the grids -/

theorem symmetricNoLoops_grid4_construct (width height : Nat) (g : Graph_blaze) :
    SymmetricNoLoops (Grid4_blaze.construct width height g).m :=
  symmetricNoLoops_buildEdges _ _

theorem symmetricNoLoops_grid6_construct (width height : Nat) (g : Graph_blaze) :
    SymmetricNoLoops (Grid6_blaze.construct width height g).m :=
  symmetricNoLoops_buildEdges _ _

theorem symmetricNoLoops_grid8_construct (width height : Nat) (g : Graph_blaze) :
    SymmetricNoLoops (Grid8_blaze.construct width height g).m :=
  symmetricNoLoops_buildEdges _ _

theorem halveLoop_isSome : ∀ (fuel d s : Nat), 0 < d → d ≤ fuel →
    (LPS_blaze.halveLoop fuel d s).isSome = true := by
  intro fuel
  induction fuel with
  | zero => intro d s h1 h2; omega
  | succ fuel ih =>
    intro d s h1 h2
    unfold LPS_blaze.halveLoop
    by_cases h : d % 2 = 0
    · rw [if_pos h]
      exact ih (d / 2) (s + 1) (by omega) (by omega)
    · rw [if_neg h]
      rfl

theorem millerRabin_isSome (witness : Nat → Nat) (n : Nat) (h : 2 ≤ n) :
    (LPS_blaze.millerRabin witness n).isSome = true := by
  unfold LPS_blaze.millerRabin
  rw [if_neg (by omega)]
  have hs := halveLoop_isSome n (n - 1) 0 (by omega) (by omega)
  cases hq : LPS_blaze.halveLoop n (n - 1) 0 with
  | none => rw [hq] at hs; exact absurd hs (by simp)
  | some ds => rfl

theorem lps_isSome (witness : Nat → Nat) (n : Nat) (h : 2 ≤ n) :
    (LPS_blaze.ofNodesNumber witness n).isSome = true := by
  unfold LPS_blaze.ofNodesNumber
  have hs := millerRabin_isSome witness n h
  cases hq : LPS_blaze.millerRabin witness n with
  | none => rw [hq] at hs; exact absurd hs (by simp)
  | some b => cases b <;> rfl

theorem symmetricNoLoops_lps (witness : Nat → Nat) (n : Nat) (g : Graph_blaze)
    (h : LPS_blaze.ofNodesNumber witness n = some g) : SymmetricNoLoops g.m := by
  unfold LPS_blaze.ofNodesNumber at h
  cases hq : LPS_blaze.millerRabin witness n with
  | none => rw [hq] at h; exact absurd h (by simp)
  | some b =>
    rw [hq] at h
    cases b with
    | false =>
      simp only [Option.some.injEq] at h
      subst h
      exact symmetricNoLoops_empty
    | true =>
      simp only [Option.some.injEq] at h
      subst h
      exact symmetricNoLoops_buildEdges _ _

theorem bool_eq_false_iff_not {b : Bool} {p : Prop} (h : b = true ↔ p) : b = false ↔ ¬ p := by
  cases b
  · simp only [true_iff]
    intro hp
    exact absurd (h.2 hp) (by simp)
  · simp only [Bool.true_eq_false, false_iff, not_not]
    exact h.1 rfl

theorem grid4_valid_iff (n : Nat) :
    (Grid4_blaze.ofNodesNumber n).isValid = true ↔ ∃ k, k * k = n := by
  rw [Nat.exists_mul_self]
  unfold Grid4_blaze.ofNodesNumber Graph_blaze.isValid
  simp only []
  split_ifs with h
  · exact ⟨fun h1 => absurd h1 (by simp), fun h1 => absurd h1 h⟩
  · exact ⟨fun _ => not_not.1 h, fun _ => rfl⟩

theorem grid6_valid_iff (n : Nat) :
    (Grid6_blaze.ofNodesNumber n).isValid = true ↔ ∃ k, k * k = n := by
  rw [Nat.exists_mul_self]
  unfold Grid6_blaze.ofNodesNumber Graph_blaze.isValid
  simp only []
  split_ifs with h
  · exact ⟨fun h1 => absurd h1 (by simp), fun h1 => absurd h1 h⟩
  · exact ⟨fun _ => not_not.1 h, fun _ => rfl⟩

theorem grid8_valid_iff (n : Nat) :
    (Grid8_blaze.ofNodesNumber n).isValid = true ↔ ∃ k, k * k = n := by
  rw [Nat.exists_mul_self]
  unfold Grid8_blaze.ofNodesNumber Graph_blaze.isValid
  simp only []
  split_ifs with h
  · exact ⟨fun h1 => absurd h1 (by simp), fun h1 => absurd h1 h⟩
  · exact ⟨fun _ => not_not.1 h, fun _ => rfl⟩

theorem mem_intRange (lo hi x : Int) : x ∈ intRange lo hi ↔ lo ≤ x ∧ x ≤ hi := by
  unfold intRange
  rw [List.mem_map]
  constructor
  · rintro ⟨k, hk, rfl⟩
    rw [List.mem_range] at hk
    omega
  · rintro ⟨h1, h2⟩
    refine ⟨(x - lo).toNat, ?_, ?_⟩
    · rw [List.mem_range]; omega
    · omega

theorem mem_cellLoop (width height : Nat) (body : Nat → Nat → List (Nat × Nat))
    (p : Nat × Nat) :
    p ∈ cellLoop width height body ↔ ∃ i j, i < height ∧ j < width ∧ p ∈ body i j := by
  unfold cellLoop
  simp only [List.mem_flatMap, List.mem_range]
  constructor
  · rintro ⟨i, hi, j, hj, hp⟩; exact ⟨i, j, hi, hj, hp⟩
  · rintro ⟨i, j, hi, hj, hp⟩; exact ⟨i, hi, j, hj, hp⟩

theorem flat_div {w i j : Nat} (hj : j < w) : (i * w + j) / w = i := by
  rw [Nat.add_comm, Nat.add_mul_div_right _ _ (Nat.lt_of_le_of_lt (Nat.zero_le j) hj),
    Nat.div_eq_of_lt hj, Nat.zero_add]

theorem flat_mod {w i j : Nat} (hj : j < w) : (i * w + j) % w = j := by
  rw [Nat.add_comm, Nat.add_mul_mod_self_right, Nat.mod_eq_of_lt hj]

theorem flat_inj {w i j i2 j2 : Nat} (hj : j < w) (hj2 : j2 < w)
    (h : i * w + j = i2 * w + j2) : i = i2 ∧ j = j2 := by
  constructor
  · have := congrArg (fun x => x / w) h
    simpa [flat_div hj, flat_div hj2] using this
  · have := congrArg (fun x => x % w) h
    simpa [flat_mod hj, flat_mod hj2] using this

theorem flat_lt {w h i j : Nat} (hi : i < h) (hj : j < w) : i * w + j < w * h := by
  have h1 : (i + 1) * w ≤ h * w := Nat.mul_le_mul_right w hi
  have h2 : (i + 1) * w = i * w + w := Nat.succ_mul i w
  have h3 : h * w = w * h := Nat.mul_comm h w
  omega

/-- The pairs appended for the cell `(i, j)` by the offset loops: the cell paired with every
cell `(i2, j2)` of the grid at most one row and one column away whose offset is kept. -/
theorem mem_offsetPairs (keep : Int → Int → Bool) (width height i j : Nat)
    (hi : i < height) (hj : j < width) (a b : Nat) :
    (a, b) ∈ offsetPairs keep width height i j ↔
      a = i * width + j ∧ ∃ i2 j2, i2 < height ∧ j2 < width ∧
        Nat.dist i i2 ≤ 1 ∧ Nat.dist j j2 ≤ 1 ∧
        keep ((i2 : Int) - i) ((j2 : Int) - j) = true ∧ b = i2 * width + j2 := by
  unfold offsetPairs
  simp only [List.mem_flatMap, mem_intRange]
  constructor
  · rintro ⟨ii, ⟨h1, h2⟩, jj, ⟨h3, h4⟩, hmem⟩
    by_cases hk : keep ii jj = true
    · rw [if_pos hk, List.mem_singleton, Prod.mk.injEq] at hmem
      obtain ⟨ha, hb⟩ := hmem
      have b1 : -1 ≤ ii ∧ (0 < i ∨ 0 ≤ ii) := by split_ifs at h1 <;> omega
      have b2 : ii ≤ 1 ∧ (i + 1 < height ∨ ii ≤ 0) := by split_ifs at h2 <;> omega
      have b3 : -1 ≤ jj ∧ (0 < j ∨ 0 ≤ jj) := by split_ifs at h3 <;> omega
      have b4 : jj ≤ 1 ∧ (j + 1 < width ∨ jj ≤ 0) := by split_ifs at h4 <;> omega
      have e1 : (((i : Int) + ii).toNat : Int) - i = ii := by omega
      have e2 : (((j : Int) + jj).toNat : Int) - j = jj := by omega
      refine ⟨ha, ((i : Int) + ii).toNat, ((j : Int) + jj).toNat, ?_, ?_, ?_, ?_, ?_, hb⟩
      · omega
      · omega
      · unfold Nat.dist; omega
      · unfold Nat.dist; omega
      · rw [e1, e2]; exact hk
    · rw [if_neg hk] at hmem
      exact absurd hmem (List.not_mem_nil _)
  · rintro ⟨ha, i2, j2, hi2, hj2, hd1, hd2, hk, hb⟩
    unfold Nat.dist at hd1 hd2
    refine ⟨(i2 : Int) - i, ⟨?_, ?_⟩, (j2 : Int) - j, ⟨?_, ?_⟩, ?_⟩
    · split_ifs <;> omega
    · split_ifs <;> omega
    · split_ifs <;> omega
    · split_ifs <;> omega
    · rw [if_pos hk, List.mem_singleton, Prod.mk.injEq]
      have e1 : ((i : Int) + ((i2 : Int) - i)).toNat = i2 := by omega
      have e2 : ((j : Int) + ((j2 : Int) - j)).toNat = j2 := by omega
      rw [e1, e2]
      exact ⟨ha, hb⟩

/-- A pair of cell indices is listed by the offset loops exactly when the second cell is at
most one row and one column away from the first and the offset is kept. -/
theorem mem_offsetLoop (keep : Int → Int → Bool) (width height i j i2 j2 : Nat)
    (hi : i < height) (hj : j < width) (hi2 : i2 < height) (hj2 : j2 < width) :
    (i * width + j, i2 * width + j2) ∈ cellLoop width height (offsetPairs keep width height) ↔
      Nat.dist i i2 ≤ 1 ∧ Nat.dist j j2 ≤ 1 ∧ keep ((i2 : Int) - i) ((j2 : Int) - j) = true := by
  rw [mem_cellLoop]
  constructor
  · rintro ⟨i', j', hi', hj', hmem⟩
    rw [mem_offsetPairs keep width height i' j' hi' hj'] at hmem
    obtain ⟨ha, i3, j3, _, hj3, hd1, hd2, hk, hb⟩ := hmem
    obtain ⟨e1, e2⟩ := flat_inj hj hj' ha
    obtain ⟨e3, e4⟩ := flat_inj hj2 hj3 hb
    subst e1 e2 e3 e4
    exact ⟨hd1, hd2, hk⟩
  · rintro ⟨hd1, hd2, hk⟩
    refine ⟨i, j, hi, hj, ?_⟩
    rw [mem_offsetPairs keep width height i j hi hj]
    exact ⟨rfl, i2, j2, hi2, hj2, hd1, hd2, hk, rfl⟩

/-- Every index listed by the offset loops is the index of a cell of the grid. -/
theorem offsetLoop_cells (keep : Int → Int → Bool) (width height a b : Nat)
    (h : (a, b) ∈ cellLoop width height (offsetPairs keep width height)) :
    (∃ i j, i < height ∧ j < width ∧ a = i * width + j) ∧
    (∃ i j, i < height ∧ j < width ∧ b = i * width + j) := by
  rw [mem_cellLoop] at h
  obtain ⟨i, j, hi, hj, hmem⟩ := h
  rw [mem_offsetPairs keep width height i j hi hj] at hmem
  obtain ⟨ha, i2, j2, hi2, hj2, _, _, _, hb⟩ := hmem
  exact ⟨⟨i, j, hi, hj, ha⟩, ⟨i2, j2, hi2, hj2, hb⟩⟩

theorem grid4_get (width height : Nat) (g : Graph_blaze) (a b : Nat) :
    (Grid4_blaze.construct width height g).m.get a b = true ↔
      a ≠ b ∧ ((a, b) ∈ Grid4_blaze.edgesPairs width height ∨
        (b, a) ∈ Grid4_blaze.edgesPairs width height) :=
  buildEdges_symmetric_get _ _ a b

/-- Edge rule of the four-connected grid on cells. -/
theorem grid4_get_cells (width height : Nat) (g : Graph_blaze) (i j i2 j2 : Nat)
    (hi : i < height) (hj : j < width) (hi2 : i2 < height) (hj2 : j2 < width) :
    (Grid4_blaze.construct width height g).m.get (i * width + j) (i2 * width + j2) = true ↔
      Nat.dist i i2 + Nat.dist j j2 = 1 := by
  rw [grid4_get]
  unfold Grid4_blaze.edgesPairs
  rw [mem_offsetLoop _ width height i j i2 j2 hi hj hi2 hj2,
    mem_offsetLoop _ width height i2 j2 i j hi2 hj2 hi hj]
  simp only [Bool.or_eq_true, decide_eq_true_eq]
  unfold Nat.dist
  constructor
  · rintro ⟨hne, h⟩
    have hne2 : ¬ (i = i2 ∧ j = j2) := by
      rintro ⟨e1, e2⟩
      subst e1 e2
      exact hne rfl
    omega
  · intro h
    constructor
    · intro e
      obtain ⟨e1, e2⟩ := flat_inj hj hj2 e
      omega
    · left
      omega

theorem isDist_one (m : MatrixType) (u v : Nat) : IsDist m 1 u v ↔ Adj m u v ∧ u ≠ v := by
  unfold IsDist
  constructor
  · rintro ⟨⟨w, hw, ha⟩, h2⟩
    have e : u = w := hw
    subst e
    exact ⟨ha, fun e => h2 0 Nat.zero_lt_one e⟩
  · rintro ⟨ha, hne⟩
    refine ⟨⟨u, rfl, ha⟩, ?_⟩
    intro k hk hw
    have : k = 0 := by omega
    subst this
    exact hne hw

theorem grid4_self_pair (width height i j : Nat) (hi : i < height) (hj : j < width) :
    (i * width + j, i * width + j) ∈ Grid4_blaze.edgesPairs width height := by
  unfold Grid4_blaze.edgesPairs
  rw [mem_offsetLoop _ width height i j i j hi hj hi hj]
  unfold Nat.dist
  simp

theorem grid4_cell_lt_columns (width height : Nat) (g : Graph_blaze) (i j : Nat)
    (hi : i < height) (hj : j < width) :
    i * width + j < (Grid4_blaze.construct width height g).m.columns := by
  have h1 := (le_maxIndex _ _ (grid4_self_pair width height i j hi hj)).1
  have h2 : (Grid4_blaze.construct width height g).m.columns =
      Graph_blaze.maxIndex (Grid4_blaze.edgesPairs width height) + 1 :=
    (buildEdges_shape _ _ _).2
  rw [h2]
  exact Nat.lt_succ_of_le h1

/-- The neighbours of a cell of the four-connected grid are the cells at Manhattan distance 1. -/
theorem grid4_adj (width height : Nat) (g : Graph_blaze) (i j v : Nat)
    (hi : i < height) (hj : j < width) :
    Adj (Grid4_blaze.construct width height g).m (i * width + j) v ↔
      ∃ i2 j2, i2 < height ∧ j2 < width ∧ v = i2 * width + j2 ∧
        Nat.dist i i2 + Nat.dist j j2 = 1 := by
  unfold Adj
  constructor
  · rintro ⟨_, hget⟩
    have hmem := ((grid4_get width height g _ _).1 hget).2
    have hcell : ∃ i2 j2, i2 < height ∧ j2 < width ∧ v = i2 * width + j2 := by
      rcases hmem with h | h
      · exact (offsetLoop_cells _ width height _ _ h).2
      · exact (offsetLoop_cells _ width height _ _ h).1
    obtain ⟨i2, j2, hi2, hj2, hv⟩ := hcell
    subst hv
    exact ⟨i2, j2, hi2, hj2, rfl,
      (grid4_get_cells width height g i j i2 j2 hi hj hi2 hj2).1 hget⟩
  · rintro ⟨i2, j2, hi2, hj2, hv, hd⟩
    subst hv
    exact ⟨grid4_cell_lt_columns width height g i2 j2 hi2 hj2,
      (grid4_get_cells width height g i j i2 j2 hi hj hi2 hj2).2 hd⟩

theorem grid4_bucket_one (width height : Nat) (g : Graph_blaze) (i j maxDepth v : Nat)
    (hi : i < height) (hj : j < width) (hd : 1 ≤ maxDepth) :
    v ∈ (explored (Grid4_blaze.construct width height g).m (i * width + j) maxDepth).getD 1 [] ↔
      ∃ i2 j2, i2 < height ∧ j2 < width ∧ v = i2 * width + j2 ∧
        Nat.dist i i2 + Nat.dist j j2 = 1 := by
  rw [mem_explored _ _ _ (grid4_cell_lt_columns width height g i j hi hj), isDist_one,
    grid4_adj width height g i j v hi hj]
  constructor
  · rintro ⟨_, h, _⟩
    exact h
  · intro h
    refine ⟨hd, h, ?_⟩
    obtain ⟨i2, j2, _, hj2, hv, hdist⟩ := h
    subst hv
    intro e
    obtain ⟨e1, e2⟩ := flat_inj hj hj2 e
    unfold Nat.dist at hdist
    omega

theorem grid4_nine : Grid4_blaze.ofNodesNumber 9 = Grid4_blaze.ofSize 3 3 := by
  have h : Nat.sqrt 9 = 3 := by norm_num [Nat.sqrt]
  unfold Grid4_blaze.ofNodesNumber Grid4_blaze.ofSize
  simp only [h]
  rfl

set_option maxRecDepth 100000 in
theorem grid4_nine_centre :
    (Grid4_blaze.ofSize 3 3).getNeighborsNew_sparse 4 1 = [[4], [1, 3, 5, 7]] ∧
    (Grid4_blaze.ofSize 3 3).getNeighborsNew_dense 4 1 = [[4], [1, 3, 5, 7]] := by
  decide

set_option maxRecDepth 100000 in
theorem grid4_nine_corner :
    (Grid4_blaze.ofSize 3 3).getNeighborsNew_sparse 0 1 = [[0], [1, 3]] ∧
    (Grid4_blaze.ofSize 3 3).getNeighborsNew_dense 0 1 = [[0], [1, 3]] := by
  decide

/-- C10. Grid4 edge rule: for all cells `(i, j)`, `(i2, j2)` of `Grid4_blaze(width, height)`
the entry `adjacency[i*width+j][i2*width+j2]` is set if and only if `|i-i2| + |j-j2| == 1`;
hence for every `maxDepth >= 1` the depth-1 bucket of a cell, from the sparse and from the
dense explorer, holds exactly the existing cells above, below, left and right of it; on
`Grid4_blaze(9)` node 4 gives `[1, 3, 5, 7]` and node 0 gives `[1, 3]`. -/
theorem grid4_edge_rule (width height : Nat) :
    (∀ i j i2 j2, i < height → j < width → i2 < height → j2 < width →
      ((Grid4_blaze.ofSize width height).m.get (i * width + j) (i2 * width + j2) = true ↔
        Nat.dist i i2 + Nat.dist j j2 = 1)) ∧
    (∀ i j maxDepth v, i < height → j < width → 1 ≤ maxDepth →
      ((v ∈ ((Grid4_blaze.ofSize width height).getNeighborsNew_sparse
            (i * width + j) maxDepth).getD 1 [] ↔
          ∃ i2 j2, i2 < height ∧ j2 < width ∧ v = i2 * width + j2 ∧
            Nat.dist i i2 + Nat.dist j j2 = 1) ∧
        (v ∈ ((Grid4_blaze.ofSize width height).getNeighborsNew_dense
            (i * width + j) maxDepth).getD 1 [] ↔
          ∃ i2 j2, i2 < height ∧ j2 < width ∧ v = i2 * width + j2 ∧
            Nat.dist i i2 + Nat.dist j j2 = 1))) ∧
    (Grid4_blaze.ofNodesNumber 9).getNeighborsNew_sparse 4 1 = [[4], [1, 3, 5, 7]] ∧
    (Grid4_blaze.ofNodesNumber 9).getNeighborsNew_sparse 0 1 = [[0], [1, 3]] := by
  refine ⟨?_, ?_, ?_, ?_⟩
  · intro i j i2 j2 hi hj hi2 hj2
    exact grid4_get_cells width height _ i j i2 j2 hi hj hi2 hj2
  · intro i j maxDepth v hi hj hd
    rw [getNeighborsNew_sparse_eq, getNeighborsNew_dense_eq]
    exact ⟨grid4_bucket_one width height _ i j maxDepth v hi hj hd,
      grid4_bucket_one width height _ i j maxDepth v hi hj hd⟩
  · rw [grid4_nine]; exact grid4_nine_centre.1
  · rw [grid4_nine]; exact grid4_nine_corner.1

/-- Witness of C10: the centre cell `(1, 1)` and the cell `(0, 1)` above it in the 3 × 3 grid. -/
theorem grid4_edge_rule_witness :
    (1 < 3 ∧ 0 < 3) ∧
    ((Grid4_blaze.ofSize 3 3).m.get (1 * 3 + 1) (0 * 3 + 1) = true ↔
      Nat.dist 1 0 + Nat.dist 1 1 = 1) :=
  ⟨by decide, (grid4_edge_rule 3 3).1 1 1 0 1 (by decide) (by decide) (by decide) (by decide)⟩

/-! ## The eight-connected grid -/

theorem grid8_get (width height : Nat) (g : Graph_blaze) (a b : Nat) :
    (Grid8_blaze.construct width height g).m.get a b = true ↔
      a ≠ b ∧ ((a, b) ∈ Grid8_blaze.edgesPairs width height ∨
        (b, a) ∈ Grid8_blaze.edgesPairs width height) :=
  buildEdges_symmetric_get _ _ a b

/-- Edge rule of the eight-connected grid on cells. -/
theorem grid8_get_cells (width height : Nat) (g : Graph_blaze) (i j i2 j2 : Nat)
    (hi : i < height) (hj : j < width) (hi2 : i2 < height) (hj2 : j2 < width) :
    (Grid8_blaze.construct width height g).m.get (i * width + j) (i2 * width + j2) = true ↔
      max (Nat.dist i i2) (Nat.dist j j2) = 1 := by
  rw [grid8_get]
  unfold Grid8_blaze.edgesPairs
  rw [mem_offsetLoop _ width height i j i2 j2 hi hj hi2 hj2,
    mem_offsetLoop _ width height i2 j2 i j hi2 hj2 hi hj]
  simp only [Bool.or_eq_true, decide_eq_true_eq]
  unfold Nat.dist
  constructor
  · rintro ⟨hne, h⟩
    have hne2 : ¬ (i = i2 ∧ j = j2) := by
      rintro ⟨e1, e2⟩
      subst e1 e2
      exact hne rfl
    omega
  · intro h
    constructor
    · intro e
      obtain ⟨e1, e2⟩ := flat_inj hj hj2 e
      omega
    · left
      omega

theorem grid8_cell_le_maxIndex (width height i j : Nat) (hi : i < height) (hj : j < width) :
    i * width + j ≤ Graph_blaze.maxIndex (Grid8_blaze.edgesPairs width height) := by
  have key : ∀ i2 j2, i2 < height → j2 < width → max (Nat.dist i i2) (Nat.dist j j2) = 1 →
      i * width + j ≤ Graph_blaze.maxIndex (Grid8_blaze.edgesPairs width height) := by
    intro i2 j2 hi2 hj2 hd
    have hmem : (i * width + j, i2 * width + j2) ∈ Grid8_blaze.edgesPairs width height := by
      unfold Grid8_blaze.edgesPairs
      rw [mem_offsetLoop _ width height i j i2 j2 hi hj hi2 hj2]
      simp only [Bool.or_eq_true, decide_eq_true_eq]
      unfold Nat.dist at hd ⊢
      omega
    exact (le_maxIndex _ _ hmem).1
  by_cases h1 : j + 1 < width
  · exact key i (j + 1) hi h1 (by unfold Nat.dist; omega)
  · by_cases h2 : 0 < j
    · exact key i (j - 1) hi (by omega) (by unfold Nat.dist; omega)
    · by_cases h3 : i + 1 < height
      · exact key (i + 1) j h3 hj (by unfold Nat.dist; omega)
      · by_cases h4 : 0 < i
        · exact key (i - 1) j (by omega) hj (by unfold Nat.dist; omega)
        · have hi0 : i = 0 := by omega
          have hj0 : j = 0 := by omega
          subst hi0 hj0
          simp

theorem grid8_cell_lt_columns (width height : Nat) (g : Graph_blaze) (i j : Nat)
    (hi : i < height) (hj : j < width) :
    i * width + j < (Grid8_blaze.construct width height g).m.columns := by
  have h2 : (Grid8_blaze.construct width height g).m.columns =
      Graph_blaze.maxIndex (Grid8_blaze.edgesPairs width height) + 1 :=
    (buildEdges_shape _ _ _).2
  rw [h2]
  exact Nat.lt_succ_of_le (grid8_cell_le_maxIndex width height i j hi hj)

/-- The neighbours of a cell of the eight-connected grid are the cells at Chebyshev
distance 1. -/
theorem grid8_adj (width height : Nat) (g : Graph_blaze) (i j v : Nat)
    (hi : i < height) (hj : j < width) :
    Adj (Grid8_blaze.construct width height g).m (i * width + j) v ↔
      ∃ i2 j2, i2 < height ∧ j2 < width ∧ v = i2 * width + j2 ∧
        max (Nat.dist i i2) (Nat.dist j j2) = 1 := by
  unfold Adj
  constructor
  · rintro ⟨_, hget⟩
    have hmem := ((grid8_get width height g _ _).1 hget).2
    have hcell : ∃ i2 j2, i2 < height ∧ j2 < width ∧ v = i2 * width + j2 := by
      rcases hmem with h | h
      · exact (offsetLoop_cells _ width height _ _ h).2
      · exact (offsetLoop_cells _ width height _ _ h).1
    obtain ⟨i2, j2, hi2, hj2, hv⟩ := hcell
    subst hv
    exact ⟨i2, j2, hi2, hj2, rfl,
      (grid8_get_cells width height g i j i2 j2 hi hj hi2 hj2).1 hget⟩
  · rintro ⟨i2, j2, hi2, hj2, hv, hd⟩
    subst hv
    exact ⟨grid8_cell_lt_columns width height g i2 j2 hi2 hj2,
      (grid8_get_cells width height g i j i2 j2 hi hj hi2 hj2).2 hd⟩

theorem grid8_bucket_one (width height : Nat) (g : Graph_blaze) (i j maxDepth v : Nat)
    (hi : i < height) (hj : j < width) (hd : 1 ≤ maxDepth) :
    v ∈ (explored (Grid8_blaze.construct width height g).m (i * width + j) maxDepth).getD 1 [] ↔
      ∃ i2 j2, i2 < height ∧ j2 < width ∧ v = i2 * width + j2 ∧
        max (Nat.dist i i2) (Nat.dist j j2) = 1 := by
  rw [mem_explored _ _ _ (grid8_cell_lt_columns width height g i j hi hj), isDist_one,
    grid8_adj width height g i j v hi hj]
  constructor
  · rintro ⟨_, h, _⟩
    exact h
  · intro h
    refine ⟨hd, h, ?_⟩
    obtain ⟨i2, j2, _, hj2, hv, hdist⟩ := h
    subst hv
    intro e
    obtain ⟨e1, e2⟩ := flat_inj hj hj2 e
    unfold Nat.dist at hdist
    omega

theorem grid8_nine : Grid8_blaze.ofNodesNumber 9 = Grid8_blaze.ofSize 3 3 := by
  have h : Nat.sqrt 9 = 3 := by norm_num [Nat.sqrt]
  unfold Grid8_blaze.ofNodesNumber Grid8_blaze.ofSize
  simp only [h]
  rfl

set_option maxRecDepth 100000 in
theorem grid8_nine_centre :
    (Grid8_blaze.ofSize 3 3).getNeighborsNew_sparse 4 1 = [[4], [0, 1, 2, 3, 5, 6, 7, 8]] ∧
    (Grid8_blaze.ofSize 3 3).getNeighborsNew_dense 4 1 = [[4], [0, 1, 2, 3, 5, 6, 7, 8]] := by
  decide

set_option maxRecDepth 100000 in
theorem grid8_nine_corner :
    (Grid8_blaze.ofSize 3 3).getNeighborsNew_sparse 0 1 = [[0], [1, 3, 4]] ∧
    (Grid8_blaze.ofSize 3 3).getNeighborsNew_dense 0 1 = [[0], [1, 3, 4]] := by
  decide

/-- C11. Grid8 edge rule: for all cells `(i, j)`, `(i2, j2)` of `Grid8_blaze(width, height)`
the entry `adjacency[i*width+j][i2*width+j2]` is set if and only if
`max(|i-i2|, |j-j2|) == 1`; hence for every `maxDepth >= 1` the depth-1 bucket of a cell, from
the sparse and from the dense explorer, holds exactly its existing Moore neighbours; on
`Grid8_blaze(9)` node 4 gives all 8 other nodes and node 0 gives `[1, 3, 4]`. -/
theorem grid8_edge_rule (width height : Nat) :
    (∀ i j i2 j2, i < height → j < width → i2 < height → j2 < width →
      ((Grid8_blaze.ofSize width height).m.get (i * width + j) (i2 * width + j2) = true ↔
        max (Nat.dist i i2) (Nat.dist j j2) = 1)) ∧
    (∀ i j maxDepth v, i < height → j < width → 1 ≤ maxDepth →
      ((v ∈ ((Grid8_blaze.ofSize width height).getNeighborsNew_sparse
            (i * width + j) maxDepth).getD 1 [] ↔
          ∃ i2 j2, i2 < height ∧ j2 < width ∧ v = i2 * width + j2 ∧
            max (Nat.dist i i2) (Nat.dist j j2) = 1) ∧
        (v ∈ ((Grid8_blaze.ofSize width height).getNeighborsNew_dense
            (i * width + j) maxDepth).getD 1 [] ↔
          ∃ i2 j2, i2 < height ∧ j2 < width ∧ v = i2 * width + j2 ∧
            max (Nat.dist i i2) (Nat.dist j j2) = 1))) ∧
    (Grid8_blaze.ofNodesNumber 9).getNeighborsNew_sparse 4 1 =
      [[4], [0, 1, 2, 3, 5, 6, 7, 8]] ∧
    (Grid8_blaze.ofNodesNumber 9).getNeighborsNew_sparse 0 1 = [[0], [1, 3, 4]] := by
  refine ⟨?_, ?_, ?_, ?_⟩
  · intro i j i2 j2 hi hj hi2 hj2
    exact grid8_get_cells width height _ i j i2 j2 hi hj hi2 hj2
  · intro i j maxDepth v hi hj hd
    rw [getNeighborsNew_sparse_eq, getNeighborsNew_dense_eq]
    exact ⟨grid8_bucket_one width height _ i j maxDepth v hi hj hd,
      grid8_bucket_one width height _ i j maxDepth v hi hj hd⟩
  · rw [grid8_nine]; exact grid8_nine_centre.1
  · rw [grid8_nine]; exact grid8_nine_corner.1

/-- Witness of C11: the centre cell `(1, 1)` and the corner cell `(0, 0)` of the 3 × 3 grid. -/
theorem grid8_edge_rule_witness :
    (1 < 3 ∧ 0 < 3) ∧
    ((Grid8_blaze.ofSize 3 3).m.get (1 * 3 + 1) (0 * 3 + 0) = true ↔
      max (Nat.dist 1 0) (Nat.dist 1 0) = 1) :=
  ⟨by decide, (grid8_edge_rule 3 3).1 1 1 0 0 (by decide) (by decide) (by decide) (by decide)⟩

/-! ## The six-connected grid -/

theorem mem_ite_nil {α : Type} (P : Prop) [Decidable P] (l : List α) (p : α) :
    p ∈ (if P then l else []) ↔ P ∧ p ∈ l := by
  by_cases h : P <;> simp [h]

theorem ite_false_true (P : Prop) [Decidable P] :
    (if P then false else true) = true ↔ ¬ P := by
  by_cases h : P <;> simp [h]

theorem ite_false_true_eq_false (P : Prop) [Decidable P] :
    (if P then false else true) = false ↔ P := by
  by_cases h : P <;> simp [h]

theorem mem_grid6_cellPairs (width height i j a b : Nat) :
    (a, b) ∈ Grid6_blaze.cellPairs width height i j ↔
      a = i * width + j ∧
        ((i ≠ 0 ∧ b = (i - 1) * width + j) ∨
         (i ≠ height - 1 ∧ b = (i + 1) * width + j) ∨
         (j ≠ 0 ∧ b = i * width + (j - 1)) ∨
         (j ≠ width - 1 ∧ b = i * width + (j + 1)) ∨
         (i % 2 = 0 ∧ j ≠ 0 ∧ i ≠ 0 ∧ b = (i - 1) * width + (j - 1)) ∨
         (i % 2 = 0 ∧ j ≠ 0 ∧ i ≠ height - 1 ∧ b = (i + 1) * width + (j - 1)) ∨
         (i % 2 ≠ 0 ∧ j ≠ width - 1 ∧ i ≠ 0 ∧ b = (i - 1) * width + (j + 1)) ∨
         (i % 2 ≠ 0 ∧ j ≠ width - 1 ∧ i ≠ height - 1 ∧ b = (i + 1) * width + (j + 1))) := by
  unfold Grid6_blaze.cellPairs
  simp only [List.mem_append, mem_ite_nil, ite_false_true, ite_false_true_eq_false,
    List.mem_singleton, Prod.mk.injEq, Bool.and_eq_true, Bool.not_eq_true', Nat.add_zero]
  constructor
  · rintro (((((⟨c, ha, hb⟩ | ⟨c, ha, hb⟩) | ⟨c, ha, hb⟩) | ⟨c, ha, hb⟩) |
      ⟨⟨c1, c2⟩, (⟨c, ha, hb⟩ | ⟨c, ha, hb⟩)⟩) | ⟨⟨c1, c2⟩, (⟨c, ha, hb⟩ | ⟨c, ha, hb⟩)⟩)
    · exact ⟨ha, Or.inl ⟨c, hb⟩⟩
    · exact ⟨ha, Or.inr (Or.inl ⟨c, hb⟩)⟩
    · exact ⟨ha, Or.inr (Or.inr (Or.inl ⟨c, hb⟩))⟩
    · exact ⟨ha, Or.inr (Or.inr (Or.inr (Or.inl ⟨c, hb⟩)))⟩
    · exact ⟨ha, Or.inr (Or.inr (Or.inr (Or.inr (Or.inl ⟨c1, c2, c, hb⟩))))⟩
    · exact ⟨ha, Or.inr (Or.inr (Or.inr (Or.inr (Or.inr (Or.inl ⟨c1, c2, c, hb⟩)))))⟩
    · exact ⟨ha, Or.inr (Or.inr (Or.inr (Or.inr (Or.inr (Or.inr (Or.inl ⟨c1, c2, c, hb⟩))))))⟩
    · exact ⟨ha, Or.inr (Or.inr (Or.inr (Or.inr (Or.inr (Or.inr (Or.inr ⟨c1, c2, c, hb⟩))))))⟩
  · rintro ⟨ha, (⟨c, hb⟩ | ⟨c, hb⟩ | ⟨c, hb⟩ | ⟨c, hb⟩ | ⟨c1, c2, c, hb⟩ | ⟨c1, c2, c, hb⟩ |
      ⟨c1, c2, c, hb⟩ | ⟨c1, c2, c, hb⟩)⟩
    · exact Or.inl (Or.inl (Or.inl (Or.inl (Or.inl ⟨c, ha, hb⟩))))
    · exact Or.inl (Or.inl (Or.inl (Or.inl (Or.inr ⟨c, ha, hb⟩))))
    · exact Or.inl (Or.inl (Or.inl (Or.inr ⟨c, ha, hb⟩)))
    · exact Or.inl (Or.inl (Or.inr ⟨c, ha, hb⟩))
    · exact Or.inl (Or.inr ⟨⟨c1, c2⟩, Or.inl ⟨c, ha, hb⟩⟩)
    · exact Or.inl (Or.inr ⟨⟨c1, c2⟩, Or.inr ⟨c, ha, hb⟩⟩)
    · exact Or.inr ⟨⟨c1, c2⟩, Or.inl ⟨c, ha, hb⟩⟩
    · exact Or.inr ⟨⟨c1, c2⟩, Or.inr ⟨c, ha, hb⟩⟩

/-- A pair of cell indices is listed by `Grid6_blaze::construct` exactly when the cells are
adjacent in the hexagonal sense. -/
theorem mem_grid6_edgesPairs (width height i j i2 j2 : Nat)
    (hi : i < height) (hj : j < width) (hi2 : i2 < height) (hj2 : j2 < width) :
    (i * width + j, i2 * width + j2) ∈ Grid6_blaze.edgesPairs width height ↔
      Grid6Adjacent i j i2 j2 := by
  unfold Grid6_blaze.edgesPairs Grid6Adjacent Nat.dist
  rw [mem_cellLoop]
  constructor
  · rintro ⟨i', j', hi', hj', hmem⟩
    rw [mem_grid6_cellPairs] at hmem
    obtain ⟨ha, hb⟩ := hmem
    obtain ⟨e1, e2⟩ := flat_inj hj hj' ha
    subst e1 e2
    rcases hb with ⟨c, hb⟩ | ⟨c, hb⟩ | ⟨c, hb⟩ | ⟨c, hb⟩ | ⟨c1, c2, c, hb⟩ | ⟨c1, c2, c, hb⟩ |
      ⟨c1, c2, c, hb⟩ | ⟨c1, c2, c, hb⟩
    · obtain ⟨e1, e2⟩ := flat_inj hj2 hj hb
      left; omega
    · obtain ⟨e1, e2⟩ := flat_inj hj2 hj hb
      left; omega
    · obtain ⟨e1, e2⟩ := flat_inj hj2 (show j - 1 < width by omega) hb
      left; omega
    · obtain ⟨e1, e2⟩ := flat_inj hj2 (show j + 1 < width by omega) hb
      left; omega
    · obtain ⟨e1, e2⟩ := flat_inj hj2 (show j - 1 < width by omega) hb
      right; right
      exact ⟨by omega, by omega, c1⟩
    · obtain ⟨e1, e2⟩ := flat_inj hj2 (show j - 1 < width by omega) hb
      right; right
      exact ⟨by omega, by omega, c1⟩
    · obtain ⟨e1, e2⟩ := flat_inj hj2 (show j + 1 < width by omega) hb
      right; left
      exact ⟨by omega, by omega, by omega⟩
    · obtain ⟨e1, e2⟩ := flat_inj hj2 (show j + 1 < width by omega) hb
      right; left
      exact ⟨by omega, by omega, by omega⟩
  · intro h
    refine ⟨i, j, hi, hj, ?_⟩
    rw [mem_grid6_cellPairs]
    refine ⟨rfl, ?_⟩
    rcases h with h | ⟨h1, h2, h3⟩ | ⟨h1, h2, h3⟩
    · have hc : (i2 + 1 = i ∧ j2 = j) ∨ (i2 = i + 1 ∧ j2 = j) ∨ (i2 = i ∧ j2 + 1 = j) ∨
          (i2 = i ∧ j2 = j + 1) := by omega
      rcases hc with ⟨e1, e2⟩ | ⟨e1, e2⟩ | ⟨e1, e2⟩ | ⟨e1, e2⟩
      · obtain rfl : i2 = i - 1 := by omega
        subst e2
        exact Or.inl ⟨by omega, rfl⟩
      · subst e1 e2
        exact Or.inr (Or.inl ⟨by omega, rfl⟩)
      · obtain rfl : j2 = j - 1 := by omega
        subst e1
        exact Or.inr (Or.inr (Or.inl ⟨by omega, rfl⟩))
      · subst e1 e2
        exact Or.inr (Or.inr (Or.inr (Or.inl ⟨by omega, rfl⟩)))
    · have hc : i2 + 1 = i ∨ i2 = i + 1 := by omega
      subst h2
      rcases hc with e1 | e1
      · obtain rfl : i2 = i - 1 := by omega
        exact Or.inr (Or.inr (Or.inr (Or.inr (Or.inr (Or.inr (Or.inl
          ⟨by omega, by omega, by omega, rfl⟩))))))
      · subst e1
        exact Or.inr (Or.inr (Or.inr (Or.inr (Or.inr (Or.inr (Or.inr
          ⟨by omega, by omega, by omega, rfl⟩))))))
    · have hc : i2 + 1 = i ∨ i2 = i + 1 := by omega
      obtain rfl : j2 = j - 1 := by omega
      rcases hc with e1 | e1
      · obtain rfl : i2 = i - 1 := by omega
        exact Or.inr (Or.inr (Or.inr (Or.inr (Or.inl ⟨h3, by omega, by omega, rfl⟩))))
      · subst e1
        exact Or.inr (Or.inr (Or.inr (Or.inr (Or.inr (Or.inl
          ⟨h3, by omega, by omega, rfl⟩)))))

theorem grid6Adjacent_symm (i j i2 j2 : Nat) :
    Grid6Adjacent i j i2 j2 ↔ Grid6Adjacent i2 j2 i j := by
  have swap : ∀ a b c d : Nat, Grid6Adjacent a b c d → Grid6Adjacent c d a b := by
    intro a b c d h
    unfold Grid6Adjacent Nat.dist at h ⊢
    rcases h with h | ⟨h1, h2, h3⟩ | ⟨h1, h2, h3⟩
    · left; omega
    · right; right
      exact ⟨by omega, by omega, by omega⟩
    · right; left
      exact ⟨by omega, by omega, by omega⟩
  exact ⟨swap i j i2 j2, swap i2 j2 i j⟩

theorem grid6Adjacent_ne (i j i2 j2 : Nat) (h : Grid6Adjacent i j i2 j2) :
    ¬ (i = i2 ∧ j = j2) := by
  unfold Grid6Adjacent Nat.dist at h
  rcases h with h | ⟨h1, _, _⟩ | ⟨h1, _, _⟩ <;> omega

/-- Every index listed by `Grid6_blaze::construct` is the index of a cell of the grid. -/
theorem grid6_edges_cells (width height a b : Nat)
    (h : (a, b) ∈ Grid6_blaze.edgesPairs width height) :
    (∃ i j, i < height ∧ j < width ∧ a = i * width + j) ∧
    (∃ i j, i < height ∧ j < width ∧ b = i * width + j) := by
  unfold Grid6_blaze.edgesPairs at h
  rw [mem_cellLoop] at h
  obtain ⟨i, j, hi, hj, hmem⟩ := h
  rw [mem_grid6_cellPairs] at hmem
  obtain ⟨ha, hb⟩ := hmem
  refine ⟨⟨i, j, hi, hj, ha⟩, ?_⟩
  rcases hb with ⟨c, hb⟩ | ⟨c, hb⟩ | ⟨c, hb⟩ | ⟨c, hb⟩ | ⟨c1, c2, c, hb⟩ | ⟨c1, c2, c, hb⟩ |
    ⟨c1, c2, c, hb⟩ | ⟨c1, c2, c, hb⟩
  · exact ⟨i - 1, j, by omega, hj, hb⟩
  · exact ⟨i + 1, j, by omega, hj, hb⟩
  · exact ⟨i, j - 1, hi, by omega, hb⟩
  · exact ⟨i, j + 1, hi, by omega, hb⟩
  · exact ⟨i - 1, j - 1, by omega, by omega, hb⟩
  · exact ⟨i + 1, j - 1, by omega, by omega, hb⟩
  · exact ⟨i - 1, j + 1, by omega, by omega, hb⟩
  · exact ⟨i + 1, j + 1, by omega, by omega, hb⟩

theorem grid6_get (width height : Nat) (g : Graph_blaze) (a b : Nat) :
    (Grid6_blaze.construct width height g).m.get a b = true ↔
      a ≠ b ∧ ((a, b) ∈ Grid6_blaze.edgesPairs width height ∨
        (b, a) ∈ Grid6_blaze.edgesPairs width height) :=
  buildEdges_symmetric_get _ _ a b

/-- Edge rule of the six-connected grid on cells. -/
theorem grid6_get_cells (width height : Nat) (g : Graph_blaze) (i j i2 j2 : Nat)
    (hi : i < height) (hj : j < width) (hi2 : i2 < height) (hj2 : j2 < width) :
    (Grid6_blaze.construct width height g).m.get (i * width + j) (i2 * width + j2) = true ↔
      Grid6Adjacent i j i2 j2 := by
  rw [grid6_get, mem_grid6_edgesPairs width height i j i2 j2 hi hj hi2 hj2,
    mem_grid6_edgesPairs width height i2 j2 i j hi2 hj2 hi hj,
    ← grid6Adjacent_symm i j i2 j2]
  constructor
  · rintro ⟨_, h | h⟩ <;> exact h
  · intro h
    refine ⟨?_, Or.inl h⟩
    intro e
    exact grid6Adjacent_ne i j i2 j2 h (flat_inj hj hj2 e)

theorem grid6_cell_le_maxIndex (width height i j : Nat) (hi : i < height) (hj : j < width) :
    i * width + j ≤ Graph_blaze.maxIndex (Grid6_blaze.edgesPairs width height) := by
  have key : ∀ i2 j2, i2 < height → j2 < width → Nat.dist i i2 + Nat.dist j j2 = 1 →
      i * width + j ≤ Graph_blaze.maxIndex (Grid6_blaze.edgesPairs width height) := by
    intro i2 j2 hi2 hj2 hd
    have hmem : (i * width + j, i2 * width + j2) ∈ Grid6_blaze.edgesPairs width height :=
      (mem_grid6_edgesPairs width height i j i2 j2 hi hj hi2 hj2).2 (Or.inl hd)
    exact (le_maxIndex _ _ hmem).1
  by_cases h1 : j + 1 < width
  · exact key i (j + 1) hi h1 (by unfold Nat.dist; omega)
  · by_cases h2 : 0 < j
    · exact key i (j - 1) hi (by omega) (by unfold Nat.dist; omega)
    · by_cases h3 : i + 1 < height
      · exact key (i + 1) j h3 hj (by unfold Nat.dist; omega)
      · by_cases h4 : 0 < i
        · exact key (i - 1) j (by omega) hj (by unfold Nat.dist; omega)
        · have hi0 : i = 0 := by omega
          have hj0 : j = 0 := by omega
          subst hi0 hj0
          simp

theorem grid6_cell_lt_columns (width height : Nat) (g : Graph_blaze) (i j : Nat)
    (hi : i < height) (hj : j < width) :
    i * width + j < (Grid6_blaze.construct width height g).m.columns := by
  have h2 : (Grid6_blaze.construct width height g).m.columns =
      Graph_blaze.maxIndex (Grid6_blaze.edgesPairs width height) + 1 :=
    (buildEdges_shape _ _ _).2
  rw [h2]
  exact Nat.lt_succ_of_le (grid6_cell_le_maxIndex width height i j hi hj)

theorem grid6_adj (width height : Nat) (g : Graph_blaze) (i j v : Nat)
    (hi : i < height) (hj : j < width) :
    Adj (Grid6_blaze.construct width height g).m (i * width + j) v ↔
      ∃ i2 j2, i2 < height ∧ j2 < width ∧ v = i2 * width + j2 ∧ Grid6Adjacent i j i2 j2 := by
  unfold Adj
  constructor
  · rintro ⟨_, hget⟩
    have hmem := ((grid6_get width height g _ _).1 hget).2
    have hcell : ∃ i2 j2, i2 < height ∧ j2 < width ∧ v = i2 * width + j2 := by
      rcases hmem with h | h
      · exact (grid6_edges_cells width height _ _ h).2
      · exact (grid6_edges_cells width height _ _ h).1
    obtain ⟨i2, j2, hi2, hj2, hv⟩ := hcell
    subst hv
    exact ⟨i2, j2, hi2, hj2, rfl,
      (grid6_get_cells width height g i j i2 j2 hi hj hi2 hj2).1 hget⟩
  · rintro ⟨i2, j2, hi2, hj2, hv, hd⟩
    subst hv
    exact ⟨grid6_cell_lt_columns width height g i2 j2 hi2 hj2,
      (grid6_get_cells width height g i j i2 j2 hi hj hi2 hj2).2 hd⟩

theorem grid6_bucket_one (width height : Nat) (g : Graph_blaze) (i j maxDepth v : Nat)
    (hi : i < height) (hj : j < width) (hd : 1 ≤ maxDepth) :
    v ∈ (explored (Grid6_blaze.construct width height g).m (i * width + j) maxDepth).getD 1 [] ↔
      ∃ i2 j2, i2 < height ∧ j2 < width ∧ v = i2 * width + j2 ∧ Grid6Adjacent i j i2 j2 := by
  rw [mem_explored _ _ _ (grid6_cell_lt_columns width height g i j hi hj), isDist_one,
    grid6_adj width height g i j v hi hj]
  constructor
  · rintro ⟨_, h, _⟩
    exact h
  · intro h
    refine ⟨hd, h, ?_⟩
    obtain ⟨i2, j2, _, hj2, hv, hadj⟩ := h
    subst hv
    intro e
    exact grid6Adjacent_ne i j i2 j2 hadj (flat_inj hj hj2 e)

/-- Every bucket of an exploration is duplicate-free. -/
theorem nodup_bucket (m : MatrixType) (index maxDeep d : Nat) :
    ((explored m index maxDeep).getD d []).Nodup := by
  by_cases h : d < (explored m index maxDeep).length
  · have hmem : (explored m index maxDeep).getD d [] ∈ explored m index maxDeep := by
      rw [List.getD_eq_getElem _ _ h]
      exact List.getElem_mem h
    exact (List.nodup_flatten.1 (nodup_explored m index maxDeep)).1 _ hmem
  · rw [List.getD_eq_default _ _ (Nat.le_of_not_lt h)]
    exact List.nodup_nil

theorem length_eq_of_mem_iff {B L : List Nat} (hB : B.Nodup) (hL : L.Nodup)
    (h : ∀ v, v ∈ B ↔ v ∈ L) : B.length = L.length :=
  ((List.perm_ext_iff_of_nodup hB hL).2 h).length_eq

/-- Flattening the cells of a list is injective when every cell lies in a column of the grid. -/
theorem nodup_map_flat (width : Nat) (cells : List (Nat × Nat)) (hc : cells.Nodup)
    (hw : ∀ c ∈ cells, c.2 < width) :
    (cells.map (fun c => c.1 * width + c.2)).Nodup := by
  apply List.Nodup.map_on _ hc
  intro x hx y hy hxy
  obtain ⟨e1, e2⟩ := flat_inj (hw x hx) (hw y hy) hxy
  exact Prod.ext e1 e2

theorem grid6_interior_cells (width height : Nat) (g : Graph_blaze) (i j maxDepth jd : Nat)
    (hi0 : 0 < i) (hi1 : i + 1 < height) (hj0 : 0 < j) (hj1 : j + 1 < width)
    (hd : 1 ≤ maxDepth)
    (hjd : (i % 2 = 1 ∧ jd = j + 1) ∨ (i % 2 = 0 ∧ jd = j - 1)) :
    ((explored (Grid6_blaze.construct width height g).m (i * width + j) maxDepth).getD 1
      []).length = 6 := by
  have hcells : [(i - 1, j), (i + 1, j), (i, j - 1), (i, j + 1), (i - 1, jd),
      (i + 1, jd)].Nodup := by
    simp only [List.nodup_cons, List.mem_cons, List.mem_singleton, Prod.mk.injEq,
      List.not_mem_nil, not_false_eq_true, List.nodup_nil, and_true, not_or]
    rcases hjd with ⟨_, e⟩ | ⟨_, e⟩ <;> subst e <;> (repeat' constructor) <;> omega
  have hw : ∀ c ∈ [(i - 1, j), (i + 1, j), (i, j - 1), (i, j + 1), (i - 1, jd), (i + 1, jd)],
      c.2 < width := by
    intro c hc
    simp only [List.mem_cons, List.mem_singleton, List.not_mem_nil, or_false] at hc
    rcases hc with rfl | rfl | rfl | rfl | rfl | rfl <;> simp only <;> omega
  have hL := nodup_map_flat width _ hcells hw
  rw [length_eq_of_mem_iff (nodup_bucket _ _ _ 1) hL]
  · rfl
  · intro v
    rw [grid6_bucket_one width height g i j maxDepth v (by omega) (by omega) hd]
    simp only [List.map_cons, List.map_nil, List.mem_cons, List.mem_singleton,
      List.not_mem_nil, or_false]
    constructor
    · rintro ⟨i2, j2, hi2, hj2, hv, hadj⟩
      subst hv
      unfold Grid6Adjacent Nat.dist at hadj
      have hc : (i2 = i - 1 ∧ j2 = j) ∨ (i2 = i + 1 ∧ j2 = j) ∨ (i2 = i ∧ j2 = j - 1) ∨
          (i2 = i ∧ j2 = j + 1) ∨ (i2 = i - 1 ∧ j2 = jd) ∨ (i2 = i + 1 ∧ j2 = jd) := by
        rcases hadj with h | ⟨h1, h2, h3⟩ | ⟨h1, h2, h3⟩
        · have h4 : (i2 + 1 = i ∧ j2 = j) ∨ (i2 = i + 1 ∧ j2 = j) ∨ (i2 = i ∧ j2 + 1 = j) ∨
              (i2 = i ∧ j2 = j + 1) := by omega
          rcases h4 with ⟨e1, e2⟩ | ⟨e1, e2⟩ | ⟨e1, e2⟩ | ⟨e1, e2⟩
          · exact Or.inl ⟨by omega, e2⟩
          · exact Or.inr (Or.inl ⟨e1, e2⟩)
          · exact Or.inr (Or.inr (Or.inl ⟨e1, by omega⟩))
          · exact Or.inr (Or.inr (Or.inr (Or.inl ⟨e1, e2⟩)))
        · have h4 : i2 = i - 1 ∨ i2 = i + 1 := by omega
          have h5 : j2 = jd := by omega
          rcases h4 with e | e
          · exact Or.inr (Or.inr (Or.inr (Or.inr (Or.inl ⟨e, h5⟩))))
          · exact Or.inr (Or.inr (Or.inr (Or.inr (Or.inr ⟨e, h5⟩))))
        · have h4 : i2 = i - 1 ∨ i2 = i + 1 := by omega
          have h5 : j2 = jd := by omega
          rcases h4 with e | e
          · exact Or.inr (Or.inr (Or.inr (Or.inr (Or.inl ⟨e, h5⟩))))
          · exact Or.inr (Or.inr (Or.inr (Or.inr (Or.inr ⟨e, h5⟩))))
      rcases hc with ⟨e1, e2⟩ | ⟨e1, e2⟩ | ⟨e1, e2⟩ | ⟨e1, e2⟩ | ⟨e1, e2⟩ | ⟨e1, e2⟩ <;>
        subst e1 e2 <;> simp
    · have hin : ∀ i2 j2, i2 < height → j2 < width → Grid6Adjacent i j i2 j2 →
          ∃ a b, a < height ∧ b < width ∧ i2 * width + j2 = a * width + b ∧
            Grid6Adjacent i j a b :=
        fun i2 j2 h1 h2 h3 => ⟨i2, j2, h1, h2, rfl, h3⟩
      rintro (rfl | rfl | rfl | rfl | rfl | rfl)
      · exact hin _ _ (by omega) (by omega) (Or.inl (by unfold Nat.dist; omega))
      · exact hin _ _ (by omega) (by omega) (Or.inl (by unfold Nat.dist; omega))
      · exact hin _ _ (by omega) (by omega) (Or.inl (by unfold Nat.dist; omega))
      · exact hin _ _ (by omega) (by omega) (Or.inl (by unfold Nat.dist; omega))
      · refine hin _ _ (by omega) (by omega) ?_
        unfold Grid6Adjacent Nat.dist
        rcases hjd with ⟨p, e⟩ | ⟨p, e⟩
        · right; left; exact ⟨by omega, e, p⟩
        · right; right; exact ⟨by omega, by omega, p⟩
      · refine hin _ _ (by omega) (by omega) ?_
        unfold Grid6Adjacent Nat.dist
        rcases hjd with ⟨p, e⟩ | ⟨p, e⟩
        · right; left; exact ⟨by omega, e, p⟩
        · right; right; exact ⟨by omega, by omega, p⟩

/-- An interior cell of the six-connected grid has exactly six neighbours. -/
theorem grid6_interior_six (width height : Nat) (g : Graph_blaze) (i j maxDepth : Nat)
    (hi0 : 0 < i) (hi1 : i + 1 < height) (hj0 : 0 < j) (hj1 : j + 1 < width)
    (hd : 1 ≤ maxDepth) :
    ((explored (Grid6_blaze.construct width height g).m (i * width + j) maxDepth).getD 1
      []).length = 6 := by
  by_cases p : i % 2 = 1
  · exact grid6_interior_cells width height g i j maxDepth (j + 1) hi0 hi1 hj0 hj1 hd
      (Or.inl ⟨p, rfl⟩)
  · exact grid6_interior_cells width height g i j maxDepth (j - 1) hi0 hi1 hj0 hj1 hd
      (Or.inr ⟨by omega, rfl⟩)

set_option maxRecDepth 100000 in
theorem grid6_sixteen_interior :
    (Grid6_blaze.ofSize 4 4).getNeighborsNew_sparse 5 1 = [[5], [1, 2, 4, 6, 9, 10]] ∧
    (Grid6_blaze.ofSize 4 4).getNeighborsNew_sparse 9 1 = [[9], [4, 5, 8, 10, 12, 13]] := by
  decide

/-- C12. Grid6 edge rule: for all cells `(i, j)`, `(i2, j2)` of `Grid6_blaze(width, height)`
the entry `adjacency[i*width+j][i2*width+j2]` is set if and only if the cells are horizontal or
vertical neighbours, or `|i-i2| == 1` and `j2 == j+1` with `i` odd, or `|i-i2| == 1` and
`j2 == j-1` with `i` even (`Grid6Adjacent`); for `maxDepth >= 1` the depth-1 bucket of a cell
holds exactly the cells adjacent to it, and for an interior cell it has exactly 6 entries. -/
theorem grid6_edge_rule (width height : Nat) :
    (∀ i j i2 j2, i < height → j < width → i2 < height → j2 < width →
      ((Grid6_blaze.ofSize width height).m.get (i * width + j) (i2 * width + j2) = true ↔
        Grid6Adjacent i j i2 j2)) ∧
    (∀ i j maxDepth v, i < height → j < width → 1 ≤ maxDepth →
      ((v ∈ ((Grid6_blaze.ofSize width height).getNeighborsNew_sparse
            (i * width + j) maxDepth).getD 1 [] ↔
          ∃ i2 j2, i2 < height ∧ j2 < width ∧ v = i2 * width + j2 ∧ Grid6Adjacent i j i2 j2) ∧
        (v ∈ ((Grid6_blaze.ofSize width height).getNeighborsNew_dense
            (i * width + j) maxDepth).getD 1 [] ↔
          ∃ i2 j2, i2 < height ∧ j2 < width ∧ v = i2 * width + j2 ∧
            Grid6Adjacent i j i2 j2))) ∧
    (∀ i j maxDepth, 0 < i → i + 1 < height → 0 < j → j + 1 < width → 1 ≤ maxDepth →
      (((Grid6_blaze.ofSize width height).getNeighborsNew_sparse
          (i * width + j) maxDepth).getD 1 []).length = 6 ∧
      (((Grid6_blaze.ofSize width height).getNeighborsNew_dense
          (i * width + j) maxDepth).getD 1 []).length = 6) := by
  refine ⟨?_, ?_, ?_⟩
  · intro i j i2 j2 hi hj hi2 hj2
    exact grid6_get_cells width height _ i j i2 j2 hi hj hi2 hj2
  · intro i j maxDepth v hi hj hd
    rw [getNeighborsNew_sparse_eq, getNeighborsNew_dense_eq]
    exact ⟨grid6_bucket_one width height _ i j maxDepth v hi hj hd,
      grid6_bucket_one width height _ i j maxDepth v hi hj hd⟩
  · intro i j maxDepth hi0 hi1 hj0 hj1 hd
    rw [getNeighborsNew_sparse_eq, getNeighborsNew_dense_eq]
    exact ⟨grid6_interior_six width height _ i j maxDepth hi0 hi1 hj0 hj1 hd,
      grid6_interior_six width height _ i j maxDepth hi0 hi1 hj0 hj1 hd⟩

/-- Witness of C12: the interior cell `(1, 1)` of the 4 × 4 grid, an odd row, and the cell
`(0, 2)` above and to the right of it; the cell has six neighbours. -/
theorem grid6_edge_rule_witness :
    (1 < 4 ∧ 0 < 4 ∧ 2 < 4 ∧ 0 < 1 ∧ 1 + 1 < 4 ∧ 1 ≤ 1) ∧
    ((Grid6_blaze.ofSize 4 4).m.get (1 * 4 + 1) (0 * 4 + 2) = true ↔ Grid6Adjacent 1 1 0 2) ∧
    (((Grid6_blaze.ofSize 4 4).getNeighborsNew_sparse (1 * 4 + 1) 1).getD 1 []).length = 6 :=
  ⟨by decide,
    (grid6_edge_rule 4 4).1 1 1 0 2 (by decide) (by decide) (by decide) (by decide),
    ((grid6_edge_rule 4 4).2.2 1 1 1 (by decide) (by decide) (by decide) (by decide)
      (by decide)).1⟩

/-! ## Paley, Margulis and LPS: size checks and edge rules -/

theorem paley_valid_iff_mod (n : Nat) :
    (Paley_blaze.ofNodesNumber n).isValid = true ↔ n % 4 = 1 := by
  unfold Paley_blaze.ofNodesNumber Graph_blaze.isValid
  simp only []
  split_ifs with h
  · exact ⟨fun h1 => absurd h1 (by simp [Graph_blaze.init]), fun h1 => absurd h1 h⟩
  · exact ⟨fun _ => not_not.1 h, fun _ => rfl⟩

/-- C13. Paley size check: for every node count `n`, `Paley_blaze(n)` ends with
`isValid() == true` if and only if `n mod 4 == 1` (and with `isValid() == false` otherwise);
`Paley_blaze(6)` is invalid and `Paley_blaze(5)` is valid. -/
theorem paley_valid_iff (n : Nat) :
    ((Paley_blaze.ofNodesNumber n).isValid = true ↔ n % 4 = 1) ∧
    ((Paley_blaze.ofNodesNumber n).isValid = false ↔ n % 4 ≠ 1) ∧
    (Paley_blaze.ofNodesNumber 6).isValid = false ∧
    (Paley_blaze.ofNodesNumber 5).isValid = true :=
  ⟨paley_valid_iff_mod n, bool_eq_false_iff_not (paley_valid_iff_mod n),
    (bool_eq_false_iff_not (paley_valid_iff_mod 6)).2 (by decide),
    (paley_valid_iff_mod 5).2 (by decide)⟩

theorem margulis_valid_iff_square (n : Nat) :
    (Margulis_blaze.ofNodesNumber n).isValid = true ↔ ∃ k, k * k = n := by
  rw [Nat.exists_mul_self]
  unfold Margulis_blaze.ofNodesNumber Graph_blaze.isValid
  simp only []
  split_ifs with h
  · exact ⟨fun h1 => absurd h1 (by simp), fun h1 => absurd h1 h⟩
  · exact ⟨fun _ => not_not.1 h, fun _ => rfl⟩

theorem ten_not_square : ¬ ∃ k : Nat, k * k = 10 := by
  rintro ⟨k, hk⟩
  have h4 : k < 4 := by
    by_contra h
    have : 4 * 4 ≤ k * k := Nat.mul_le_mul (Nat.le_of_not_lt h) (Nat.le_of_not_lt h)
    omega
  interval_cases k <;> omega

theorem mem_paley_edgesPairs (n a b : Nat) :
    (a, b) ∈ Paley_blaze.edgesPairs n ↔
      a < n ∧ ∃ k, k < (n - 1) / 2 ∧ b = (a + k * k % n) % n := by
  unfold Paley_blaze.edgesPairs Paley_blaze.squareList
  simp only [List.mem_flatMap, List.mem_map, List.mem_range, Prod.mk.injEq,
    exists_exists_and_eq_and]
  constructor
  · rintro ⟨i, hi, k, hk, e1, e2⟩
    subst e1
    exact ⟨hi, k, hk, e2.symm⟩
  · rintro ⟨ha, k, hk, e⟩
    exact ⟨a, ha, k, hk, rfl, e.symm⟩

theorem paley_get (n : Nat) (hn : n % 4 = 1) (a b : Nat) :
    (Paley_blaze.ofNodesNumber n).m.get a b = true ↔
      a ≠ b ∧ ((a, b) ∈ Paley_blaze.edgesPairs n ∨ (b, a) ∈ Paley_blaze.edgesPairs n) := by
  unfold Paley_blaze.ofNodesNumber
  simp only [hn, ne_eq, not_true_eq_false, if_false]
  exact buildEdges_symmetric_get _ _ a b

/-- Edge rule of the Paley graph. -/
theorem paley_get_iff (n a b : Nat) (hn : n % 4 = 1) (ha : a < n) (hb : b < n)
    (hab : a ≠ b) :
    (Paley_blaze.ofNodesNumber n).m.get a b = true ↔
      ∃ k, k < (n - 1) / 2 ∧ (b = (a + k * k % n) % n ∨ a = (b + k * k % n) % n) := by
  rw [paley_get n hn, mem_paley_edgesPairs, mem_paley_edgesPairs]
  constructor
  · rintro ⟨_, (⟨_, k, hk, e⟩ | ⟨_, k, hk, e⟩)⟩
    · exact ⟨k, hk, Or.inl e⟩
    · exact ⟨k, hk, Or.inr e⟩
  · rintro ⟨k, hk, (e | e)⟩
    · exact ⟨hab, Or.inl ⟨ha, k, hk, e⟩⟩
    · exact ⟨hab, Or.inr ⟨hb, k, hk, e⟩⟩

/-- No product `c * base` with `c < modulus` passes `2 ^ 64` when `(modulus - 1) * base` does
not. -/
theorem product_fits (base modulus c : Nat) (hov : (modulus - 1) * base < 2 ^ 64)
    (hc : c < modulus) : (c * base) % 2 ^ 64 = c * base := by
  apply Nat.mod_eq_of_lt
  exact Nat.lt_of_le_of_lt (Nat.mul_le_mul_right base (by omega)) hov

theorem modularPowLoop_eq (base modulus : Nat) (hov : (modulus - 1) * base < 2 ^ 64) :
    ∀ (exponent c : Nat), c < modulus →
    Graph_blaze.modularPowLoop base modulus exponent c = (c * base ^ exponent) % modulus := by
  intro exponent
  induction exponent with
  | zero =>
    intro c hc
    simp [Graph_blaze.modularPowLoop, Nat.mod_eq_of_lt hc]
  | succ e ih =>
    intro c hc
    have hm : 0 < modulus := Nat.lt_of_le_of_lt (Nat.zero_le c) hc
    unfold Graph_blaze.modularPowLoop
    rw [product_fits base modulus c hov hc, ih _ (Nat.mod_lt _ hm), Nat.mod_mul_mod,
      Nat.pow_succ, Nat.mul_assoc, Nat.mul_comm (base ^ e) base]

theorem modularPow_eq (base exponent modulus : Nat) (hm : 2 ≤ modulus)
    (hov : (modulus - 1) * base < 2 ^ 64) :
    Graph_blaze.modularPow base exponent modulus = base ^ exponent % modulus := by
  unfold Graph_blaze.modularPow
  rw [if_neg (by omega), modularPowLoop_eq base modulus hov exponent 1 (by omega), Nat.one_mul]

theorem modularPowLoop_lt (base modulus : Nat) (hm : 0 < modulus) : ∀ (exponent c : Nat),
    c < modulus → Graph_blaze.modularPowLoop base modulus exponent c < modulus := by
  intro exponent
  induction exponent with
  | zero => intro c hc; exact hc
  | succ e ih =>
    intro c _
    unfold Graph_blaze.modularPowLoop
    exact ih _ (Nat.mod_lt _ hm)

/-- Whatever the products do, the value of `modularPow` is below a modulus of at least 2. -/
theorem modularPow_lt (base exponent modulus : Nat) (hm : 2 ≤ modulus) :
    Graph_blaze.modularPow base exponent modulus < modulus := by
  unfold Graph_blaze.modularPow
  rw [if_neg (by omega)]
  exact modularPowLoop_lt base modulus (by omega) exponent 1 (by omega)

theorem fermat_mod (n i : Nat) (hp : n.Prime) (hi0 : 0 < i) (hin : i < n) :
    i ^ (n - 1) % n = 1 := by
  have hc : Nat.Coprime i n :=
    ((Nat.Prime.coprime_iff_not_dvd hp).2 (Nat.not_dvd_of_pos_of_lt hi0 hin)).symm
  have h := Nat.ModEq.pow_totient hc
  rw [Nat.totient_prime hp] at h
  have h1 : 1 % n = 1 := Nat.mod_eq_of_lt hp.one_lt
  unfold Nat.ModEq at h
  rw [h, h1]

/-- C18. LPS third edge is the modular inverse: for every prime `n` and every `i` with
`0 < i < n`, the arithmetic being exact (no product `c * i` of the loop overflows, that is
`(n - 1) * i < 2 ^ 64`), `modularPow(i, n-2, n)` is the modular inverse of `i`:
`(i * modularPow(i, n-2, n)) mod n == 1` and `0 < modularPow(i, n-2, n) < n`. -/
theorem modularPow_inverse (n i : Nat) (hp : n.Prime) (hi0 : 0 < i) (hin : i < n)
    (hov : (n - 1) * i < 2 ^ 64) :
    (i * Graph_blaze.modularPow i (n - 2) n) % n = 1 ∧
    0 < Graph_blaze.modularPow i (n - 2) n ∧
    Graph_blaze.modularPow i (n - 2) n < n := by
  have h2 : 2 ≤ n := hp.two_le
  have hinv : (i * Graph_blaze.modularPow i (n - 2) n) % n = 1 := by
    rw [modularPow_eq i (n - 2) n h2 hov, Nat.mul_mod_mod, ← Nat.pow_succ']
    have e : (n - 2).succ = n - 1 := by omega
    rw [e]
    exact fermat_mod n i hp hi0 hin
  refine ⟨hinv, ?_, ?_⟩
  · rcases Nat.eq_zero_or_pos (Graph_blaze.modularPow i (n - 2) n) with h | h
    · rw [h] at hinv
      simp at hinv
    · exact h
  · exact modularPow_lt i (n - 2) n h2

/-- Witness of C18: `n = 7`, `i = 3`, whose inverse is 5. -/
theorem modularPow_inverse_witness :
    (Nat.Prime 7 ∧ 0 < 3 ∧ 3 < 7 ∧ (7 - 1) * 3 < 2 ^ 64) ∧
    (3 * Graph_blaze.modularPow 3 (7 - 2) 7) % 7 = 1 :=
  ⟨⟨by norm_num, by decide, by decide, by norm_num⟩,
    (modularPow_inverse 7 3 (by norm_num) (by decide) (by decide) (by norm_num)).1⟩

/-! ## The Margulis graph -/

theorem mem_margulis_edgesPairs (s a b : Nat) :
    (a, b) ∈ Margulis_blaze.edgesPairs s ↔
      ∃ i j, i < s ∧ j < s ∧ a = i * s + j ∧ b ∈ margulisImages s i j := by
  unfold Margulis_blaze.edgesPairs margulisImages
  rw [mem_cellLoop]
  simp only [List.mem_cons, List.mem_singleton, Prod.mk.injEq, List.not_mem_nil, or_false]
  constructor
  · rintro ⟨i, j, hi, hj, (⟨e1, e2⟩ | ⟨e1, e2⟩ | ⟨e1, e2⟩ | ⟨e1, e2⟩)⟩
    · exact ⟨i, j, hi, hj, e1, Or.inl e2⟩
    · exact ⟨i, j, hi, hj, e1, Or.inr (Or.inl e2)⟩
    · exact ⟨i, j, hi, hj, e1, Or.inr (Or.inr (Or.inl e2))⟩
    · exact ⟨i, j, hi, hj, e1, Or.inr (Or.inr (Or.inr e2))⟩
  · rintro ⟨i, j, hi, hj, e1, (e2 | e2 | e2 | e2)⟩
    · exact ⟨i, j, hi, hj, Or.inl ⟨e1, e2⟩⟩
    · exact ⟨i, j, hi, hj, Or.inr (Or.inl ⟨e1, e2⟩)⟩
    · exact ⟨i, j, hi, hj, Or.inr (Or.inr (Or.inl ⟨e1, e2⟩))⟩
    · exact ⟨i, j, hi, hj, Or.inr (Or.inr (Or.inr ⟨e1, e2⟩))⟩

theorem margulis_get (s a b : Nat) :
    (Margulis_blaze.ofNodesNumber (s * s)).m.get a b = true ↔
      a ≠ b ∧ ((a, b) ∈ Margulis_blaze.edgesPairs s ∨ (b, a) ∈ Margulis_blaze.edgesPairs s) := by
  unfold Margulis_blaze.ofNodesNumber
  simp only [Nat.sqrt_eq, ne_eq, not_true_eq_false, if_false]
  exact buildEdges_symmetric_get _ _ a b

/-- Edge rule of the Margulis graph on cells. -/
theorem margulis_get_cells (s i j i2 j2 : Nat) (hi : i < s) (hj : j < s) (hi2 : i2 < s)
    (hj2 : j2 < s) (hne : i * s + j ≠ i2 * s + j2) :
    (Margulis_blaze.ofNodesNumber (s * s)).m.get (i * s + j) (i2 * s + j2) = true ↔
      (i2 * s + j2 ∈ margulisImages s i j ∨ i * s + j ∈ margulisImages s i2 j2) := by
  rw [margulis_get, mem_margulis_edgesPairs, mem_margulis_edgesPairs]
  constructor
  · rintro ⟨_, (⟨i', j', _, hj', e, h⟩ | ⟨i', j', _, hj', e, h⟩)⟩
    · obtain ⟨e1, e2⟩ := flat_inj hj hj' e
      subst e1 e2
      exact Or.inl h
    · obtain ⟨e1, e2⟩ := flat_inj hj2 hj' e
      subst e1 e2
      exact Or.inr h
  · rintro (h | h)
    · exact ⟨hne, Or.inl ⟨i, j, hi, hj, rfl, h⟩⟩
    · exact ⟨hne, Or.inr ⟨i2, j2, hi2, hj2, rfl, h⟩⟩

/-- The solution below `s` of `(x + c) mod s = t`. -/
theorem mod_shift_unique (s x c t : Nat) (hx : x < s) (h : (x + c) % s = t) :
    x = (t + (s - c % s)) % s := by
  have hs : 0 < s := Nat.lt_of_le_of_lt (Nat.zero_le x) hx
  have hc : c % s < s := Nat.mod_lt c hs
  have hdm : s * (c / s) + c % s = c := Nat.div_add_mod c s
  rw [← h, Nat.mod_add_mod]
  have e : x + c + (s - c % s) = x + s * (c / s + 1) := by
    rw [Nat.mul_add, Nat.mul_one]
    omega
  rw [e, Nat.add_mul_mod_self_left, Nat.mod_eq_of_lt hx]

/-- A node paired with `(i, j)` by the Margulis rules, as source or as image, is one of the
four images or one of the four preimages of `(i, j)`. -/
theorem margulis_neighbour_mem (s i j v : Nat) (hj : j < s)
    (h : (i * s + j, v) ∈ Margulis_blaze.edgesPairs s ∨
      (v, i * s + j) ∈ Margulis_blaze.edgesPairs s) :
    v ∈ margulisImages s i j ++ margulisPreimages s i j := by
  rw [List.mem_append]
  rcases h with h | h
  · rw [mem_margulis_edgesPairs] at h
    obtain ⟨i', j', _, hj', e, hv⟩ := h
    obtain ⟨e1, e2⟩ := flat_inj hj hj' e
    subst e1 e2
    exact Or.inl hv
  · right
    rw [mem_margulis_edgesPairs] at h
    obtain ⟨i', j', hi', hj', e, hu⟩ := h
    subst e
    have hs : 0 < s := Nat.lt_of_le_of_lt (Nat.zero_le j) hj
    unfold margulisImages at hu
    unfold margulisPreimages
    simp only [List.mem_cons, List.mem_singleton, List.not_mem_nil, or_false] at hu ⊢
    rcases hu with hu | hu | hu | hu
    · obtain ⟨e1, e2⟩ := flat_inj hj hj' hu
      subst e2
      left
      rw [← mod_shift_unique s i' (2 * j) i hi' e1.symm]
    · obtain ⟨e1, e2⟩ := flat_inj hj (Nat.mod_lt _ hs) hu
      subst e1
      right; left
      have e3 : (j' + 2 * i) % s = j := by rw [Nat.add_comm]; exact e2.symm
      rw [← mod_shift_unique s j' (2 * i) j hj' e3]
    · obtain ⟨e1, e2⟩ := flat_inj hj (Nat.mod_lt _ hs) hu
      subst e1
      right; right; left
      have e3 : (j' + (2 * i + 1)) % s = j := by
        rw [show j' + (2 * i + 1) = 2 * i + j' + 1 by omega]; exact e2.symm
      rw [← mod_shift_unique s j' (2 * i + 1) j hj' e3]
    · obtain ⟨e1, e2⟩ := flat_inj hj hj' hu
      subst e2
      right; right; right
      have e3 : (i' + (2 * j + 1)) % s = i := by
        rw [show i' + (2 * j + 1) = i' + 2 * j + 1 by omega]; exact e1.symm
      rw [← mod_shift_unique s i' (2 * j + 1) i hi' e3]

/-- No node of the Margulis graph has more than eight neighbours. -/
theorem margulis_bucket_one_le (s u maxDepth : Nat) :
    ((explored (Margulis_blaze.ofNodesNumber (s * s)).m u maxDepth).getD 1 []).length ≤ 8 := by
  by_cases hu : u < (Margulis_blaze.ofNodesNumber (s * s)).m.columns
  · have hsub : (explored (Margulis_blaze.ofNodesNumber (s * s)).m u maxDepth).getD 1 [] ⊆
        margulisImages s (u / s) (u % s) ++ margulisPreimages s (u / s) (u % s) := by
      intro v hv
      rw [mem_explored _ _ _ hu, isDist_one] at hv
      obtain ⟨_, ⟨_, hget⟩, _⟩ := hv
      have hmem := ((margulis_get s u v).1 hget).2
      have hcell : ∃ i j, i < s ∧ j < s ∧ u = i * s + j := by
        rcases hmem with h | h
        · rw [mem_margulis_edgesPairs] at h
          obtain ⟨i, j, hi, hj, e, _⟩ := h
          exact ⟨i, j, hi, hj, e⟩
        · rw [mem_margulis_edgesPairs] at h
          obtain ⟨i, j, hi, hj, _, hu2⟩ := h
          have hs : 0 < s := Nat.lt_of_le_of_lt (Nat.zero_le j) hj
          unfold margulisImages at hu2
          simp only [List.mem_cons, List.mem_singleton, List.not_mem_nil, or_false] at hu2
          rcases hu2 with e | e | e | e
          · exact ⟨_, j, Nat.mod_lt _ hs, hj, e⟩
          · exact ⟨i, _, hi, Nat.mod_lt _ hs, e⟩
          · exact ⟨i, _, hi, Nat.mod_lt _ hs, e⟩
          · exact ⟨_, j, Nat.mod_lt _ hs, hj, e⟩
      obtain ⟨i, j, _, hj, e⟩ := hcell
      subst e
      rw [flat_div hj, flat_mod hj]
      exact margulis_neighbour_mem s i j v hj hmem
    exact (List.subperm_of_subset (nodup_bucket _ _ _ 1) hsub).length_le
  · unfold explored
    rw [if_pos (Nat.le_of_not_lt hu)]
    have : (List.replicate (maxDepth + 1) ([] : List Nat)).getD 1 [] = [] := by
      rw [List.getD_eq_getElem?_getD, List.getElem?_replicate]
      split_ifs <;> rfl
    rw [this]
    exact Nat.zero_le 8

/-- What the halving loop returns: an odd `d` and the number of halvings, with
`d * 2 ^ halvings` the number it started from. -/
theorem halveLoop_spec : ∀ (fuel d s d' s' : Nat),
    LPS_blaze.halveLoop fuel d s = some (d', s') →
      d' % 2 = 1 ∧ s ≤ s' ∧ d = d' * 2 ^ (s' - s) := by
  intro fuel
  induction fuel with
  | zero =>
    intro d s d' s' h
    simp [LPS_blaze.halveLoop] at h
  | succ fuel ih =>
    intro d s d' s' h
    unfold LPS_blaze.halveLoop at h
    by_cases hd : d % 2 = 0
    · rw [if_pos hd] at h
      obtain ⟨h1, h2, h3⟩ := ih _ _ _ _ h
      refine ⟨h1, by omega, ?_⟩
      have e : s' - s = (s' - (s + 1)) + 1 := by omega
      rw [e, Nat.pow_succ, ← Nat.mul_assoc, ← h3]
      omega
    · rw [if_neg hd] at h
      simp only [Option.some.injEq, Prod.mk.injEq] at h
      obtain ⟨e1, e2⟩ := h
      subst e1 e2
      refine ⟨by omega, Nat.le_refl _, ?_⟩
      simp

theorem pow_two_pow_succ_mod (p n r : Nat) :
    p ^ 2 ^ (r + 1) % n = (p * p % n) ^ 2 ^ r % n := by
  rw [← Nat.pow_mod, ← Nat.pow_two, ← Nat.pow_mul, Nat.pow_succ, Nat.mul_comm]

/-- Below `2 ^ 32` a square does not pass `2 ^ 64`. -/
theorem square_fits (n p : Nat) (hn : n ≤ 2 ^ 32) (hp : p < n) :
    (p * p) % 2 ^ 64 = p * p := by
  apply Nat.mod_eq_of_lt
  have h : p < 2 ^ 32 := Nat.lt_of_lt_of_le hp hn
  have h2 : p * p < 2 ^ 32 * 2 ^ 32 := Nat.mul_lt_mul'' h h
  have e : (2 : Nat) ^ 32 * 2 ^ 32 = 2 ^ 64 := by norm_num
  rw [e] at h2
  exact h2

/-- For `nodesNumber` up to `2 ^ 32` the squaring loop answers `true` exactly when one of the
repeated squares of `p`, up to the bound, is `nodesNumber - 1`. -/
theorem passLoop_iff (n : Nat) (hn32 : n ≤ 2 ^ 32) : ∀ (k p : Nat), p < n →
    (LPS_blaze.passLoop n k p = true ↔ ∃ r, r ≤ k ∧ p ^ 2 ^ r % n = n - 1) := by
  intro k
  induction k with
  | zero =>
    intro p hp
    unfold LPS_blaze.passLoop
    simp only [decide_eq_true_eq, Nat.le_zero_eq, exists_eq_left, Nat.pow_zero, Nat.pow_one]
    rw [Nat.mod_eq_of_lt hp]
  | succ k ih =>
    intro p hp
    have hn : 0 < n := Nat.lt_of_le_of_lt (Nat.zero_le p) hp
    unfold LPS_blaze.passLoop
    by_cases h : p = n - 1
    · rw [if_pos h]
      simp only [true_iff]
      exact ⟨0, Nat.zero_le _, by rw [Nat.pow_zero, Nat.pow_one, Nat.mod_eq_of_lt hp]; exact h⟩
    · rw [if_neg h, square_fits n p hn32 hp, ih _ (Nat.mod_lt _ hn)]
      constructor
      · rintro ⟨r, hr, e⟩
        exact ⟨r + 1, Nat.succ_le_succ hr, by rw [pow_two_pow_succ_mod]; exact e⟩
      · rintro ⟨r, hr, e⟩
        cases r with
        | zero =>
          rw [Nat.pow_zero, Nat.pow_one, Nat.mod_eq_of_lt hp] at e
          exact absurd e h
        | succ r =>
          exact ⟨r, Nat.le_of_succ_le_succ hr, by rw [← pow_two_pow_succ_mod]; exact e⟩

/-- For `nodesNumber` up to `2 ^ 32`, one round of the test answers `true` exactly when `a ^ d`
is 1 modulo `nodesNumber` or
one of `a ^ (d * 2 ^ r)`, `r` up to the loop bound, is `nodesNumber - 1`. -/
theorem miller_rabin_pass_iff (a s d n : Nat) (hn : 2 ≤ n) (hn32 : n ≤ 2 ^ 32) :
    LPS_blaze.miller_rabin_pass a s d n = true ↔
      a ^ d % n = 1 ∨
        ∃ r, r ≤ (s + (2 ^ 64 - 1)) % 2 ^ 64 ∧ a ^ (d * 2 ^ r) % n = n - 1 := by
  unfold LPS_blaze.miller_rabin_pass
  simp only []
  have hpow : ∀ r, (a ^ d % n) ^ 2 ^ r % n = a ^ (d * 2 ^ r) % n := by
    intro r
    rw [← Nat.pow_mod, ← Nat.pow_mul]
  by_cases h : a ^ d % n = 1
  · rw [if_pos h]
    simp [h]
  · rw [if_neg h, passLoop_iff n hn32 _ _ (Nat.mod_lt _ (by omega))]
    simp only [hpow, h, false_or]

/-- The rounds loop answers `true` exactly when every remaining round passes. -/
theorem roundsLoop_iff (witness : Nat → Nat) (s d n : Nat) : ∀ (left r0 : Nat),
    (LPS_blaze.roundsLoop witness s d n left r0 = true ↔
      ∀ r, r0 ≤ r → r < r0 + left → LPS_blaze.miller_rabin_pass (witness r) s d n = true) := by
  intro left
  induction left with
  | zero =>
    intro r0
    unfold LPS_blaze.roundsLoop
    simp only [true_iff]
    intro r h1 h2
    omega
  | succ left ih =>
    intro r0
    unfold LPS_blaze.roundsLoop
    by_cases h : LPS_blaze.miller_rabin_pass (witness r0) s d n = true
    · rw [if_neg (not_not.2 h), ih]
      constructor
      · intro h1 r hr1 hr2
        rcases Nat.eq_or_lt_of_le hr1 with e | e
        · subst e; exact h
        · exact h1 r e (by omega)
      · intro h1 r hr1 hr2
        exact h1 r (by omega) (by omega)
    · rw [if_pos h]
      constructor
      · intro h1
        exact absurd h1 (by simp)
      · intro h1
        exact absurd (h1 r0 (Nat.le_refl _) (by omega)) h

/-- In a field of odd or even prime order, an element whose `2 ^ s`-th power is 1 is 1 or has
`-1` among its repeated squares. -/
theorem sqrt_chain (p : Nat) [Fact p.Prime] (s : Nat) : ∀ y : ZMod p, y ^ 2 ^ s = 1 →
    y = 1 ∨ ∃ r, r < s ∧ y ^ 2 ^ r = -1 := by
  induction s with
  | zero =>
    intro y h
    left
    simpa using h
  | succ s ih =>
    intro y h
    have h2 : (y ^ 2) ^ 2 ^ s = 1 := by
      rw [← pow_mul, ← pow_succ']
      exact h
    rcases ih (y ^ 2) h2 with h3 | ⟨r, hr, h3⟩
    · rcases sq_eq_one_iff.1 h3 with h4 | h4
      · exact Or.inl h4
      · exact Or.inr ⟨0, Nat.succ_pos s, by simpa using h4⟩
    · refine Or.inr ⟨r + 1, Nat.succ_lt_succ hr, ?_⟩
      rw [pow_succ', pow_mul]
      exact h3

theorem natCast_sub_one (n : Nat) (hn : 1 ≤ n) : ((n - 1 : Nat) : ZMod n) = -1 := by
  have h : ((n - 1 : Nat) : ZMod n) + 1 = 0 := by
    have e : ((n - 1 + 1 : Nat) : ZMod n) = 0 := by
      rw [Nat.sub_add_cancel hn]
      exact ZMod.natCast_self n
    simpa using e
  exact eq_neg_of_add_eq_zero_left h

theorem mod_eq_one_iff (n z : Nat) (hn : 2 ≤ n) : z % n = 1 ↔ (z : ZMod n) = 1 := by
  have h1 : (1 : Nat) % n = 1 := Nat.mod_eq_of_lt hn
  have h := ZMod.natCast_eq_natCast_iff' z 1 n
  rw [h1, Nat.cast_one] at h
  exact h.symm

theorem mod_eq_sub_one_iff (n z : Nat) (hn : 2 ≤ n) : z % n = n - 1 ↔ (z : ZMod n) = -1 := by
  have h1 : (n - 1) % n = n - 1 := Nat.mod_eq_of_lt (by omega)
  have h := ZMod.natCast_eq_natCast_iff' z (n - 1) n
  rw [h1, natCast_sub_one n (by omega)] at h
  exact h.symm

theorem wrapped_bound (s : Nat) (h1 : 1 ≤ s) (h2 : s < 2 ^ 64) :
    (s + (2 ^ 64 - 1)) % 2 ^ 64 = s - 1 := by
  norm_num at h2 ⊢
  omega

/-- A prime up to `2 ^ 32` passes every round of the test. -/
theorem miller_rabin_pass_prime (n a d s : Nat) (hp : n.Prime) (hn : n ≤ 2 ^ 32)
    (ha0 : 0 < a) (han : a < n) (hd : n - 1 = d * 2 ^ s) (hodd : d % 2 = 1) :
    LPS_blaze.miller_rabin_pass a s d n = true := by
  have h2 : 2 ≤ n := hp.two_le
  rw [miller_rabin_pass_iff a s d n h2 hn]
  rcases Nat.eq_zero_or_pos s with hs | hs
  · subst hs
    have hn2 : n = 2 := by
      rcases hp.eq_two_or_odd with h | h
      · exact h
      · simp only [Nat.pow_zero, Nat.mul_one] at hd
        omega
    subst hn2
    have ha : a = 1 := by omega
    subst ha
    left
    simp
  · haveI : Fact n.Prime := ⟨hp⟩
    have hs64 : s < 2 ^ 64 := by
      have h3 : s < 2 ^ s := Nat.lt_two_pow s
      have h4 : 2 ^ s ≤ n - 1 := by
        rw [hd]
        exact Nat.le_mul_of_pos_left _ (by omega)
      omega
    rw [wrapped_bound s hs hs64]
    have hx : (a : ZMod n) ≠ 0 := by
      intro h
      rw [ZMod.natCast_zmod_eq_zero_iff_dvd] at h
      exact Nat.not_dvd_of_pos_of_lt ha0 han h
    have hf : ((a : ZMod n) ^ d) ^ 2 ^ s = 1 := by
      rw [← pow_mul, ← hd]
      exact ZMod.pow_card_sub_one_eq_one hx
    rcases sqrt_chain n s _ hf with h | ⟨r, hr, h⟩
    · left
      rw [mod_eq_one_iff n _ h2, Nat.cast_pow]
      exact h
    · right
      refine ⟨r, by omega, ?_⟩
      rw [mod_eq_sub_one_iff n _ h2, Nat.cast_pow, pow_mul]
      exact h

theorem halveLoop_some (n : Nat) (h : 2 ≤ n) :
    ∃ d s, LPS_blaze.halveLoop n (n - 1) 0 = some (d, s) ∧ d % 2 = 1 ∧ n - 1 = d * 2 ^ s := by
  have hs := halveLoop_isSome n (n - 1) 0 (by omega) (by omega)
  cases hq : LPS_blaze.halveLoop n (n - 1) 0 with
  | none => rw [hq] at hs; exact absurd hs (by simp)
  | some ds =>
    obtain ⟨d, s⟩ := ds
    obtain ⟨h1, _, h3⟩ := halveLoop_spec n (n - 1) 0 d s hq
    exact ⟨d, s, rfl, h1, by simpa using h3⟩

theorem millerRabin_prime (witness : Nat → Nat) (n : Nat) (hp : n.Prime) (hn : n ≤ 2 ^ 32)
    (hw : ∀ r, r < 20 → 0 < witness r ∧ witness r < n) :
    LPS_blaze.millerRabin witness n = some true := by
  obtain ⟨d, s, hq, hodd, hd⟩ := halveLoop_some n hp.two_le
  unfold LPS_blaze.millerRabin
  rw [if_neg (by have := hp.two_le; omega), hq]
  simp only [Option.some.injEq]
  rw [roundsLoop_iff]
  intro r _ hr
  exact miller_rabin_pass_prime n (witness r) d s hp hn (hw r (by omega)).1
    (hw r (by omega)).2 hd hodd

/-- LPS accepts the primes up to `2 ^ 32`, for which no square `p * p` of a round passes
`2 ^ 64`: for every sequence of 20 witnesses drawn from `1..n-1` (`pow` exact),
`millerRabin(n)` returns `true` and `LPS_blaze(n)` ends with `isValid() == true`. -/
theorem lps_accepts_primes (witness : Nat → Nat) (n : Nat) (hp : n.Prime) (hn : n ≤ 2 ^ 32)
    (hw : ∀ r, r < 20 → 0 < witness r ∧ witness r < n) :
    LPS_blaze.millerRabin witness n = some true ∧
    ∃ g, LPS_blaze.ofNodesNumber witness n = some g ∧ g.isValid = true := by
  have h := millerRabin_prime witness n hp hn hw
  refine ⟨h, ?_⟩
  unfold LPS_blaze.ofNodesNumber
  rw [h]
  exact ⟨_, rfl, rfl⟩

/-- The prime 7 with the witness 2 in every round: `LPS_blaze(7)` is valid. -/
theorem lps_accepts_primes_witness :
    (Nat.Prime 7 ∧ 7 ≤ 2 ^ 32 ∧ (0 < 2 ∧ 2 < 7)) ∧
    LPS_blaze.millerRabin (fun _ => 2) 7 = some true ∧
    ∃ g, LPS_blaze.ofNodesNumber (fun _ => 2) 7 = some g ∧ g.isValid = true :=
  ⟨⟨by norm_num, by norm_num, by decide⟩,
    lps_accepts_primes (fun _ => 2) 7 (by norm_num) (by norm_num)
      (fun _ _ => ⟨(by decide : 0 < 2), (by decide : 2 < 7)⟩)⟩

theorem gcd_pow_mod_ne (n a k : Nat) (hn : 2 ≤ n) (hg : 1 < Nat.gcd a n) (hk : 0 < k) :
    a ^ k % n ≠ 1 ∧ a ^ k % n ≠ n - 1 := by
  have hgn : Nat.gcd a n ∣ n := Nat.gcd_dvd_right a n
  have hga : Nat.gcd a n ∣ a ^ k := dvd_pow (Nat.gcd_dvd_left a n) (by omega)
  have hgm : Nat.gcd a n ∣ a ^ k % n := (Nat.dvd_mod_iff hgn).2 hga
  constructor
  · intro h
    rw [h] at hgm
    have := Nat.dvd_one.1 hgm
    omega
  · intro h
    rw [h] at hgm
    have h1 : Nat.gcd a n ∣ n - (n - 1) := Nat.dvd_sub' hgn hgm
    have e : n - (n - 1) = 1 := by omega
    rw [e] at h1
    have := Nat.dvd_one.1 h1
    omega

/-- A witness that shares a factor with `nodesNumber`, at most `2 ^ 32`, fails its round. -/
theorem miller_rabin_pass_gcd (n a s d : Nat) (hn : 2 ≤ n) (hn32 : n ≤ 2 ^ 32)
    (hg : 1 < Nat.gcd a n) (hd : 0 < d) : LPS_blaze.miller_rabin_pass a s d n = false := by
  rw [Bool.eq_false_iff]
  intro h
  rw [miller_rabin_pass_iff a s d n hn hn32] at h
  rcases h with h | ⟨r, _, h⟩
  · exact (gcd_pow_mod_ne n a d hn hg hd).1 h
  · exact (gcd_pow_mod_ne n a (d * 2 ^ r) hn hg (Nat.mul_pos hd (Nat.pow_pos (by omega)))).2 h

/-- When some round fails, `LPS_blaze` leaves the graph as constructed: invalid, with the
requested node count and the empty container. -/
theorem lps_rejected_of_failed_round (witness : Nat → Nat) (n r d s : Nat) (hn : 2 ≤ n)
    (hr : r < 20) (hq : LPS_blaze.halveLoop n (n - 1) 0 = some (d, s))
    (hfail : LPS_blaze.miller_rabin_pass (witness r) s d n = false) :
    LPS_blaze.ofNodesNumber witness n = some (Graph_blaze.init n) := by
  have hrounds : LPS_blaze.roundsLoop witness s d n 20 0 = false := by
    rw [Bool.eq_false_iff]
    intro h
    rw [roundsLoop_iff] at h
    have := h r (Nat.zero_le r) (by omega)
    rw [hfail] at this
    exact absurd this (by simp)
  have hmr : LPS_blaze.millerRabin witness n = some false := by
    unfold LPS_blaze.millerRabin
    rw [if_neg (by omega), hq]
    simp only [hrounds]
  unfold LPS_blaze.ofNodesNumber
  rw [hmr]

theorem lps_rejected_of_gcd (witness : Nat → Nat) (n r : Nat) (hn : 2 ≤ n)
    (hn32 : n ≤ 2 ^ 32) (hr : r < 20) (hg : 1 < Nat.gcd (witness r) n) :
    LPS_blaze.ofNodesNumber witness n = some (Graph_blaze.init n) := by
  obtain ⟨d, s, hq, hodd, _⟩ := halveLoop_some n hn
  exact lps_rejected_of_failed_round witness n r d s hn hr hq
    (miller_rabin_pass_gcd n (witness r) s d hn hn32 hg (by omega))

theorem composite_has_bad_witness (n : Nat) (hn : 2 ≤ n) (hnp : ¬ n.Prime) :
    ∃ a, 0 < a ∧ a < n ∧ 1 < Nat.gcd a n := by
  refine ⟨n.minFac, Nat.minFac_pos n, (Nat.not_prime_iff_minFac_lt hn).1 hnp, ?_⟩
  rw [Nat.gcd_eq_left (Nat.minFac_dvd n)]
  exact (Nat.minFac_prime (by omega)).one_lt

set_option maxRecDepth 100000 in
theorem lps_eight_all_ones :
    (LPS_blaze.ofNodesNumber (fun _ => 1) 8).map Graph_blaze.isValid = some true ∧
    (LPS_blaze.ofNodesNumber (fun _ => 1) 8).map (fun g => g.m.get 0 1) = some true := by
  decide

theorem paley_self_pair (n a : Nat) (h3 : 3 ≤ n) (ha : a < n) :
    (a, a) ∈ Paley_blaze.edgesPairs n := by
  rw [mem_paley_edgesPairs]
  refine ⟨ha, 0, by omega, ?_⟩
  simp [Nat.mod_eq_of_lt ha]

theorem paley_lt_columns (n a : Nat) (hn : n % 4 = 1) (h3 : 3 ≤ n) (ha : a < n) :
    a < (Paley_blaze.ofNodesNumber n).m.columns := by
  have h1 := (le_maxIndex _ _ (paley_self_pair n a h3 ha)).1
  have h2 : (Paley_blaze.ofNodesNumber n).m.columns =
      Graph_blaze.maxIndex (Paley_blaze.edgesPairs n) + 1 := by
    unfold Paley_blaze.ofNodesNumber
    simp only [hn, ne_eq, not_true_eq_false, if_false]
    exact (buildEdges_shape _ _ _).2
  rw [h2]
  exact Nat.lt_succ_of_le h1

/-- The depth-1 bucket of a node of the Paley graph. -/
theorem paley_bucket_one (n a maxDepth v : Nat) (hn : n % 4 = 1) (h3 : 3 ≤ n) (ha : a < n)
    (hd : 1 ≤ maxDepth) :
    v ∈ (explored (Paley_blaze.ofNodesNumber n).m a maxDepth).getD 1 [] ↔
      v < n ∧ a ≠ v ∧
        ∃ k, k < (n - 1) / 2 ∧ (v = (a + k * k % n) % n ∨ a = (v + k * k % n) % n) := by
  rw [mem_explored _ _ _ (paley_lt_columns n a hn h3 ha), isDist_one]
  unfold Adj
  constructor
  · rintro ⟨_, ⟨_, hget⟩, hne⟩
    have hmem := ((paley_get n hn a v).1 hget).2
    have hv : v < n := by
      rcases hmem with h | h
      · rw [mem_paley_edgesPairs] at h
        obtain ⟨_, k, _, e⟩ := h
        rw [e]
        exact Nat.mod_lt _ (by omega)
      · rw [mem_paley_edgesPairs] at h
        exact h.1
    exact ⟨hv, hne, (paley_get_iff n a v hn ha hv hne).1 hget⟩
  · rintro ⟨hv, hne, hk⟩
    exact ⟨hd, ⟨paley_lt_columns n v hn h3 hv,
      (paley_get_iff n a v hn ha hv hne).2 hk⟩, hne⟩

/-- Every nonzero residue modulo an odd `p = 2 * l + 1` is `k` or `-k` for some `1 <= k <= l`. -/
theorem residue_rep (p l : Nat) [Fact p.Prime] (hl : 2 * l + 1 = p) (x : ZMod p)
    (hx : x ≠ 0) :
    ∃ k, 1 ≤ k ∧ k ≤ l ∧ ((k : ZMod p) = x ∨ (k : ZMod p) = -x) := by
  have hv : x.val < p := ZMod.val_lt x
  have hv0 : x.val ≠ 0 := fun h => hx ((ZMod.val_eq_zero x).1 h)
  by_cases h : x.val ≤ l
  · exact ⟨x.val, by omega, h, Or.inl (ZMod.natCast_zmod_val x)⟩
  · refine ⟨p - x.val, by omega, by omega, Or.inr ?_⟩
    rw [Nat.cast_sub (Nat.le_of_lt hv), ZMod.natCast_self, ZMod.natCast_zmod_val, zero_sub]

theorem small_cast_ne_zero (p l k : Nat) (hl : 2 * l + 1 = p) (h1 : 1 ≤ k) (h2 : k ≤ l) :
    (k : ZMod p) ≠ 0 := by
  intro h
  rw [ZMod.natCast_zmod_eq_zero_iff_dvd] at h
  exact Nat.not_dvd_of_pos_of_lt (by omega) (by omega) h

/-- For `p` prime with `p mod 4 = 1`, the negative of a nonzero square is the square of some
`1 <= k <= l`. -/
theorem neg_sq_rep (p l : Nat) [Fact p.Prime] (hl : 2 * l + 1 = p) (h4 : p % 4 = 1)
    (z : ZMod p) (hz : z ≠ 0) :
    ∃ k, 1 ≤ k ∧ k ≤ l ∧ (k : ZMod p) ^ 2 = -(z ^ 2) := by
  obtain ⟨y, hy⟩ := (ZMod.exists_sq_eq_neg_one_iff (p := p)).2 (by omega)
  have hy0 : y ≠ 0 := by
    intro h
    rw [h] at hy
    simp at hy
  obtain ⟨k, h1, h2, h3⟩ := residue_rep p l hl (y * z) (mul_ne_zero hy0 hz)
  refine ⟨k, h1, h2, ?_⟩
  have e : (y * z) ^ 2 = -(z ^ 2) := by
    rw [mul_pow, pow_two y, ← hy]
    ring
  rcases h3 with h3 | h3
  · rw [h3, e]
  · rw [h3, neg_sq, e]

theorem sq_ne_neg_sq (p l k : Nat) [Fact p.Prime] (hl : 2 * l + 1 = p) (h1 : 1 ≤ k)
    (h2 : k ≤ l) : (k : ZMod p) ^ 2 ≠ -((k : ZMod p) ^ 2) := by
  intro h
  have hk := small_cast_ne_zero p l k hl h1 h2
  have h3 : (2 : ZMod p) * (k : ZMod p) ^ 2 = 0 := by
    rw [two_mul]
    nth_rewrite 1 [h]
    exact neg_add_cancel _
  rcases mul_eq_zero.1 h3 with h4 | h4
  · have h5 : ((2 : Nat) : ZMod p) = 0 := by simpa using h4
    rw [ZMod.natCast_zmod_eq_zero_iff_dvd] at h5
    have : p ≤ 2 := Nat.le_of_dvd (by omega) h5
    omega
  · exact hk (pow_eq_zero_iff (by omega) |>.1 h4)

theorem small_sq_inj (p l k1 k2 : Nat) [Fact p.Prime] (hl : 2 * l + 1 = p)
    (h1 : 1 ≤ k1) (h2 : k1 ≤ l) (h3 : 1 ≤ k2) (h4 : k2 ≤ l)
    (h : (k1 : ZMod p) ^ 2 = (k2 : ZMod p) ^ 2) : k1 = k2 := by
  rcases sq_eq_sq_iff_eq_or_eq_neg.1 h with e | e
  · have := (ZMod.natCast_eq_natCast_iff' k1 k2 p).1 e
    rw [Nat.mod_eq_of_lt (by omega), Nat.mod_eq_of_lt (by omega)] at this
    exact this
  · exfalso
    have h5 : ((k1 + k2 : Nat) : ZMod p) = 0 := by
      rw [Nat.cast_add, e]
      exact neg_add_cancel _
    rw [ZMod.natCast_zmod_eq_zero_iff_dvd] at h5
    exact Nat.not_dvd_of_pos_of_lt (by omega) (by omega) h5

theorem cast_eq_iff_of_lt (p v w : Nat) (hv : v < p) (hw : w < p) :
    (v : ZMod p) = (w : ZMod p) ↔ v = w := by
  rw [ZMod.natCast_eq_natCast_iff', Nat.mod_eq_of_lt hv, Nat.mod_eq_of_lt hw]

theorem eq_add_sq_mod_iff (p v a k : Nat) (hp : 0 < p) (hv : v < p) :
    v = (a + k * k % p) % p ↔ (v : ZMod p) = (a : ZMod p) + (k : ZMod p) ^ 2 := by
  have e : (((a + k * k % p) % p : Nat) : ZMod p) = (a : ZMod p) + (k : ZMod p) ^ 2 := by
    rw [ZMod.natCast_mod, Nat.cast_add, ZMod.natCast_mod, Nat.cast_mul, pow_two]
  rw [← e, cast_eq_iff_of_lt p v _ hv (Nat.mod_lt _ hp)]

theorem eq_add_sq_mod_iff' (p v a k : Nat) (hp : 0 < p) (hv : v < p) :
    v = (a + k * k) % p ↔ (v : ZMod p) = (a : ZMod p) + (k : ZMod p) ^ 2 := by
  have e : (((a + k * k) % p : Nat) : ZMod p) = (a : ZMod p) + (k : ZMod p) ^ 2 := by
    rw [ZMod.natCast_mod, Nat.cast_add, Nat.cast_mul, pow_two]
  rw [← e, cast_eq_iff_of_lt p v _ hv (Nat.mod_lt _ hp)]

/-- The neighbours of `a` in the Paley graph of a prime `p = 2 * l + 1` with `p mod 4 = 1` are
the nodes `(a + k * k) mod p` for `1 <= k <= l`. -/
theorem paley_neighbours_iff (p l a v : Nat) [Fact p.Prime] (hl : 2 * l + 1 = p)
    (h4 : p % 4 = 1) (ha : a < p) :
    (v < p ∧ a ≠ v ∧
        ∃ k, k < l ∧ (v = (a + k * k % p) % p ∨ a = (v + k * k % p) % p)) ↔
      v ∈ (List.range l).map (fun t => (a + (t + 1) * (t + 1)) % p) := by
  have hp0 : 0 < p := by omega
  rw [List.mem_map]
  simp only [List.mem_range]
  constructor
  · rintro ⟨hv, hne, k', hk', h⟩
    have hk0 : 1 ≤ k' := by
      rcases Nat.eq_zero_or_pos k' with h0 | h0
      · subst h0
        simp only [Nat.mul_zero, Nat.zero_mod, Nat.add_zero, Nat.mod_eq_of_lt ha,
          Nat.mod_eq_of_lt hv] at h
        rcases h with h | h
        · exact absurd h.symm hne
        · exact absurd h hne
      · exact h0
    rcases h with h | h
    · refine ⟨k' - 1, by omega, ?_⟩
      rw [Nat.sub_add_cancel hk0, h, Nat.add_mod_mod]
    · rw [eq_add_sq_mod_iff p a v k' hp0 ha] at h
      obtain ⟨k, h1, h2, h3⟩ := neg_sq_rep p l hl h4 (k' : ZMod p)
        (small_cast_ne_zero p l k' hl hk0 (by omega))
      refine ⟨k - 1, by omega, ?_⟩
      rw [Nat.sub_add_cancel h1]
      symm
      rw [eq_add_sq_mod_iff' p v a k hp0 hv, h3, h]
      ring
  · rintro ⟨t, ht, e⟩
    have hv : v < p := by rw [← e]; exact Nat.mod_lt _ hp0
    have hz : (v : ZMod p) = (a : ZMod p) + ((t + 1 : Nat) : ZMod p) ^ 2 :=
      (eq_add_sq_mod_iff' p v a (t + 1) hp0 hv).1 e.symm
    have hk := small_cast_ne_zero p l (t + 1) hl (by omega) (by omega)
    refine ⟨hv, ?_, ?_⟩
    · intro hav
      subst hav
      have h0 : ((t + 1 : Nat) : ZMod p) ^ 2 = 0 := by
        have := hz
        nth_rewrite 1 [← add_zero (a : ZMod p)] at this
        exact (add_left_cancel this).symm
      exact hk (pow_eq_zero_iff (by omega) |>.1 h0)
    · by_cases hlt : t + 1 < l
      · exact ⟨t + 1, hlt, Or.inl (by rw [Nat.add_mod_mod]; exact e.symm)⟩
      · have htl : t + 1 = l := by omega
        obtain ⟨k, h1, h2, h3⟩ := neg_sq_rep p l hl h4 ((t + 1 : Nat) : ZMod p) hk
        have hkl : k ≠ l := by
          intro hkl
          subst hkl
          rw [htl] at h3
          exact sq_ne_neg_sq p k k hl h1 h2 h3
        refine ⟨k, by omega, Or.inr ?_⟩
        rw [eq_add_sq_mod_iff p a v k hp0 ha, hz, h3]
        ring

theorem paley_neighbours_nodup (p l a : Nat) [Fact p.Prime] (hl : 2 * l + 1 = p) :
    ((List.range l).map (fun t => (a + (t + 1) * (t + 1)) % p)).Nodup := by
  have hp0 : 0 < p := by omega
  apply List.Nodup.map_on _ (List.nodup_range l)
  intro t1 h1 t2 h2 h
  rw [List.mem_range] at h1 h2
  have e1 := (eq_add_sq_mod_iff' p _ a (t1 + 1) hp0 (Nat.mod_lt _ hp0)).1 rfl
  have e2 := (eq_add_sq_mod_iff' p _ a (t2 + 1) hp0 (Nat.mod_lt _ hp0)).1 rfl
  rw [h, e2] at e1
  have e3 := small_sq_inj p l (t2 + 1) (t1 + 1) hl (by omega) (by omega) (by omega)
    (by omega) (add_left_cancel e1)
  omega

/-- Every node of the Paley graph of a prime `p` with `p mod 4 = 1` has `(p - 1) / 2`
neighbours. -/
theorem paley_bucket_one_length (p a maxDepth : Nat) (hp : p.Prime) (h4 : p % 4 = 1)
    (ha : a < p) (hd : 1 ≤ maxDepth) :
    ((explored (Paley_blaze.ofNodesNumber p).m a maxDepth).getD 1 []).length = (p - 1) / 2 := by
  haveI : Fact p.Prime := ⟨hp⟩
  have h2 := hp.two_le
  have hl : 2 * ((p - 1) / 2) + 1 = p := by omega
  rw [length_eq_of_mem_iff (nodup_bucket _ _ _ 1)
    (paley_neighbours_nodup p ((p - 1) / 2) a hl)]
  · simp
  · intro v
    rw [paley_bucket_one p a maxDepth v h4 (by omega) ha hd]
    exact paley_neighbours_iff p ((p - 1) / 2) a v hl h4 ha

theorem take_levels (row : Nat → List Nat) (r : Nat) : ∀ (k : Nat) (parents : List Nat)
    (nodes : List Bool), (levels row (r + k) parents nodes).take r = levels row r parents nodes := by
  induction r with
  | zero => intro k parents nodes; simp [levels]
  | succ r ih =>
    intro k parents nodes
    have e : r + 1 + k = (r + k) + 1 := by omega
    rw [e]
    simp only [levels, List.take_succ_cons]
    rw [ih]

theorem take_explored (m : MatrixType) (index d1 d2 : Nat) (h : d1 ≤ d2) :
    (explored m index d2).take (d1 + 1) = explored m index d1 := by
  unfold explored
  by_cases hc : index ≥ m.columns
  · rw [if_pos hc, if_pos hc, List.take_replicate]
    congr 1
    omega
  · rw [if_neg hc, if_neg hc, List.take_succ_cons]
    obtain ⟨k, rfl⟩ := Nat.exists_eq_add_of_le h
    rw [take_levels]

/-- C29. Depth monotonicity: for every graph, every start and all `d1 <= d2`, the first
`d1 + 1` buckets of `getNeighborsNew(start, d2)` are the buckets of
`getNeighborsNew(start, d1)`, same nodes in the same order, for the sparse and for the dense
explorer. -/
theorem getNeighborsNew_depth_monotone (g : Graph_blaze) (start d1 d2 : Nat) (h : d1 ≤ d2) :
    (g.getNeighborsNew_sparse start d2).take (d1 + 1) = g.getNeighborsNew_sparse start d1 ∧
    (g.getNeighborsNew_dense start d2).take (d1 + 1) = g.getNeighborsNew_dense start d1 := by
  simp only [getNeighborsNew_sparse_eq, getNeighborsNew_dense_eq]
  exact ⟨take_explored g.m start d1 d2 h, take_explored g.m start d1 d2 h⟩

/-- Witness of C29: the 3 × 3 four-connected grid from its centre, depths 1 and 2. -/
theorem getNeighborsNew_depth_monotone_witness :
    1 ≤ 2 ∧
    ((Grid4_blaze.ofSize 3 3).getNeighborsNew_sparse 4 2).take (1 + 1) =
      (Grid4_blaze.ofSize 3 3).getNeighborsNew_sparse 4 1 :=
  ⟨by decide, (getNeighborsNew_depth_monotone (Grid4_blaze.ofSize 3 3) 4 1 2 (by decide)).1⟩

/-- The node before the last on a shortest walk is one step nearer. -/
theorem isDist_pred (m : MatrixType) (k s v : Nat) (h : IsDist m (k + 1) s v) :
    ∃ w, IsDist m k s w := by
  obtain ⟨⟨w, hw, hadj⟩, hmin⟩ := h
  refine ⟨w, hw, ?_⟩
  intro j hj hwj
  exact hmin (j + 1) (Nat.succ_lt_succ hj) ⟨w, hwj, hadj⟩

theorem isDist_down (m : MatrixType) (s : Nat) (k : Nat) : ∀ (d v : Nat),
    IsDist m (d + k) s v → ∃ w, IsDist m d s w := by
  induction k with
  | zero => intro d v h; exact ⟨v, h⟩
  | succ k ih =>
    intro d v h
    obtain ⟨w, hw⟩ := isDist_pred m (d + k) s v h
    exact ih d w hw

theorem getD_replicate_nil (n d : Nat) :
    (List.replicate n ([] : List Nat)).getD d [] = [] := by
  rw [List.getD_eq_getElem?_getD, List.getElem?_replicate]
  split_ifs <;> rfl

/-- After an empty bucket every bucket is empty. -/
theorem explored_empty_after (m : MatrixType) (index maxDeep d d2 : Nat) (h : d ≤ d2)
    (he : (explored m index maxDeep).getD d [] = []) :
    (explored m index maxDeep).getD d2 [] = [] := by
  by_cases hc : index < m.columns
  · rw [List.eq_nil_iff_forall_not_mem]
    intro v hv
    rw [mem_explored m index maxDeep hc] at hv
    obtain ⟨hd2, hdist⟩ := hv
    obtain ⟨k, rfl⟩ := Nat.exists_eq_add_of_le h
    obtain ⟨w, hw⟩ := isDist_down m index k d v hdist
    have hmem : w ∈ (explored m index maxDeep).getD d [] :=
      (mem_explored m index maxDeep hc d w).2 ⟨by omega, hw⟩
    rw [he] at hmem
    exact absurd hmem (List.not_mem_nil w)
  · unfold explored
    rw [if_pos (Nat.le_of_not_lt hc)]
    exact getD_replicate_nil _ _

/-- Stopping at an empty bucket and leaving the later buckets empty gives the same result. -/
theorem explored_stop (m : MatrixType) (index maxDeep d : Nat)
    (he : (explored m index maxDeep).getD d [] = []) :
    explored m index maxDeep =
      (explored m index maxDeep).take d ++ List.replicate (maxDeep + 1 - d) [] := by
  have hdrop : (explored m index maxDeep).drop d = List.replicate (maxDeep + 1 - d) [] := by
    rw [List.eq_replicate_iff]
    refine ⟨by rw [List.length_drop, length_explored], ?_⟩
    intro b hb
    obtain ⟨i, hi, e⟩ := List.mem_iff_getElem.1 hb
    rw [List.getElem_drop] at e
    rw [List.length_drop] at hi
    have h2 := explored_empty_after m index maxDeep d (d + i) (by omega) he
    rw [List.getD_eq_getElem _ _ (by omega)] at h2
    rw [← e]
    exact h2
  nth_rewrite 1 [← List.take_append_drop d (explored m index maxDeep)]
  rw [hdrop]

/-- C28. Empty level is final: for every graph, start and `maxDepth`, if bucket `d` of
`getNeighborsNew(start, maxDepth)` is empty then every bucket `d2 >= d` is empty, and the
result is what stopping at level `d` with the remaining buckets left empty returns; for the
sparse and for the dense explorer. -/
theorem getNeighborsNew_empty_level_final (g : Graph_blaze) (start maxDepth d : Nat) :
    ((g.getNeighborsNew_sparse start maxDepth).getD d [] = [] →
      (∀ d2, d ≤ d2 → (g.getNeighborsNew_sparse start maxDepth).getD d2 [] = []) ∧
      g.getNeighborsNew_sparse start maxDepth =
        (g.getNeighborsNew_sparse start maxDepth).take d ++
          List.replicate (maxDepth + 1 - d) []) ∧
    ((g.getNeighborsNew_dense start maxDepth).getD d [] = [] →
      (∀ d2, d ≤ d2 → (g.getNeighborsNew_dense start maxDepth).getD d2 [] = []) ∧
      g.getNeighborsNew_dense start maxDepth =
        (g.getNeighborsNew_dense start maxDepth).take d ++
          List.replicate (maxDepth + 1 - d) []) := by
  simp only [getNeighborsNew_sparse_eq, getNeighborsNew_dense_eq]
  have key : (explored g.m start maxDepth).getD d [] = [] →
      (∀ d2, d ≤ d2 → (explored g.m start maxDepth).getD d2 [] = []) ∧
      explored g.m start maxDepth =
        (explored g.m start maxDepth).take d ++ List.replicate (maxDepth + 1 - d) [] :=
    fun he => ⟨fun d2 h => explored_empty_after g.m start maxDepth d d2 h he,
      explored_stop g.m start maxDepth d he⟩
  exact ⟨key, key⟩

/-- Witness of C28: the graph with the single edge 0 - 1 explored from 0 to depth 3; bucket 2
is empty, and so is bucket 3. -/
theorem getNeighborsNew_empty_level_final_witness :
    ((Graph_blaze.buildEdges true [(0, 1)] (Graph_blaze.init 2)).getNeighborsNew_sparse 0 3).getD
      2 [] = [] ∧ 2 ≤ 3 ∧
    ((Graph_blaze.buildEdges true [(0, 1)] (Graph_blaze.init 2)).getNeighborsNew_sparse 0 3).getD
      3 [] = [] :=
  ⟨by decide, by decide,
    ((getNeighborsNew_empty_level_final
      (Graph_blaze.buildEdges true [(0, 1)] (Graph_blaze.init 2)) 0 3 2).1 (by decide)).1 3
      (by decide)⟩

/-! ## The explorer: dense against sparse, frame, frontier -/

theorem sparseRow_sorted (m : MatrixType) (el : Nat) :
    (m.sparseRow el).Sorted (· < ·) :=
  List.Pairwise.filter _ (List.sorted_lt_range m.columns)

/-- An ascending list of the set columns of a row is the list the sparse iteration yields. -/
theorem rows_eq_sparseRow (m : MatrixType) (rows : Nat → List Nat)
    (hasc : ∀ el, (rows el).Sorted (· < ·))
    (hrel : ∀ el idx, idx ∈ rows el ↔ idx < m.columns ∧ m.get el idx = true) :
    rows = m.sparseRow := by
  funext el
  apply List.eq_of_perm_of_sorted _ (hasc el) (sparseRow_sorted m el)
  rw [List.perm_ext_iff_of_nodup (hasc el).nodup (sparseRow_sorted m el).nodup]
  intro idx
  rw [hrel, mem_sparseRow]
  rfl

theorem scanRows_sparseRow (m : MatrixType) : scanRows m.sparseRow = Graph_blaze.scanSparse m :=
  rfl

/-- C22. Dense/sparse equivalence: for every container, every start and every `maxDepth`
the dense specialization of `getNeighborsNew` and the sparse one return the same list of
buckets; this holds for the sparse iteration over any container whose rows store, in ascending
column order, exactly the columns set in the dense one. -/
theorem dense_sparse_equivalence (g : Graph_blaze) (rows : Nat → List Nat)
    (start maxDepth : Nat) :
    g.getNeighborsNew_sparse start maxDepth = g.getNeighborsNew_dense start maxDepth ∧
    ((∀ el, (rows el).Sorted (· < ·)) →
      (∀ el idx, idx ∈ rows el ↔ idx < g.m.columns ∧ g.m.get el idx = true) →
      Graph_blaze.getNeighborsNewWith (scanRows rows) g.m start maxDepth =
        g.getNeighborsNew_dense start maxDepth) := by
  have h : g.getNeighborsNew_sparse start maxDepth = g.getNeighborsNew_dense start maxDepth := by
    rw [getNeighborsNew_sparse_eq, getNeighborsNew_dense_eq]
  refine ⟨h, ?_⟩
  intro hasc hrel
  rw [rows_eq_sparseRow g.m rows hasc hrel, scanRows_sparseRow, ← h]
  rfl

/-- Witness of C22: the 2 × 2 eight-connected grid with its own sparse rows, from node 0 to
depth 2. -/
theorem dense_sparse_equivalence_witness :
    ((∀ el, ((Grid8_blaze.ofSize 2 2).m.sparseRow el).Sorted (· < ·)) ∧
      (∀ el idx, idx ∈ (Grid8_blaze.ofSize 2 2).m.sparseRow el ↔
        idx < (Grid8_blaze.ofSize 2 2).m.columns ∧
          (Grid8_blaze.ofSize 2 2).m.get el idx = true)) ∧
    Graph_blaze.getNeighborsNewWith (scanRows (Grid8_blaze.ofSize 2 2).m.sparseRow)
        (Grid8_blaze.ofSize 2 2).m 0 2 =
      (Grid8_blaze.ofSize 2 2).getNeighborsNew_dense 0 2 :=
  ⟨⟨sparseRow_sorted _, fun el idx => mem_sparseRow _ el idx⟩,
    (dense_sparse_equivalence (Grid8_blaze.ofSize 2 2) (Grid8_blaze.ofSize 2 2).m.sparseRow
      0 2).2 (sparseRow_sorted _) (fun el idx => mem_sparseRow _ el idx)⟩

/-- C27. Where the frontier is not the bucket: on the graph with the single edge 0 - 1,
explored from node 0 to depth 3, the buckets are `[0]`, `[1]`, `[]`, `[]` while the frontiers
expanded at depths 1, 2, 3 are `[0]`, `[1]`, `[0]`: the frontier expanded at depth 3 holds the
visited node 0 and is not bucket 2, for the sparse and for the dense explorer. -/
theorem frontier_holds_visited_node :
    (Graph_blaze.buildEdges true [(0, 1)] (Graph_blaze.init 2)).getNeighborsNew_sparse 0 3 =
      [[0], [1], [], []] ∧
    frontiersWith
        (Graph_blaze.scanSparse (Graph_blaze.buildEdges true [(0, 1)] (Graph_blaze.init 2)).m)
        (Graph_blaze.buildEdges true [(0, 1)] (Graph_blaze.init 2)).m 0 3 =
      [[0], [1], [0]] ∧
    (Graph_blaze.buildEdges true [(0, 1)] (Graph_blaze.init 2)).getNeighborsNew_dense 0 3 =
      [[0], [1], [], []] ∧
    frontiersWith
        (Graph_blaze.scanDense (Graph_blaze.buildEdges true [(0, 1)] (Graph_blaze.init 2)).m)
        (Graph_blaze.buildEdges true [(0, 1)] (Graph_blaze.init 2)).m 0 3 =
      [[0], [1], [0]] := by
  decide

/-! ## Construction: failed size checks, termination, the `valid` flag -/

theorem grid4_not_square (n : Nat) (h : ¬ ∃ k, k * k = n) :
    Grid4_blaze.ofNodesNumber n = Graph_blaze.init n := by
  rw [Nat.exists_mul_self] at h
  unfold Grid4_blaze.ofNodesNumber
  simp only []
  rw [if_pos h]
  rfl

theorem grid6_not_square (n : Nat) (h : ¬ ∃ k, k * k = n) :
    Grid6_blaze.ofNodesNumber n = Graph_blaze.init n := by
  rw [Nat.exists_mul_self] at h
  unfold Grid6_blaze.ofNodesNumber
  simp only []
  rw [if_pos h]
  rfl

theorem grid8_not_square (n : Nat) (h : ¬ ∃ k, k * k = n) :
    Grid8_blaze.ofNodesNumber n = Graph_blaze.init n := by
  rw [Nat.exists_mul_self] at h
  unfold Grid8_blaze.ofNodesNumber
  simp only []
  rw [if_pos h]
  rfl

theorem margulis_not_square (n : Nat) (h : ¬ ∃ k, k * k = n) :
    Margulis_blaze.ofNodesNumber n = Graph_blaze.init n := by
  rw [Nat.exists_mul_self] at h
  unfold Margulis_blaze.ofNodesNumber
  simp only []
  rw [if_pos h]
  rfl

theorem paley_not_one_mod_four (n : Nat) (h : n % 4 ≠ 1) :
    Paley_blaze.ofNodesNumber n = Graph_blaze.init n := by
  unfold Paley_blaze.ofNodesNumber
  simp only []
  rw [if_pos h]

theorem lps_test_failed (witness : Nat → Nat) (n : Nat)
    (h : LPS_blaze.millerRabin witness n = some false) :
    LPS_blaze.ofNodesNumber witness n = some (Graph_blaze.init n) := by
  unfold LPS_blaze.ofNodesNumber
  rw [h]

/-- A graph as its constructor leaves it: invalid, with the requested node count and the
`0 × 0` container; every query on it returns `maxDepth + 1` empty buckets. -/
theorem init_is_empty (n : Nat) :
    (Graph_blaze.init n).isValid = false ∧ (Graph_blaze.init n).getNodesNumber = n ∧
    (Graph_blaze.init n).m.rows = 0 ∧ (Graph_blaze.init n).m.columns = 0 ∧
    (∀ i j, (Graph_blaze.init n).m.get i j = false) ∧
    (∀ start maxDepth,
      (Graph_blaze.init n).getNeighborsNew_sparse start maxDepth =
        List.replicate (maxDepth + 1) [] ∧
      (Graph_blaze.init n).getNeighborsNew_dense start maxDepth =
        List.replicate (maxDepth + 1) []) := by
  refine ⟨rfl, rfl, rfl, rfl, fun _ _ => rfl, ?_⟩
  intro start maxDepth
  rw [getNeighborsNew_sparse_eq, getNeighborsNew_dense_eq]
  have h : start ≥ (Graph_blaze.init n).m.columns := Nat.zero_le start
  rw [if_pos h]
  exact ⟨rfl, rfl⟩

/-- C21. Fail-fast builds nothing: for every generator and every requested size `n` whose
size check fails (a non-square `n` for the grids and Margulis, `n mod 4 != 1` for Paley, a
primality test answering `false` for LPS) the constructor returns the graph as
`Graph_blaze(n)` initialised it: `isValid() == false`, `getNodesNumber() == n`, a `0 × 0`
container with no entry, and `maxDepth + 1` empty buckets from `getNeighborsNew` for every
start. -/
theorem fail_fast_builds_nothing (n : Nat) :
    ((¬ ∃ k, k * k = n) →
      Grid4_blaze.ofNodesNumber n = Graph_blaze.init n ∧
      Grid6_blaze.ofNodesNumber n = Graph_blaze.init n ∧
      Grid8_blaze.ofNodesNumber n = Graph_blaze.init n ∧
      Margulis_blaze.ofNodesNumber n = Graph_blaze.init n) ∧
    (n % 4 ≠ 1 → Paley_blaze.ofNodesNumber n = Graph_blaze.init n) ∧
    (∀ witness, LPS_blaze.millerRabin witness n = some false →
      LPS_blaze.ofNodesNumber witness n = some (Graph_blaze.init n)) ∧
    ((Graph_blaze.init n).isValid = false ∧ (Graph_blaze.init n).getNodesNumber = n ∧
      (Graph_blaze.init n).m.rows = 0 ∧ (Graph_blaze.init n).m.columns = 0 ∧
      (∀ i j, (Graph_blaze.init n).m.get i j = false) ∧
      (∀ start maxDepth,
        (Graph_blaze.init n).getNeighborsNew_sparse start maxDepth =
          List.replicate (maxDepth + 1) [] ∧
        (Graph_blaze.init n).getNeighborsNew_dense start maxDepth =
          List.replicate (maxDepth + 1) [])) :=
  ⟨fun h => ⟨grid4_not_square n h, grid6_not_square n h, grid8_not_square n h,
      margulis_not_square n h⟩,
    paley_not_one_mod_four n, fun witness h => lps_test_failed witness n h, init_is_empty n⟩

theorem millerRabin_false_of_gcd (witness : Nat → Nat) (n r : Nat) (hn : 2 ≤ n)
    (hn32 : n ≤ 2 ^ 32) (hr : r < 20) (hg : 1 < Nat.gcd (witness r) n) :
    LPS_blaze.millerRabin witness n = some false := by
  obtain ⟨d, s, hq, hodd, _⟩ := halveLoop_some n hn
  have hfail := miller_rabin_pass_gcd n (witness r) s d hn hn32 hg (by omega)
  have hrounds : LPS_blaze.roundsLoop witness s d n 20 0 = false := by
    rw [Bool.eq_false_iff]
    intro h
    rw [roundsLoop_iff] at h
    have := h r (Nat.zero_le r) (by omega)
    rw [hfail] at this
    exact absurd this (by simp)
  unfold LPS_blaze.millerRabin
  rw [if_neg (by omega), hq]
  simp only [hrounds]

/-- Witness of C21: the non-square 10, which is 2 modulo 4, with the witness 2 in every round
of the primality test. -/
theorem fail_fast_builds_nothing_witness :
    ((¬ ∃ k : Nat, k * k = 10) ∧ 10 % 4 ≠ 1 ∧
      LPS_blaze.millerRabin (fun _ => 2) 10 = some false) ∧
    Grid4_blaze.ofNodesNumber 10 = Graph_blaze.init 10 ∧
    Paley_blaze.ofNodesNumber 10 = Graph_blaze.init 10 ∧
    LPS_blaze.ofNodesNumber (fun _ => 2) 10 = some (Graph_blaze.init 10) :=
  ⟨⟨ten_not_square, by decide,
      millerRabin_false_of_gcd (fun _ => 2) 10 0 (by decide) (by norm_num) (by decide)
        (by decide)⟩,
    ((fail_fast_builds_nothing 10).1 ten_not_square).1,
    (fail_fast_builds_nothing 10).2.1 (by decide),
    (fail_fast_builds_nothing 10).2.2.1 (fun _ => 2)
      (millerRabin_false_of_gcd (fun _ => 2) 10 0 (by decide) (by norm_num) (by decide)
        (by decide))⟩

theorem halveLoop_zero : ∀ (fuel s : Nat), LPS_blaze.halveLoop fuel 0 s = none := by
  intro fuel
  induction fuel with
  | zero => intro s; rfl
  | succ fuel ih =>
    intro s
    unfold LPS_blaze.halveLoop
    rw [if_pos (by decide)]
    exact ih (s + 1)

/-- C24. Where construction does not run to completion: for the node count 1 the halving loop
of `millerRabin` starts from `d == 0` and exits within no number of iterations, so
`millerRabin(1)` and `LPS_blaze(1)` return nothing, whatever the witnesses. -/
theorem lps_one_never_returns :
    (∀ fuel s, LPS_blaze.halveLoop fuel (1 - 1) s = none) ∧
    (∀ witness, LPS_blaze.millerRabin witness 1 = none) ∧
    (∀ witness, LPS_blaze.ofNodesNumber witness 1 = none) := by
  refine ⟨fun fuel s => halveLoop_zero fuel s, ?_, ?_⟩
  · intro witness
    rfl
  · intro witness
    rfl

/-- C26. `buildEdges` does not touch the `valid` flag: for every graph, symmetric or not, and
every edge-pair list the value of `valid` (and of `isValid()`) after `buildEdges` is its value
before the call. -/
theorem buildEdges_keeps_valid (isSymmetric : Bool) (edgesPairs : List (Nat × Nat))
    (g : Graph_blaze) :
    (Graph_blaze.buildEdges isSymmetric edgesPairs g).valid = g.valid ∧
    (Graph_blaze.buildEdges isSymmetric edgesPairs g).isValid = g.isValid :=
  ⟨rfl, rfl⟩

/-! ## The edge builder: edge lists as sets of unordered pairs -/

theorem maxFold_le (ps : List (Nat × Nat)) : ∀ (acc M : Nat), acc ≤ M →
    (∀ p ∈ ps, p.1 ≤ M ∧ p.2 ≤ M) →
    ps.foldl (fun max p =>
        let max := if p.1 > max then p.1 else max
        if p.2 > max then p.2 else max) acc ≤ M := by
  induction ps with
  | nil => intro acc M h _; exact h
  | cons q ps ih =>
    intro acc M h hall
    rw [List.foldl_cons]
    apply ih
    · have hq := hall q (List.mem_cons_self _ _)
      simp only []
      split_ifs <;> omega
    · intro p hp
      exact hall p (List.mem_cons_of_mem _ hp)

theorem maxIndex_le (ps : List (Nat × Nat)) (M : Nat) (h : ∀ p ∈ ps, p.1 ≤ M ∧ p.2 ≤ M) :
    Graph_blaze.maxIndex ps ≤ M :=
  maxFold_le ps 0 M (Nat.zero_le M) h

theorem matrixType_ext (m1 m2 : MatrixType) (h1 : m1.rows = m2.rows)
    (h2 : m1.columns = m2.columns) (h3 : ∀ a b, m1.get a b = m2.get a b) : m1 = m2 := by
  cases m1
  cases m2
  simp only [MatrixType.mk.injEq]
  exact ⟨h1, h2, funext fun a => funext fun b => h3 a b⟩

/-- Two edge lists with the same largest index and the same effect on every entry build the
same graph. -/
theorem buildEdges_congr (sym : Bool) (p q : List (Nat × Nat)) (g : Graph_blaze)
    (hmax : Graph_blaze.maxIndex p = Graph_blaze.maxIndex q)
    (hget : ∀ a b,
      (∃ x ∈ p, x.1 ≠ x.2 ∧ ((a = x.1 ∧ b = x.2) ∨ (sym = true ∧ a = x.2 ∧ b = x.1))) ↔
      (∃ x ∈ q, x.1 ≠ x.2 ∧ ((a = x.1 ∧ b = x.2) ∨ (sym = true ∧ a = x.2 ∧ b = x.1)))) :
    Graph_blaze.buildEdges sym p g = Graph_blaze.buildEdges sym q g := by
  have hm : (Graph_blaze.buildEdges sym p g).m = (Graph_blaze.buildEdges sym q g).m := by
    apply matrixType_ext
    · rw [(buildEdges_shape sym p g).1, (buildEdges_shape sym q g).1, hmax]
    · rw [(buildEdges_shape sym p g).2, (buildEdges_shape sym q g).2, hmax]
    · intro a b
      rw [Bool.eq_iff_iff, buildEdges_get, buildEdges_get]
      exact hget a b
  have hn : (Graph_blaze.buildEdges sym p g).nodesNumber =
      (Graph_blaze.buildEdges sym q g).nodesNumber := by
    rw [buildEdges_nodesNumber, buildEdges_nodesNumber, hmax]
  have hv : (Graph_blaze.buildEdges sym p g).valid = (Graph_blaze.buildEdges sym q g).valid :=
    rfl
  cases hp : Graph_blaze.buildEdges sym p g
  cases hq : Graph_blaze.buildEdges sym q g
  rw [hp, hq] at hm hn hv
  simp only [Graph_blaze.mk.injEq]
  exact ⟨hn, hv, hm⟩

/-- Edge lists with the same pairs, in any order and multiplicity, build the same graph. -/
theorem buildEdges_same_pairs (sym : Bool) (p q : List (Nat × Nat)) (g : Graph_blaze)
    (h : ∀ x, x ∈ p ↔ x ∈ q) :
    Graph_blaze.buildEdges sym p g = Graph_blaze.buildEdges sym q g := by
  apply buildEdges_congr
  · apply Nat.le_antisymm
    · exact maxIndex_le p _ (fun x hx => le_maxIndex q x ((h x).1 hx))
    · exact maxIndex_le q _ (fun x hx => le_maxIndex p x ((h x).2 hx))
  · intro a b
    constructor
    · rintro ⟨x, hx, hc⟩; exact ⟨x, (h x).1 hx, hc⟩
    · rintro ⟨x, hx, hc⟩; exact ⟨x, (h x).2 hx, hc⟩

theorem maxIndex_le_of_unordered (p q : List (Nat × Nat))
    (h : ∀ i j, (i, j) ∈ p → ((i, j) ∈ q ∨ (j, i) ∈ q)) :
    Graph_blaze.maxIndex p ≤ Graph_blaze.maxIndex q := by
  apply maxIndex_le
  rintro ⟨i, j⟩ hx
  rcases h i j hx with h1 | h1
  · exact le_maxIndex q _ h1
  · have := le_maxIndex q _ h1
    exact ⟨this.2, this.1⟩

/-- On a symmetric container, edge lists with the same pairs up to order, multiplicity and
the order inside a pair build the same graph. -/
theorem buildEdges_same_unordered (p q : List (Nat × Nat)) (g : Graph_blaze)
    (h : ∀ i j, ((i, j) ∈ p ∨ (j, i) ∈ p) ↔ ((i, j) ∈ q ∨ (j, i) ∈ q)) :
    Graph_blaze.buildEdges true p g = Graph_blaze.buildEdges true q g := by
  have hm : (Graph_blaze.buildEdges true p g).m = (Graph_blaze.buildEdges true q g).m := by
    apply matrixType_ext
    · rw [(buildEdges_shape true p g).1, (buildEdges_shape true q g).1]
      congr 1
      exact Nat.le_antisymm
        (maxIndex_le_of_unordered p q (fun i j hx => (h i j).1 (Or.inl hx)))
        (maxIndex_le_of_unordered q p (fun i j hx => (h i j).2 (Or.inl hx)))
    · rw [(buildEdges_shape true p g).2, (buildEdges_shape true q g).2]
      congr 1
      exact Nat.le_antisymm
        (maxIndex_le_of_unordered p q (fun i j hx => (h i j).1 (Or.inl hx)))
        (maxIndex_le_of_unordered q p (fun i j hx => (h i j).2 (Or.inl hx)))
    · intro a b
      rw [Bool.eq_iff_iff, buildEdges_symmetric_get, buildEdges_symmetric_get, h a b]
  have hmax : Graph_blaze.maxIndex p = Graph_blaze.maxIndex q :=
    Nat.le_antisymm
      (maxIndex_le_of_unordered p q (fun i j hx => (h i j).1 (Or.inl hx)))
      (maxIndex_le_of_unordered q p (fun i j hx => (h i j).2 (Or.inl hx)))
  have hn : (Graph_blaze.buildEdges true p g).nodesNumber =
      (Graph_blaze.buildEdges true q g).nodesNumber := by
    rw [buildEdges_nodesNumber, buildEdges_nodesNumber, hmax]
  have hv : (Graph_blaze.buildEdges true p g).valid =
      (Graph_blaze.buildEdges true q g).valid := rfl
  cases hp : Graph_blaze.buildEdges true p g
  cases hq : Graph_blaze.buildEdges true q g
  rw [hp, hq] at hm hn hv
  simp only [Graph_blaze.mk.injEq]
  exact ⟨hn, hv, hm⟩

/-- Appending a pair `(i, i)` whose index does not exceed the largest index changes nothing. -/
theorem buildEdges_append_loop (sym : Bool) (p : List (Nat × Nat)) (g : Graph_blaze) (i : Nat)
    (hi : i ≤ Graph_blaze.maxIndex p) :
    Graph_blaze.buildEdges sym (p ++ [(i, i)]) g = Graph_blaze.buildEdges sym p g := by
  apply buildEdges_congr
  · apply Nat.le_antisymm
    · apply maxIndex_le
      intro x hx
      rw [List.mem_append, List.mem_singleton] at hx
      rcases hx with hx | hx
      · exact le_maxIndex p x hx
      · subst hx
        exact ⟨hi, hi⟩
    · exact maxIndex_le p _
        (fun x hx => le_maxIndex (p ++ [(i, i)]) x (List.mem_append_left _ hx))
  · intro a b
    constructor
    · rintro ⟨x, hx, hne, hc⟩
      rw [List.mem_append, List.mem_singleton] at hx
      rcases hx with hx | hx
      · exact ⟨x, hx, hne, hc⟩
      · subst hx
        exact absurd rfl hne
    · rintro ⟨x, hx, hc⟩
      exact ⟨x, List.mem_append_left _ hx, hc⟩

/-- C25. Edge lists are sets of unordered pairs: for every graph with a symmetric container
and all edge-pair lists `p`, `q` holding the same pairs up to order, multiplicity and the order
inside a pair, `buildEdges(p)` and `buildEdges(q)` give the same node count, flag and
container; with any container the same holds for lists equal up to order and multiplicity, so
`buildEdges(p ++ p)` is `buildEdges(p)`, and appending a pair `(i, i)` with `i` not above the
largest index of `p` changes nothing. -/
theorem buildEdges_unordered_pairs (p q : List (Nat × Nat)) (g : Graph_blaze) :
    ((∀ i j, ((i, j) ∈ p ∨ (j, i) ∈ p) ↔ ((i, j) ∈ q ∨ (j, i) ∈ q)) →
      Graph_blaze.buildEdges true p g = Graph_blaze.buildEdges true q g) ∧
    (∀ sym, (∀ x, x ∈ p ↔ x ∈ q) →
      Graph_blaze.buildEdges sym p g = Graph_blaze.buildEdges sym q g) ∧
    (∀ sym, Graph_blaze.buildEdges sym (p ++ p) g = Graph_blaze.buildEdges sym p g) ∧
    (∀ sym i, i ≤ Graph_blaze.maxIndex p →
      Graph_blaze.buildEdges sym (p ++ [(i, i)]) g = Graph_blaze.buildEdges sym p g) :=
  ⟨buildEdges_same_unordered p q g, fun sym h => buildEdges_same_pairs sym p q g h,
    fun sym => buildEdges_same_pairs sym (p ++ p) p g (fun x => by simp),
    fun sym i hi => buildEdges_append_loop sym p g i hi⟩

/-- Witness of C25: the lists `[(0, 1), (2, 1)]` and `[(1, 2), (1, 0), (2, 1)]` on a fresh
graph of 2 nodes. -/
theorem buildEdges_unordered_pairs_witness :
    (∀ i j, ((i, j) ∈ [(0, 1), (2, 1)] ∨ (j, i) ∈ [(0, 1), (2, 1)]) ↔
      ((i, j) ∈ [(1, 2), (1, 0), (2, 1)] ∨ (j, i) ∈ [(1, 2), (1, 0), (2, 1)])) ∧
    Graph_blaze.buildEdges true [(0, 1), (2, 1)] (Graph_blaze.init 2) =
      Graph_blaze.buildEdges true [(1, 2), (1, 0), (2, 1)] (Graph_blaze.init 2) :=
  have h : ∀ i j, ((i, j) ∈ [(0, 1), (2, 1)] ∨ (j, i) ∈ [(0, 1), (2, 1)]) ↔
      ((i, j) ∈ [(1, 2), (1, 0), (2, 1)] ∨ (j, i) ∈ [(1, 2), (1, 0), (2, 1)]) := by
    intro i j
    simp only [List.mem_cons, List.mem_singleton, Prod.mk.injEq, List.not_mem_nil, or_false]
    omega
  ⟨h, (buildEdges_unordered_pairs [(0, 1), (2, 1)] [(1, 2), (1, 0), (2, 1)]
    (Graph_blaze.init 2)).1 h⟩

/-! ## Valid instances are consistently sized -/

theorem buildEdges_sized (sym : Bool) (ps : List (Nat × Nat)) (g : Graph_blaze) (n : Nat)
    (hn : g.nodesNumber = n) (h1 : 1 ≤ n) (hlt : ∀ p ∈ ps, p.1 < n ∧ p.2 < n)
    (hge : n - 1 ≤ Graph_blaze.maxIndex ps) :
    (Graph_blaze.buildEdges sym ps g).nodesNumber = n ∧
    (Graph_blaze.buildEdges sym ps g).m.rows = n ∧
    (Graph_blaze.buildEdges sym ps g).m.columns = n := by
  have hle : Graph_blaze.maxIndex ps ≤ n - 1 :=
    maxIndex_le ps (n - 1) (fun p hp => by have := hlt p hp; omega)
  have he : Graph_blaze.maxIndex ps + 1 = n := by omega
  refine ⟨?_, ?_, ?_⟩
  · rw [buildEdges_nodesNumber, hn, he]
    exact Nat.max_self n
  · rw [(buildEdges_shape sym ps g).1, he]
  · rw [(buildEdges_shape sym ps g).2, he]

theorem last_cell (w h : Nat) (hw : 0 < w) (hh : 0 < h) :
    w * h - 1 = (h - 1) * w + (w - 1) := by
  obtain ⟨k, rfl⟩ : ∃ k, h = k + 1 := ⟨h - 1, by omega⟩
  rw [Nat.mul_succ, Nat.add_sub_cancel, Nat.mul_comm w k]
  omega

theorem pos_of_mul_ge_one (w h : Nat) (h1 : 1 ≤ w * h) : 0 < w ∧ 0 < h := by
  constructor
  · rcases Nat.eq_zero_or_pos w with e | e
    · rw [e, Nat.zero_mul] at h1; omega
    · exact e
  · rcases Nat.eq_zero_or_pos h with e | e
    · rw [e, Nat.mul_zero] at h1; omega
    · exact e

theorem grid4_construct_sized (w h : Nat) (g : Graph_blaze) (hn : g.nodesNumber = w * h)
    (h1 : 1 ≤ w * h) : ConsistentlySized (Grid4_blaze.construct w h g) (w * h) := by
  obtain ⟨hw, hh⟩ := pos_of_mul_ge_one w h h1
  have key := buildEdges_sized defaultSymmetric (Grid4_blaze.edgesPairs w h)
    ⟨g.nodesNumber, g.valid, g.m.resize (w * h) (w * h)⟩ (w * h) hn h1
    (by
      rintro ⟨a, b⟩ hp
      obtain ⟨⟨i, j, hi, hj, ea⟩, ⟨i2, j2, hi2, hj2, eb⟩⟩ := offsetLoop_cells _ w h a b hp
      exact ⟨by rw [ea]; exact flat_lt hi hj, by rw [eb]; exact flat_lt hi2 hj2⟩)
    (by
      rw [last_cell w h hw hh]
      exact (le_maxIndex _ _
        (grid4_self_pair w h (h - 1) (w - 1) (by omega) (by omega))).1)
  exact ⟨rfl, key.1, key.2.1, key.2.2⟩

theorem grid8_construct_sized (w h : Nat) (g : Graph_blaze) (hn : g.nodesNumber = w * h)
    (h1 : 1 ≤ w * h) : ConsistentlySized (Grid8_blaze.construct w h g) (w * h) := by
  obtain ⟨hw, hh⟩ := pos_of_mul_ge_one w h h1
  have key := buildEdges_sized defaultSymmetric (Grid8_blaze.edgesPairs w h)
    ⟨g.nodesNumber, g.valid, g.m.resize (w * h) (w * h)⟩ (w * h) hn h1
    (by
      rintro ⟨a, b⟩ hp
      obtain ⟨⟨i, j, hi, hj, ea⟩, ⟨i2, j2, hi2, hj2, eb⟩⟩ := offsetLoop_cells _ w h a b hp
      exact ⟨by rw [ea]; exact flat_lt hi hj, by rw [eb]; exact flat_lt hi2 hj2⟩)
    (by
      rw [last_cell w h hw hh]
      exact grid8_cell_le_maxIndex w h (h - 1) (w - 1) (by omega) (by omega))
  exact ⟨rfl, key.1, key.2.1, key.2.2⟩

theorem grid6_construct_sized (w h : Nat) (g : Graph_blaze) (hn : g.nodesNumber = w * h)
    (h1 : 1 ≤ w * h) : ConsistentlySized (Grid6_blaze.construct w h g) (w * h) := by
  obtain ⟨hw, hh⟩ := pos_of_mul_ge_one w h h1
  have key := buildEdges_sized defaultSymmetric (Grid6_blaze.edgesPairs w h)
    ⟨g.nodesNumber, true, g.m.resize (w * h) (w * h)⟩ (w * h) hn h1
    (by
      rintro ⟨a, b⟩ hp
      obtain ⟨⟨i, j, hi, hj, ea⟩, ⟨i2, j2, hi2, hj2, eb⟩⟩ := grid6_edges_cells w h a b hp
      exact ⟨by rw [ea]; exact flat_lt hi hj, by rw [eb]; exact flat_lt hi2 hj2⟩)
    (by
      rw [last_cell w h hw hh]
      exact grid6_cell_le_maxIndex w h (h - 1) (w - 1) (by omega) (by omega))
  exact ⟨rfl, key.1, key.2.1, key.2.2⟩

theorem sqrt_of_square (n : Nat) (h : ∃ k, k * k = n) : Nat.sqrt n * Nat.sqrt n = n :=
  (Nat.exists_mul_self n).1 h

theorem grid4_sized (n : Nat) (h1 : 1 ≤ n) (h : ∃ k, k * k = n) :
    ConsistentlySized (Grid4_blaze.ofNodesNumber n) n := by
  have hs := sqrt_of_square n h
  have e : Grid4_blaze.ofNodesNumber n =
      Grid4_blaze.construct (Nat.sqrt n) (Nat.sqrt n) (Graph_blaze.init n) := by
    unfold Grid4_blaze.ofNodesNumber
    simp only []
    rw [if_neg (not_not.2 hs)]
  rw [e]
  have := grid4_construct_sized (Nat.sqrt n) (Nat.sqrt n) (Graph_blaze.init n) hs.symm
    (by rw [hs]; exact h1)
  rw [hs] at this
  exact this

theorem grid6_sized (n : Nat) (h1 : 1 ≤ n) (h : ∃ k, k * k = n) :
    ConsistentlySized (Grid6_blaze.ofNodesNumber n) n := by
  have hs := sqrt_of_square n h
  have e : Grid6_blaze.ofNodesNumber n =
      Grid6_blaze.construct (Nat.sqrt n) (Nat.sqrt n) (Graph_blaze.init n) := by
    unfold Grid6_blaze.ofNodesNumber
    simp only []
    rw [if_neg (not_not.2 hs)]
  rw [e]
  have := grid6_construct_sized (Nat.sqrt n) (Nat.sqrt n) (Graph_blaze.init n) hs.symm
    (by rw [hs]; exact h1)
  rw [hs] at this
  exact this

theorem grid8_sized (n : Nat) (h1 : 1 ≤ n) (h : ∃ k, k * k = n) :
    ConsistentlySized (Grid8_blaze.ofNodesNumber n) n := by
  have hs := sqrt_of_square n h
  have e : Grid8_blaze.ofNodesNumber n =
      Grid8_blaze.construct (Nat.sqrt n) (Nat.sqrt n) (Graph_blaze.init n) := by
    unfold Grid8_blaze.ofNodesNumber
    simp only []
    rw [if_neg (not_not.2 hs)]
  rw [e]
  have := grid8_construct_sized (Nat.sqrt n) (Nat.sqrt n) (Graph_blaze.init n) hs.symm
    (by rw [hs]; exact h1)
  rw [hs] at this
  exact this

theorem margulis_sized (n : Nat) (h1 : 1 ≤ n) (h : ∃ k, k * k = n) :
    ConsistentlySized (Margulis_blaze.ofNodesNumber n) n := by
  have hs := sqrt_of_square n h
  generalize hsd : Nat.sqrt n = s at hs
  have hpos : 0 < s := by
    rcases Nat.eq_zero_or_pos s with e | e
    · rw [e] at hs; omega
    · exact e
  have hmod : ∀ x, x % s < s := fun x => Nat.mod_lt x hpos
  have key := buildEdges_sized defaultSymmetric (Margulis_blaze.edgesPairs s)
    (Graph_blaze.init n) n rfl h1
    (by
      rintro ⟨a, b⟩ hp
      rw [mem_margulis_edgesPairs] at hp
      obtain ⟨i, j, hi, hj, ea, hb⟩ := hp
      refine ⟨by rw [ea, ← hs]; exact flat_lt hi hj, ?_⟩
      unfold margulisImages at hb
      simp only [List.mem_cons, List.mem_singleton, List.not_mem_nil, or_false] at hb
      rw [← hs]
      rcases hb with e | e | e | e <;> rw [e]
      · exact flat_lt (hmod _) hj
      · exact flat_lt hi (hmod _)
      · exact flat_lt hi (hmod _)
      · exact flat_lt (hmod _) hj)
    (by
      have hmem : ((s - 1) * s + (s - 1), (s - 1) * s + (2 * (s - 1) + (s - 1)) % s) ∈
          Margulis_blaze.edgesPairs s := by
        rw [mem_margulis_edgesPairs]
        refine ⟨s - 1, s - 1, by omega, by omega, rfl, ?_⟩
        unfold margulisImages
        exact List.mem_cons_of_mem _ (List.mem_cons_self _ _)
      rw [← hs, last_cell s s hpos hpos]
      exact (le_maxIndex _ _ hmem).1)
  have e : Margulis_blaze.ofNodesNumber n =
      ⟨(Graph_blaze.buildEdges defaultSymmetric (Margulis_blaze.edgesPairs s)
          (Graph_blaze.init n)).nodesNumber, true,
        (Graph_blaze.buildEdges defaultSymmetric (Margulis_blaze.edgesPairs s)
          (Graph_blaze.init n)).m⟩ := by
    unfold Margulis_blaze.ofNodesNumber
    simp only []
    rw [hsd, if_neg (not_not.2 hs)]
  rw [e]
  exact ⟨rfl, key.1, key.2.1, key.2.2⟩

theorem paley_sized (n : Nat) (h1 : 1 ≤ n) (h : n % 4 = 1) :
    ConsistentlySized (Paley_blaze.ofNodesNumber n) n := by
  have key := buildEdges_sized defaultSymmetric (Paley_blaze.edgesPairs n)
    (Graph_blaze.init n) n rfl h1
    (by
      rintro ⟨a, b⟩ hp
      rw [mem_paley_edgesPairs] at hp
      obtain ⟨ha, k, _, eb⟩ := hp
      exact ⟨ha, by rw [eb]; exact Nat.mod_lt _ (by omega)⟩)
    (by
      by_cases h3 : 3 ≤ n
      · exact (le_maxIndex _ _ (paley_self_pair n (n - 1) h3 (by omega))).1
      · have : n = 1 := by omega
        rw [this]
        exact Nat.zero_le _)
  have e : Paley_blaze.ofNodesNumber n =
      ⟨(Graph_blaze.buildEdges defaultSymmetric (Paley_blaze.edgesPairs n)
          (Graph_blaze.init n)).nodesNumber, true,
        (Graph_blaze.buildEdges defaultSymmetric (Paley_blaze.edgesPairs n)
          (Graph_blaze.init n)).m⟩ := by
    unfold Paley_blaze.ofNodesNumber
    simp only []
    rw [if_neg (not_not.2 h)]
  rw [e]
  exact ⟨rfl, key.1, key.2.1, key.2.2⟩

theorem mem_lps_edgesPairs (n a b : Nat) (h : (a, b) ∈ LPS_blaze.edgesPairs n) :
    a < n ∧ (b = n - 1 ∨ b = 1 ∨ b = a - 1 ∨ b = (a + 1) % n ∨
      b = Graph_blaze.modularPow a (n - 2) n) := by
  unfold LPS_blaze.edgesPairs at h
  rw [List.mem_flatMap] at h
  obtain ⟨i, hi, hp⟩ := h
  rw [List.mem_range] at hi
  unfold LPS_blaze.nodePairs at hp
  by_cases h0 : i = 0
  · rw [if_pos h0] at hp
    simp only [List.mem_cons, List.mem_singleton, Prod.mk.injEq, List.not_mem_nil,
      or_false] at hp
    rcases hp with ⟨e1, e2⟩ | ⟨e1, e2⟩
    · exact ⟨by omega, Or.inl e2⟩
    · exact ⟨by omega, Or.inr (Or.inl e2)⟩
  · rw [if_neg h0] at hp
    simp only [List.mem_cons, List.mem_singleton, Prod.mk.injEq, List.not_mem_nil,
      or_false] at hp
    rcases hp with ⟨e1, e2⟩ | ⟨e1, e2⟩ | ⟨e1, e2⟩
    · exact ⟨by omega, Or.inr (Or.inr (Or.inl (by rw [e1, e2])))⟩
    · exact ⟨by omega, Or.inr (Or.inr (Or.inr (Or.inl (by rw [e1, e2]))))⟩
    · exact ⟨by omega, Or.inr (Or.inr (Or.inr (Or.inr (by rw [e1, e2]))))⟩

theorem lps_sized (witness : Nat → Nat) (n : Nat) (g : Graph_blaze)
    (h : LPS_blaze.ofNodesNumber witness n = some g) (hv : g.isValid = true) :
    ConsistentlySized g n := by
  unfold LPS_blaze.ofNodesNumber at h
  simp only [] at h
  cases hm : LPS_blaze.millerRabin witness n with
  | none => rw [hm] at h; exact absurd h (by simp)
  | some b =>
    cases b with
    | false =>
      rw [hm] at h
      simp only [Option.some.injEq] at h
      rw [← h] at hv
      exact absurd hv (by simp [Graph_blaze.init, Graph_blaze.isValid])
    | true =>
      rw [hm] at h
      simp only [Option.some.injEq] at h
      have h2 : 2 ≤ n := by
        rcases Nat.lt_or_ge n 2 with hlt | hge
        · exfalso
          have h01 : n = 0 ∨ n = 1 := by omega
          rcases h01 with e | e
          · rw [e] at hm
            have : LPS_blaze.millerRabin witness 0 = none := rfl
            rw [this] at hm
            exact absurd hm (by simp)
          · rw [e] at hm
            have : LPS_blaze.millerRabin witness 1 = none := rfl
            rw [this] at hm
            exact absurd hm (by simp)
        · exact hge
      have key := buildEdges_sized defaultSymmetric (LPS_blaze.edgesPairs n)
        (Graph_blaze.init n) n rfl (by omega)
        (by
          rintro ⟨a, b⟩ hp
          obtain ⟨ha, hb⟩ := mem_lps_edgesPairs n a b hp
          refine ⟨ha, ?_⟩
          show b < n
          rcases hb with e | e | e | e | e
          · omega
          · omega
          · omega
          · rw [e]; exact Nat.mod_lt _ (by omega)
          · rw [e]; exact modularPow_lt _ _ _ h2)
        (by
          have hmem : (0, n - 1) ∈ LPS_blaze.edgesPairs n := by
            unfold LPS_blaze.edgesPairs
            rw [List.mem_flatMap]
            exact ⟨0, List.mem_range.2 (by omega), List.mem_cons_self _ _⟩
          exact (le_maxIndex _ _ hmem).2)
      rw [← h]
      exact ⟨rfl, key.1, key.2.1, key.2.2⟩

theorem cellLoop_zero (width height : Nat) (body : Nat → Nat → List (Nat × Nat))
    (h : width * height = 0) : cellLoop width height body = [] := by
  unfold cellLoop
  rcases Nat.mul_eq_zero.1 h with e | e
  · subst e
    simp
  · subst e
    simp

theorem levels_of_empty_rows (row : Nat → List Nat) (hrow : ∀ el, row el = []) :
    ∀ (r : Nat) (parents : List Nat) (nodes : List Bool),
      levels row r parents nodes = List.replicate r [] := by
  intro r
  induction r with
  | zero => intro parents nodes; rfl
  | succ r ih =>
    intro parents nodes
    have e : parents.flatMap row = [] := by
      rw [List.flatMap_eq_nil_iff]
      intro x _
      exact hrow x
    unfold levels
    rw [e, ih, List.replicate_succ]
    rfl

/-- What `buildEdges` leaves from an empty edge list on a graph of no node, once the flag is
set: a single node. -/
theorem isSingleNode_of_empty (g : Graph_blaze) (hv : g.isValid = true)
    (hn : g.getNodesNumber = 1) (hr : g.m.rows = 1) (hc : g.m.columns = 1)
    (hget : ∀ i j, g.m.get i j = false) : IsSingleNode g := by
  refine ⟨hv, hn, hr, hc, hget, ?_⟩
  intro maxDepth
  have hrow : ∀ el, g.m.sparseRow el = [] := by
    intro el
    unfold MatrixType.sparseRow
    rw [List.filter_eq_nil_iff]
    intro a _
    rw [hget el a]
    simp
  have he : explored g.m 0 maxDepth = [0] :: List.replicate maxDepth [] := by
    unfold explored
    rw [if_neg (by rw [hc]; omega), levels_of_empty_rows _ hrow]
  rw [getNeighborsNew_sparse_eq, getNeighborsNew_dense_eq]
  exact ⟨he, he⟩

theorem grid4_zero (width height : Nat) (g : Graph_blaze) (h : width * height = 0)
    (hg : g.nodesNumber = width * height) :
    IsSingleNode (Grid4_blaze.construct width height g) := by
  have e : Grid4_blaze.edgesPairs width height = [] := cellLoop_zero width height _ h
  unfold Grid4_blaze.construct
  simp only []
  rw [e]
  refine isSingleNode_of_empty _ rfl ?_ rfl rfl (fun _ _ => rfl)
  show (if 0 + 1 > g.nodesNumber then 0 + 1 else g.nodesNumber) = 1
  rw [hg, h]
  rfl

theorem grid6_zero (width height : Nat) (g : Graph_blaze) (h : width * height = 0)
    (hg : g.nodesNumber = width * height) :
    IsSingleNode (Grid6_blaze.construct width height g) := by
  have e : Grid6_blaze.edgesPairs width height = [] := cellLoop_zero width height _ h
  unfold Grid6_blaze.construct
  simp only []
  rw [e]
  refine isSingleNode_of_empty _ rfl ?_ rfl rfl (fun _ _ => rfl)
  show (if 0 + 1 > g.nodesNumber then 0 + 1 else g.nodesNumber) = 1
  rw [hg, h]
  rfl

theorem grid8_zero (width height : Nat) (g : Graph_blaze) (h : width * height = 0)
    (hg : g.nodesNumber = width * height) :
    IsSingleNode (Grid8_blaze.construct width height g) := by
  have e : Grid8_blaze.edgesPairs width height = [] := cellLoop_zero width height _ h
  unfold Grid8_blaze.construct
  simp only []
  rw [e]
  refine isSingleNode_of_empty _ rfl ?_ rfl rfl (fun _ _ => rfl)
  show (if 0 + 1 > g.nodesNumber then 0 + 1 else g.nodesNumber) = 1
  rw [hg, h]
  rfl

theorem buildEdges_nil_init_zero :
    Graph_blaze.maxIndex [] + 1 = 1 ∧
    (Graph_blaze.buildEdges defaultSymmetric [] (Graph_blaze.init 0)).nodesNumber = 1 ∧
    (Graph_blaze.buildEdges defaultSymmetric [] (Graph_blaze.init 0)).m.rows = 1 ∧
    (Graph_blaze.buildEdges defaultSymmetric [] (Graph_blaze.init 0)).m.columns = 1 :=
  ⟨rfl, rfl, rfl, rfl⟩

/-- C31. Zero-size edge case: on an empty edge-pair list `buildEdges` computes
`max = 0 + 1 = 1`, so `Grid4_blaze(0)`, `Grid6_blaze(0)`, `Grid8_blaze(0)`, `Margulis_blaze(0)`
and every grid built with `width * height == 0` end valid with one node, a `1 × 1` container
with no entry set, and `getNeighborsNew(0, maxDepth)` returns `[0]` in bucket 0 and empty
buckets after it. -/
theorem zero_size_edge_case :
    (Graph_blaze.maxIndex [] + 1 = 1 ∧
      (Graph_blaze.buildEdges defaultSymmetric [] (Graph_blaze.init 0)).nodesNumber = 1 ∧
      (Graph_blaze.buildEdges defaultSymmetric [] (Graph_blaze.init 0)).m.rows = 1 ∧
      (Graph_blaze.buildEdges defaultSymmetric [] (Graph_blaze.init 0)).m.columns = 1) ∧
    IsSingleNode (Grid4_blaze.ofNodesNumber 0) ∧
    IsSingleNode (Grid6_blaze.ofNodesNumber 0) ∧
    IsSingleNode (Grid8_blaze.ofNodesNumber 0) ∧
    IsSingleNode (Margulis_blaze.ofNodesNumber 0) ∧
    (∀ width height, width * height = 0 →
      IsSingleNode (Grid4_blaze.ofSize width height) ∧
      IsSingleNode (Grid6_blaze.ofSize width height) ∧
      IsSingleNode (Grid8_blaze.ofSize width height)) :=
  ⟨buildEdges_nil_init_zero,
    grid4_zero 0 0 (Graph_blaze.init 0) rfl rfl,
    grid6_zero 0 0 (Graph_blaze.init 0) rfl rfl,
    grid8_zero 0 0 (Graph_blaze.init 0) rfl rfl,
    isSingleNode_of_empty _ rfl rfl rfl rfl (fun _ _ => rfl),
    fun width height h =>
      ⟨grid4_zero width height _ h rfl, grid6_zero width height _ h rfl,
        grid8_zero width height _ h rfl⟩⟩

/-- Witness of C31: the grids of width 0 and height 5. -/
theorem zero_size_edge_case_witness :
    0 * 5 = 0 ∧
    IsSingleNode (Grid4_blaze.ofSize 0 5) ∧
    IsSingleNode (Grid6_blaze.ofSize 0 5) ∧
    IsSingleNode (Grid8_blaze.ofSize 0 5) :=
  ⟨rfl, zero_size_edge_case.2.2.2.2.2 0 5 rfl⟩

/-! ## Where the square of a round passes `2 ^ 64` -/

/-- Repeated exact squaring modulo `n`. -/
theorem sq_iterate (n : Nat) : ∀ (r p : Nat),
    p ^ 2 ^ r % n = (fun y => y * y % n)^[r] (p % n) := by
  intro r
  induction r with
  | zero => intro p; simp
  | succ r ih =>
    intro p
    rw [pow_two_pow_succ_mod, ih, Function.iterate_succ_apply, Nat.mod_mod, ← Nat.mul_mod]

theorem pow_mul_two_pow_mod (n a d r : Nat) :
    a ^ (2 ^ r * d) % n = (fun y => y * y % n)^[r] (a ^ d % n) := by
  rw [Nat.mul_comm, Nat.pow_mul, sq_iterate]

theorem prime_factor_of_large_prime_pred (q : Nat) (hq : q.Prime)
    (hd : q ∣ 77309411329 - 1) : q = 2 ∨ q = 3 := by
  have e : 77309411329 - 1 = 2 ^ 33 * 3 ^ 2 := by norm_num
  rw [e] at hd
  rcases (Nat.Prime.dvd_mul hq).1 hd with h | h
  · left
    exact (Nat.prime_dvd_prime_iff_eq hq Nat.prime_two).1 (hq.dvd_of_dvd_pow h)
  · right
    exact (Nat.prime_dvd_prime_iff_eq hq Nat.prime_three).1 (hq.dvd_of_dvd_pow h)

set_option maxRecDepth 100000 in
/-- The number `9 * 2 ^ 33 + 1` is prime: 7 has order `9 * 2 ^ 33` modulo it. -/
theorem large_prime : Nat.Prime 77309411329 := by
  have h2 : 2 ≤ 77309411329 := by norm_num
  apply lucas_primality 77309411329 ((7 : Nat) : ZMod 77309411329)
  · rw [← Nat.cast_pow, ← mod_eq_one_iff _ _ h2]
    have e : 77309411329 - 1 = 2 ^ 33 * 9 := by norm_num
    rw [e, pow_mul_two_pow_mod]
    decide
  · intro q hq hd
    rw [← Nat.cast_pow, Ne, ← mod_eq_one_iff _ _ h2]
    rcases prime_factor_of_large_prime_pred q hq hd with rfl | rfl
    · have e : (77309411329 - 1) / 2 = 2 ^ 32 * 9 := by norm_num
      rw [e, pow_mul_two_pow_mod]
      decide
    · have e : (77309411329 - 1) / 3 = 2 ^ 33 * 3 := by norm_num
      rw [e, pow_mul_two_pow_mod]
      decide

set_option maxRecDepth 100000 in
theorem large_prime_round_fails :
    LPS_blaze.halveLoop 77309411329 (77309411329 - 1) 0 = some (9, 33) ∧
    LPS_blaze.miller_rabin_pass 2 33 9 77309411329 = false ∧
    LPS_blaze.millerRabin (fun _ => 2) 77309411329 = some false := by
  decide

set_option maxRecDepth 100000 in
theorem large_prime_exact_square : 2 ^ (2 ^ 28 * 9) % 77309411329 = 77309411329 - 1 := by
  rw [pow_mul_two_pow_mod]
  decide

/-- C16. A prime that `LPS_blaze` rejects: `n = 9 * 2 ^ 33 + 1 = 77309411329` is prime and 2 is
a witness from `1..n-1`, yet with the witness 2 in each round `millerRabin(n)` returns `false`
and `LPS_blaze(n)` ends invalid, with no edge built: `n - 1 = 9 * 2 ^ 33`, the round starts
from `p = 2 ^ 9`, reaches `p = 2 ^ 36` after two squarings, and the third square
`2 ^ 36 * 2 ^ 36 = 2 ^ 72` is 0 modulo `2 ^ 64`, so `p` is 0 from there on. -/
theorem lps_rejects_large_prime :
    Nat.Prime 77309411329 ∧ (0 < 2 ∧ 2 < 77309411329) ∧
    LPS_blaze.millerRabin (fun _ => 2) 77309411329 = some false ∧
    LPS_blaze.ofNodesNumber (fun _ => 2) 77309411329 =
      some (Graph_blaze.init 77309411329) ∧
    (Graph_blaze.init 77309411329).isValid = false :=
  ⟨large_prime, ⟨by decide, by decide⟩, large_prime_round_fails.2.2,
    lps_test_failed (fun _ => 2) 77309411329 large_prime_round_fails.2.2, rfl⟩

/-! ## Reference statements for `modularPow` and the Miller-Rabin round -/

theorem legacy_modularPowLoop_eq (base modulus : Nat) : ∀ (exponent c : Nat),
    Graph.modularPowLoop base modulus exponent c =
      Graph_blaze.modularPowLoop base modulus exponent c := by
  intro exponent
  induction exponent with
  | zero => intro c; rfl
  | succ e ih =>
    intro c
    unfold Graph.modularPowLoop Graph_blaze.modularPowLoop
    exact ih _

theorem legacy_modularPow_eq (base exponent modulus : Nat) :
    Graph.modularPow base exponent modulus = Graph_blaze.modularPow base exponent modulus := by
  unfold Graph.modularPow Graph_blaze.modularPow
  rw [legacy_modularPowLoop_eq]

/-- C37. `modularPow` reference: for every base, every exponent and every modulus at least 2,
the arithmetic being exact (no product `c * base` of the loop overflows, that is
`(modulus - 1) * base < 2 ^ 64`), `modularPow(base, exponent, modulus)` is
`base ^ exponent mod modulus`, and for the modulus 1 it returns 1 whatever the base and the
exponent; for `Graph_blaze::modularPow` and for `Graph::modularPow`. -/
theorem modularPow_reference (base exponent modulus : Nat) :
    (2 ≤ modulus → (modulus - 1) * base < 2 ^ 64 →
      Graph_blaze.modularPow base exponent modulus = base ^ exponent % modulus ∧
      Graph.modularPow base exponent modulus = base ^ exponent % modulus) ∧
    (Graph_blaze.modularPow base exponent 1 = 1 ∧ Graph.modularPow base exponent 1 = 1) := by
  refine ⟨fun h hov => ⟨modularPow_eq base exponent modulus h hov, ?_⟩, rfl, rfl⟩
  rw [legacy_modularPow_eq, modularPow_eq base exponent modulus h hov]

/-- Witness of C37: `modularPow(3, 5, 7)` is `243 mod 7 = 5`. -/
theorem modularPow_reference_witness :
    (2 ≤ 7 ∧ (7 - 1) * 3 < 2 ^ 64) ∧
    Graph_blaze.modularPow 3 5 7 = 3 ^ 5 % 7 ∧ Graph.modularPow 3 5 7 = 3 ^ 5 % 7 :=
  ⟨⟨by decide, by norm_num⟩, (modularPow_reference 3 5 7).1 (by decide) (by norm_num)⟩

/-- For an odd `n >= 3` up to `2 ^ 32`, written as `n - 1 == 2^s * d` with `s >= 1`, the round
agrees with its reference: it returns true exactly when `a^d mod n == 1` or
`a^(2^r * d) mod n == n - 1` for some `r < s`. -/
theorem miller_rabin_pass_reference (a s d n : Nat) (hn : 2 ≤ n) (hn32 : n ≤ 2 ^ 32)
    (hs : 1 ≤ s) (hd : n - 1 = 2 ^ s * d) (hd1 : 1 ≤ d) :
    LPS_blaze.miller_rabin_pass a s d n = true ↔
      a ^ d % n = 1 ∨ ∃ r, r < s ∧ a ^ (2 ^ r * d) % n = n - 1 := by
  have hs2 : s < 2 ^ 64 := by
    have h1 : 2 ^ s ≤ n - 1 := by
      rw [hd]
      exact Nat.le_mul_of_pos_right _ hd1
    have h2 : s < 2 ^ s := Nat.lt_two_pow s
    omega
  rw [miller_rabin_pass_iff a s d n hn hn32, wrapped_bound s hs hs2]
  constructor
  · rintro (h | ⟨r, hr, h⟩)
    · exact Or.inl h
    · exact Or.inr ⟨r, by omega, by rw [Nat.mul_comm]; exact h⟩
  · rintro (h | ⟨r, hr, h⟩)
    · exact Or.inl h
    · exact Or.inr ⟨r, by omega, by rw [Nat.mul_comm]; exact h⟩

/-- C38. Where the round departs from its reference: `n = 77309411329` is odd,
`n - 1 = 2^33 * 9` with 9 odd, and 2 is a witness with `0 < 2 < n`; `2^(2^28 * 9) mod n` is
`n - 1`, with `28 < 33`, yet `miller_rabin_pass(2, 33, 9, n)` returns false: the loop starts
from `p = 2 ^ 9`, reaches `p = 2 ^ 36` after two squarings, and the next square
`p * p = 2 ^ 72` is 0 modulo `2 ^ 64`, so `p` is 0 from there on. -/
theorem miller_rabin_pass_square_wraps :
    (3 ≤ 77309411329 ∧ 77309411329 % 2 = 1 ∧ 77309411329 - 1 = 2 ^ 33 * 9 ∧ 9 % 2 = 1 ∧
      1 ≤ 33 ∧ 0 < 2 ∧ 2 < 77309411329) ∧
    LPS_blaze.miller_rabin_pass 2 33 9 77309411329 = false ∧
    (∃ r, 0 ≤ r ∧ r < 33 ∧ 2 ^ (2 ^ r * 9) % 77309411329 = 77309411329 - 1) ∧
    (2 ^ (2 ^ 2 * 9) % 77309411329 = 2 ^ 36 ∧ (2 ^ 36 * 2 ^ 36) % 2 ^ 64 = 0) :=
  ⟨⟨by decide, by decide, by norm_num, by decide, by decide, by decide, by decide⟩,
    large_prime_round_fails.2.1, ⟨28, by decide, by decide, large_prime_exact_square⟩,
    by norm_num, by norm_num⟩

/-! ## The adjacency of the LPS graph -/

theorem lps_valid_matrix (witness : Nat → Nat) (n : Nat) (g : Graph_blaze)
    (h : LPS_blaze.ofNodesNumber witness n = some g) (hv : g.isValid = true) :
    g.m = (Graph_blaze.buildEdges true (LPS_blaze.edgesPairs n) (Graph_blaze.init n)).m := by
  unfold LPS_blaze.ofNodesNumber at h
  simp only [] at h
  cases hm : LPS_blaze.millerRabin witness n with
  | none => rw [hm] at h; exact absurd h (by simp)
  | some b =>
    cases b with
    | false =>
      rw [hm] at h
      simp only [Option.some.injEq] at h
      rw [← h] at hv
      exact absurd hv (by simp [Graph_blaze.init, Graph_blaze.isValid])
    | true =>
      rw [hm] at h
      simp only [Option.some.injEq] at h
      rw [← h]
      rfl

theorem mem_lps_edgesPairs_iff (n a b : Nat) :
    (a, b) ∈ LPS_blaze.edgesPairs n ↔
      a < n ∧ ((a = 0 ∧ (b = n - 1 ∨ b = 1)) ∨
        (a ≠ 0 ∧ (b = a - 1 ∨ b = (a + 1) % n ∨ b = Graph_blaze.modularPow a (n - 2) n))) := by
  unfold LPS_blaze.edgesPairs
  rw [List.mem_flatMap]
  constructor
  · rintro ⟨i, hi, hp⟩
    rw [List.mem_range] at hi
    unfold LPS_blaze.nodePairs at hp
    by_cases h0 : i = 0
    · rw [if_pos h0] at hp
      simp only [List.mem_cons, List.mem_singleton, Prod.mk.injEq, List.not_mem_nil,
        or_false] at hp
      rcases hp with ⟨e1, e2⟩ | ⟨e1, e2⟩
      · exact ⟨by omega, Or.inl ⟨e1, Or.inl e2⟩⟩
      · exact ⟨by omega, Or.inl ⟨e1, Or.inr e2⟩⟩
    · rw [if_neg h0] at hp
      simp only [List.mem_cons, List.mem_singleton, Prod.mk.injEq, List.not_mem_nil,
        or_false] at hp
      rcases hp with ⟨e1, e2⟩ | ⟨e1, e2⟩ | ⟨e1, e2⟩
      · exact ⟨by omega, Or.inr ⟨by omega, Or.inl (by rw [e1, e2])⟩⟩
      · exact ⟨by omega, Or.inr ⟨by omega, Or.inr (Or.inl (by rw [e1, e2]))⟩⟩
      · exact ⟨by omega, Or.inr ⟨by omega, Or.inr (Or.inr (by rw [e1, e2]))⟩⟩
  · rintro ⟨ha, h⟩
    refine ⟨a, List.mem_range.2 ha, ?_⟩
    unfold LPS_blaze.nodePairs
    rcases h with ⟨h0, hb⟩ | ⟨h0, hb⟩
    · rw [if_pos h0]
      simp only [List.mem_cons, List.mem_singleton, Prod.mk.injEq, List.not_mem_nil, or_false]
      rcases hb with e | e
      · exact Or.inl ⟨h0, e⟩
      · exact Or.inr ⟨h0, e⟩
    · rw [if_neg h0]
      simp only [List.mem_cons, List.mem_singleton, Prod.mk.injEq, List.not_mem_nil, or_false,
        true_and]
      exact hb

/-- For a prime `n` up to `2 ^ 32`, `modularPow(a, n-2, n)` is the one `b < n` with
`a * b mod n == 1`. -/
theorem modularPow_eq_iff_inverse (n a b : Nat) (hp : n.Prime) (hn32 : n ≤ 2 ^ 32)
    (ha0 : a ≠ 0) (ha : a < n) (hb : b < n) :
    b = Graph_blaze.modularPow a (n - 2) n ↔ a * b % n = 1 := by
  have h2 : 2 ≤ n := hp.two_le
  have hov : (n - 1) * a < 2 ^ 64 := by
    have h1 : n - 1 < 2 ^ 32 := by omega
    have h3 : a < 2 ^ 32 := by omega
    have h4 : (n - 1) * a < 2 ^ 32 * 2 ^ 32 := Nat.mul_lt_mul'' h1 h3
    have e : (2 : Nat) ^ 32 * 2 ^ 32 = 2 ^ 64 := by norm_num
    rw [e] at h4
    exact h4
  have hinv : a * (a ^ (n - 2) % n) % n = 1 := by
    rw [Nat.mul_mod_mod, ← Nat.pow_succ']
    have e : (n - 2).succ = n - 1 := by omega
    rw [e]
    exact fermat_mod n a hp (by omega) ha
  rw [modularPow_eq a (n - 2) n h2 hov]
  constructor
  · intro e
    rw [e]
    exact hinv
  · intro h
    have hc : a ^ (n - 2) % n < n := Nat.mod_lt _ (by omega)
    have e1 : b * (a * (a ^ (n - 2) % n)) % n = b := by
      rw [Nat.mul_mod, hinv, Nat.mul_one, Nat.mod_mod, Nat.mod_eq_of_lt hb]
    have e2 : b * (a * (a ^ (n - 2) % n)) % n = a ^ (n - 2) % n := by
      rw [← Nat.mul_assoc, Nat.mul_comm b a, Nat.mul_mod, h, Nat.one_mul, Nat.mod_mod,
        Nat.mod_mod]
    rw [← e1, e2]

theorem succ_mod_cases (n a : Nat) (ha : a < n) :
    (a + 1 = n ∧ (a + 1) % n = 0) ∨ (a + 1 < n ∧ (a + 1) % n = a + 1) := by
  rcases Nat.lt_or_ge (a + 1) n with h | h
  · exact Or.inr ⟨h, Nat.mod_eq_of_lt h⟩
  · have e : a + 1 = n := by omega
    exact Or.inl ⟨e, by rw [e, Nat.mod_self]⟩

/-- A pair of the LPS edge list joins cyclic neighbours or inverses. -/
theorem lps_pair_rel (n a b : Nat) (hp : n.Prime) (hn32 : n ≤ 2 ^ 32) (hb : b < n)
    (h : (a, b) ∈ LPS_blaze.edgesPairs n) :
    b = (a + 1) % n ∨ a = (b + 1) % n ∨ a * b % n = 1 := by
  have h2 : 2 ≤ n := hp.two_le
  rw [mem_lps_edgesPairs_iff] at h
  obtain ⟨ha, h⟩ := h
  rcases h with ⟨h0, e | e⟩ | ⟨h0, e | e | e⟩
  · right; left
    rcases succ_mod_cases n b hb with ⟨_, e2⟩ | ⟨_, e2⟩ <;> omega
  · left
    rcases succ_mod_cases n a ha with ⟨_, e2⟩ | ⟨_, e2⟩ <;> omega
  · right; left
    rcases succ_mod_cases n b hb with ⟨_, e2⟩ | ⟨_, e2⟩ <;> omega
  · left; exact e
  · right; right
    exact (modularPow_eq_iff_inverse n a b hp hn32 h0 ha hb).1 e

/-- Cyclic successors and inverses are paired by the LPS edge list. -/
theorem lps_rel_pair (n a b : Nat) (hp : n.Prime) (hn32 : n ≤ 2 ^ 32) (ha : a < n)
    (hb : b < n) (h : b = (a + 1) % n ∨ a * b % n = 1) :
    (a, b) ∈ LPS_blaze.edgesPairs n := by
  have h2 : 2 ≤ n := hp.two_le
  rw [mem_lps_edgesPairs_iff]
  refine ⟨ha, ?_⟩
  rcases h with e | e
  · by_cases h0 : a = 0
    · left
      refine ⟨h0, Or.inr ?_⟩
      rw [e, h0, Nat.zero_add, Nat.mod_eq_of_lt (by omega)]
    · right
      exact ⟨h0, Or.inr (Or.inl e)⟩
  · have h0 : a ≠ 0 := by
      rintro rfl
      rw [Nat.zero_mul, Nat.zero_mod] at e
      omega
    right
    exact ⟨h0, Or.inr (Or.inr ((modularPow_eq_iff_inverse n a b hp hn32 h0 ha hb).2 e))⟩

theorem lps_get_iff (witness : Nat → Nat) (n : Nat) (g : Graph_blaze) (hp : n.Prime)
    (hn32 : n ≤ 2 ^ 32) (hg : LPS_blaze.ofNodesNumber witness n = some g)
    (hv : g.isValid = true) (a b : Nat) (ha : a < n) (hb : b < n) (hne : a ≠ b) :
    g.m.get a b = true ↔ b = (a + 1) % n ∨ a = (b + 1) % n ∨ a * b % n = 1 := by
  rw [lps_valid_matrix witness n g hg hv, buildEdges_symmetric_get]
  constructor
  · rintro ⟨_, h | h⟩
    · exact lps_pair_rel n a b hp hn32 hb h
    · rcases lps_pair_rel n b a hp hn32 ha h with e | e | e
      · exact Or.inr (Or.inl e)
      · exact Or.inl e
      · exact Or.inr (Or.inr (by rw [Nat.mul_comm]; exact e))
  · rintro (e | e | e)
    · exact ⟨hne, Or.inl (lps_rel_pair n a b hp hn32 ha hb (Or.inl e))⟩
    · exact ⟨hne, Or.inr (lps_rel_pair n b a hp hn32 hb ha (Or.inl e))⟩
    · exact ⟨hne, Or.inl (lps_rel_pair n a b hp hn32 ha hb (Or.inr e))⟩

theorem pred_mod_cases (n a : Nat) (ha : a < n) :
    (a = 0 ∧ (a + (n - 1)) % n = n - 1) ∨ (0 < a ∧ (a + (n - 1)) % n = a - 1) := by
  rcases Nat.eq_zero_or_pos a with h | h
  · left
    refine ⟨h, ?_⟩
    rw [h, Nat.zero_add]
    exact Nat.mod_eq_of_lt (by omega)
  · right
    refine ⟨h, ?_⟩
    have e : a + (n - 1) = (a - 1) + n := by omega
    rw [e, Nat.add_mod_right]
    exact Nat.mod_eq_of_lt (by omega)

/-- Every neighbour of `a` in the LPS graph is its cyclic successor, its cyclic predecessor or
its inverse. -/
theorem lps_neighbour_mem (n a v : Nat) (hp : n.Prime) (hn32 : n ≤ 2 ^ 32)
    (h : (a, v) ∈ LPS_blaze.edgesPairs n ∨ (v, a) ∈ LPS_blaze.edgesPairs n) :
    v ∈ [(a + 1) % n, (a + (n - 1)) % n, Graph_blaze.modularPow a (n - 2) n] := by
  have h2 : 2 ≤ n := hp.two_le
  simp only [List.mem_cons, List.mem_singleton, List.not_mem_nil, or_false]
  rcases h with h | h
  · rw [mem_lps_edgesPairs_iff] at h
    obtain ⟨ha, h⟩ := h
    rcases h with ⟨h0, e | e⟩ | ⟨h0, e | e | e⟩
    · right; left
      rcases pred_mod_cases n a ha with ⟨_, e2⟩ | ⟨_, e2⟩ <;> omega
    · left
      rcases succ_mod_cases n a ha with ⟨_, e2⟩ | ⟨_, e2⟩ <;> omega
    · right; left
      rcases pred_mod_cases n a ha with ⟨_, e2⟩ | ⟨_, e2⟩ <;> omega
    · left; exact e
    · right; right; exact e
  · rw [mem_lps_edgesPairs_iff] at h
    obtain ⟨hv, h⟩ := h
    rcases h with ⟨h0, e | e⟩ | ⟨h0, e | e | e⟩
    · left
      have ha : a < n := by omega
      rcases succ_mod_cases n a ha with ⟨_, e2⟩ | ⟨_, e2⟩ <;> omega
    · right; left
      have ha : a < n := by omega
      rcases pred_mod_cases n a ha with ⟨_, e2⟩ | ⟨_, e2⟩ <;> omega
    · left
      have ha : a < n := by omega
      rcases succ_mod_cases n a ha with ⟨_, e2⟩ | ⟨_, e2⟩ <;> omega
    · right; left
      have ha : a < n := by rw [e]; exact Nat.mod_lt _ (by omega)
      rcases succ_mod_cases n v hv with ⟨_, e2⟩ | ⟨_, e2⟩ <;>
        rcases pred_mod_cases n a ha with ⟨_, e3⟩ | ⟨_, e3⟩ <;> omega
    · right; right
      have ha : a < n := by rw [e]; exact modularPow_lt _ _ _ h2
      have h1 : v * a % n = 1 := (modularPow_eq_iff_inverse n v a hp hn32 h0 hv ha).1 e
      have ha0 : a ≠ 0 := by
        rintro rfl
        rw [Nat.mul_zero, Nat.zero_mod] at h1
        omega
      exact (modularPow_eq_iff_inverse n a v hp hn32 ha0 ha hv).2
        (by rw [Nat.mul_comm]; exact h1)

theorem lps_degree_le (witness : Nat → Nat) (n : Nat) (g : Graph_blaze) (hp : n.Prime)
    (hn32 : n ≤ 2 ^ 32) (hg : LPS_blaze.ofNodesNumber witness n = some g)
    (hv : g.isValid = true) (a : Nat) : (g.m.sparseRow a).length ≤ 3 := by
  have hsub : g.m.sparseRow a ⊆
      [(a + 1) % n, (a + (n - 1)) % n, Graph_blaze.modularPow a (n - 2) n] := by
    intro v hmem
    have hget := ((mem_sparseRow g.m a v).1 hmem).2
    rw [lps_valid_matrix witness n g hg hv, buildEdges_symmetric_get] at hget
    exact lps_neighbour_mem n a v hp hn32 hget.2
  exact (List.subperm_of_subset (sparseRow_sorted g.m a).nodup hsub).length_le

theorem lps_node_zero (witness : Nat → Nat) (n : Nat) (g : Graph_blaze) (hp : n.Prime)
    (h3 : 3 ≤ n) (hn32 : n ≤ 2 ^ 32) (hg : LPS_blaze.ofNodesNumber witness n = some g)
    (hv : g.isValid = true) (b : Nat) : g.m.get 0 b = true ↔ b = 1 ∨ b = n - 1 := by
  rw [lps_valid_matrix witness n g hg hv, buildEdges_symmetric_get]
  constructor
  · rintro ⟨hne, h | h⟩
    · rw [mem_lps_edgesPairs_iff] at h
      obtain ⟨_, ⟨_, e | e⟩ | ⟨h0, _⟩⟩ := h
      · exact Or.inr e
      · exact Or.inl e
      · exact absurd rfl h0
    · rw [mem_lps_edgesPairs_iff] at h
      obtain ⟨hb, ⟨h0, _⟩ | ⟨h0, e | e | e⟩⟩ := h
      · exact absurd h0.symm hne
      · left; omega
      · right
        rcases succ_mod_cases n b hb with ⟨_, e2⟩ | ⟨_, e2⟩ <;> omega
      · exfalso
        have h1 := (modularPow_eq_iff_inverse n b 0 hp hn32 h0 hb (by omega)).1 e
        rw [Nat.mul_zero, Nat.zero_mod] at h1
        omega
  · rintro (e | e)
    · refine ⟨by omega, Or.inl ?_⟩
      rw [mem_lps_edgesPairs_iff]
      exact ⟨by omega, Or.inl ⟨rfl, Or.inr e⟩⟩
    · refine ⟨by omega, Or.inl ?_⟩
      rw [mem_lps_edgesPairs_iff]
      exact ⟨by omega, Or.inl ⟨rfl, Or.inl e⟩⟩

/-- C34. LPS adjacency: for every prime `n >= 3` (up to `2 ^ 32`, the range in which no
product of `modularPow(i, n - 2, n)` passes `2 ^ 64`) and the graph `LPS_blaze(n)` builds once
the primality test has accepted `n`, all distinct `a`, `b` below `n` have
`adjacency[a][b]` true if and only if `b == (a+1) mod n` or `a == (b+1) mod n` or
`(a*b) mod n == 1`; node 0 has exactly the neighbours 1 and `n-1`, and every node has at most 3
neighbours. -/
theorem lps_adjacency (witness : Nat → Nat) (n : Nat) (g : Graph_blaze) (hp : n.Prime)
    (h3 : 3 ≤ n) (hn32 : n ≤ 2 ^ 32) (hg : LPS_blaze.ofNodesNumber witness n = some g)
    (hv : g.isValid = true) :
    (∀ a b, a < n → b < n → a ≠ b →
      (g.m.get a b = true ↔ b = (a + 1) % n ∨ a = (b + 1) % n ∨ a * b % n = 1)) ∧
    (∀ b, g.m.get 0 b = true ↔ b = 1 ∨ b = n - 1) ∧
    g.m.sparseRow 0 = [1, n - 1] ∧
    (∀ a, (g.m.sparseRow a).length ≤ 3) := by
  refine ⟨fun a b ha hb hne => lps_get_iff witness n g hp hn32 hg hv a b ha hb hne,
    lps_node_zero witness n g hp h3 hn32 hg hv, ?_,
    lps_degree_le witness n g hp hn32 hg hv⟩
  apply List.eq_of_perm_of_sorted _ (sparseRow_sorted g.m 0)
  · simp only [List.sorted_cons, List.mem_singleton, forall_eq, List.mem_cons,
      List.not_mem_nil, or_false, IsEmpty.forall_iff, implies_true, List.sorted_nil, and_true,
      List.sorted_singleton]
    omega
  · rw [List.perm_ext_iff_of_nodup (sparseRow_sorted g.m 0).nodup]
    · intro b
      rw [mem_sparseRow]
      unfold Adj
      rw [lps_node_zero witness n g hp h3 hn32 hg hv b,
        (lps_sized witness n g hg hv).2.2.2]
      simp only [List.mem_cons, List.mem_singleton, List.not_mem_nil, or_false]
      constructor
      · rintro ⟨_, h⟩; exact h
      · intro h; exact ⟨by omega, h⟩
    · simp only [List.nodup_cons, List.mem_singleton, List.not_mem_nil, not_false_eq_true,
        List.nodup_nil, and_true]
      omega

/-- Witness of C34: `LPS_blaze(7)` with the witness 2 in every round; its nodes 2 and 4 are
inverses of each other. -/
theorem lps_adjacency_witness :
    (Nat.Prime 7 ∧ 3 ≤ 7 ∧ 7 ≤ 2 ^ 32) ∧
    ∃ g, LPS_blaze.ofNodesNumber (fun _ => 2) 7 = some g ∧ g.isValid = true ∧
      (g.m.get 2 4 = true ↔ 4 = (2 + 1) % 7 ∨ 2 = (4 + 1) % 7 ∨ 2 * 4 % 7 = 1) ∧
      g.m.sparseRow 0 = [1, 7 - 1] :=
  ⟨⟨by norm_num, by decide, by norm_num⟩, _, rfl, rfl,
    (lps_adjacency (fun _ => 2) 7 _ (by norm_num) (by decide) (by norm_num) rfl rfl).1 2 4
      (by decide) (by decide) (by decide),
    (lps_adjacency (fun _ => 2) 7 _ (by norm_num) (by decide) (by norm_num) rfl rfl).2.2.1⟩

/-! ## The levels of the grids are rings of a distance -/

/-- When adjacency on the nodes `C` is "at distance 1" for a distance `δ` that obeys the
triangle inequality and in which every node at distance `d + 1` has a neighbour at distance
`d`, the shortest-walk distance is `δ`. -/
theorem walk_le_of_metric (m : MatrixType) (C : Nat → Prop) (δ : Nat → Nat → Nat)
    (hadj : ∀ u v, C u → (Adj m u v ↔ C v ∧ δ u v = 1))
    (h0 : ∀ u, C u → δ u u = 0)
    (htri : ∀ u v w, C u → C v → C w → δ u w ≤ δ u v + δ v w) :
    ∀ (k u v : Nat), C u → IsWalk m k u v → C v ∧ δ u v ≤ k := by
  intro k
  induction k with
  | zero =>
    intro u v hu hw
    have e : u = v := hw
    subst e
    exact ⟨hu, by rw [h0 u hu]⟩
  | succ k ih =>
    intro u v hu hw
    obtain ⟨w, hw1, hw2⟩ := hw
    obtain ⟨hcw, hle⟩ := ih u w hu hw1
    obtain ⟨hcv, h1⟩ := (hadj w v hcw).1 hw2
    have := htri u w v hu hcw hcv
    exact ⟨hcv, by omega⟩

theorem walk_of_metric (m : MatrixType) (C : Nat → Prop) (δ : Nat → Nat → Nat)
    (hadj : ∀ u v, C u → (Adj m u v ↔ C v ∧ δ u v = 1))
    (heq : ∀ u v, C u → C v → δ u v = 0 → u = v)
    (hstep : ∀ u w d, C u → C w → δ u w = d + 1 → ∃ v, C v ∧ δ u v = d ∧ δ v w = 1) :
    ∀ (d u v : Nat), C u → C v → δ u v = d → IsWalk m d u v := by
  intro d
  induction d with
  | zero =>
    intro u v hu hv h
    exact heq u v hu hv h
  | succ d ih =>
    intro u v hu hv h
    obtain ⟨w, hcw, h1, h2⟩ := hstep u v d hu hv h
    exact ⟨w, ih u w hu hcw h1, (hadj w v hcw).2 ⟨hv, h2⟩⟩

theorem isDist_of_metric (m : MatrixType) (C : Nat → Prop) (δ : Nat → Nat → Nat)
    (hadj : ∀ u v, C u → (Adj m u v ↔ C v ∧ δ u v = 1))
    (h0 : ∀ u, C u → δ u u = 0)
    (heq : ∀ u v, C u → C v → δ u v = 0 → u = v)
    (htri : ∀ u v w, C u → C v → C w → δ u w ≤ δ u v + δ v w)
    (hstep : ∀ u w d, C u → C w → δ u w = d + 1 → ∃ v, C v ∧ δ u v = d ∧ δ v w = 1)
    (d u v : Nat) (hu : C u) (hv : C v) : IsDist m d u v ↔ d = δ u v := by
  unfold IsDist
  constructor
  · rintro ⟨hw, hmin⟩
    have hle := (walk_le_of_metric m C δ hadj h0 htri d u v hu hw).2
    rcases Nat.lt_or_ge (δ u v) d with hlt | hge
    · exact absurd (walk_of_metric m C δ hadj heq hstep (δ u v) u v hu hv rfl) (hmin _ hlt)
    · omega
  · intro e
    refine ⟨walk_of_metric m C δ hadj heq hstep d u v hu hv e.symm, ?_⟩
    intro k hk hw
    have := (walk_le_of_metric m C δ hadj h0 htri k u v hu hw).2
    omega

theorem cell_of_lt (w h u : Nat) (hu : u < w * h) :
    u / w < h ∧ u % w < w ∧ u = u / w * w + u % w := by
  have hw : 0 < w := by
    rcases Nat.eq_zero_or_pos w with e | e
    · rw [e, Nat.zero_mul] at hu; omega
    · exact e
  refine ⟨Nat.div_lt_of_lt_mul hu, Nat.mod_lt u hw, ?_⟩
  have := Nat.div_add_mod u w
  rw [Nat.mul_comm] at this
  exact this.symm

/-- On a `w × h` grid whose adjacency is "at distance 1" for a distance `ρ` of the cell
coordinates, the shortest-walk distance between two cells is `ρ`. -/
theorem grid_isDist (m : MatrixType) (w h : Nat) (ρ : Nat → Nat → Nat → Nat → Nat)
    (hadj : ∀ i j v, i < h → j < w →
      (Adj m (i * w + j) v ↔ ∃ i2 j2, i2 < h ∧ j2 < w ∧ v = i2 * w + j2 ∧ ρ i j i2 j2 = 1))
    (h0 : ∀ i j, ρ i j i j = 0)
    (heq : ∀ i j i2 j2, ρ i j i2 j2 = 0 → i = i2 ∧ j = j2)
    (htri : ∀ i j i2 j2 i3 j3, ρ i j i3 j3 ≤ ρ i j i2 j2 + ρ i2 j2 i3 j3)
    (hstep : ∀ i j i2 j2 d, i < h → j < w → i2 < h → j2 < w → ρ i j i2 j2 = d + 1 →
      ∃ i3 j3, i3 < h ∧ j3 < w ∧ ρ i j i3 j3 = d ∧ ρ i3 j3 i2 j2 = 1)
    (d i j i2 j2 : Nat) (hi : i < h) (hj : j < w) (hi2 : i2 < h) (hj2 : j2 < w) :
    IsDist m d (i * w + j) (i2 * w + j2) ↔ d = ρ i j i2 j2 := by
  have key := isDist_of_metric m (fun u => u < w * h)
    (fun u v => ρ (u / w) (u % w) (v / w) (v % w))
    (by
      intro u v hu
      obtain ⟨c1, c2, c3⟩ := cell_of_lt w h u hu
      have ha := hadj (u / w) (u % w) v c1 c2
      rw [← c3] at ha
      rw [ha]
      constructor
      · rintro ⟨a, b, ha1, hb1, e, hr⟩
        subst e
        refine ⟨flat_lt ha1 hb1, ?_⟩
        simp only []
        rw [flat_div hb1, flat_mod hb1]
        exact hr
      · rintro ⟨hv, hr⟩
        obtain ⟨e1, e2, e3⟩ := cell_of_lt w h v hv
        exact ⟨v / w, v % w, e1, e2, e3, hr⟩)
    (fun u _ => h0 _ _)
    (by
      intro u v hu hv hr
      obtain ⟨_, _, c3⟩ := cell_of_lt w h u hu
      obtain ⟨_, _, e3⟩ := cell_of_lt w h v hv
      obtain ⟨q1, q2⟩ := heq _ _ _ _ hr
      rw [c3, e3, q1, q2])
    (fun u v x _ _ _ => htri _ _ _ _ _ _)
    (by
      intro u x d hu hx hr
      obtain ⟨c1, c2, _⟩ := cell_of_lt w h u hu
      obtain ⟨e1, e2, _⟩ := cell_of_lt w h x hx
      obtain ⟨a, b, ha1, hb1, r1, r2⟩ := hstep _ _ _ _ d c1 c2 e1 e2 hr
      refine ⟨a * w + b, flat_lt ha1 hb1, ?_, ?_⟩
      · simp only []
        rw [flat_div hb1, flat_mod hb1]
        exact r1
      · simp only []
        rw [flat_div hb1, flat_mod hb1]
        exact r2)
    d (i * w + j) (i2 * w + j2) (flat_lt hi hj) (flat_lt hi2 hj2)
  simp only [flat_div hj, flat_mod hj, flat_div hj2, flat_mod hj2] at key
  exact key

theorem manhattan_step (h w i j i2 j2 d : Nat) (hi : i < h) (hj : j < w) (hi2 : i2 < h)
    (hj2 : j2 < w) (hr : Nat.dist i i2 + Nat.dist j j2 = d + 1) :
    ∃ i3 j3, i3 < h ∧ j3 < w ∧ Nat.dist i i3 + Nat.dist j j3 = d ∧
      Nat.dist i3 i2 + Nat.dist j3 j2 = 1 := by
  unfold Nat.dist at hr ⊢
  rcases Nat.lt_trichotomy i i2 with hlt | heq | hgt
  · exact ⟨i2 - 1, j2, by omega, hj2, by omega, by omega⟩
  · rcases Nat.lt_trichotomy j j2 with hlt2 | heq2 | hgt2
    · exact ⟨i2, j2 - 1, hi2, by omega, by omega, by omega⟩
    · omega
    · exact ⟨i2, j2 + 1, hi2, by omega, by omega, by omega⟩
  · exact ⟨i2 + 1, j2, by omega, hj2, by omega, by omega⟩

theorem grid4_isDist (width height : Nat) (g : Graph_blaze) (d i j i2 j2 : Nat)
    (hi : i < height) (hj : j < width) (hi2 : i2 < height) (hj2 : j2 < width) :
    IsDist (Grid4_blaze.construct width height g).m d (i * width + j) (i2 * width + j2) ↔
      d = Nat.dist i i2 + Nat.dist j j2 :=
  grid_isDist _ width height (fun i j i2 j2 => Nat.dist i i2 + Nat.dist j j2)
    (fun i j v hi hj => grid4_adj width height g i j v hi hj)
    (fun i j => by simp only [Nat.dist_self])
    (fun i j i2 j2 hr => by beta_reduce at hr; unfold Nat.dist at hr; omega)
    (fun i j i2 j2 i3 j3 => by
      beta_reduce
      have a := Nat.dist.triangle_inequality i i2 i3
      have b := Nat.dist.triangle_inequality j j2 j3
      omega)
    (fun i j i2 j2 d hi hj hi2 hj2 hr => manhattan_step height width i j i2 j2 d hi hj hi2 hj2 hr)
    d i j i2 j2 hi hj hi2 hj2

theorem chebyshev_step (h w i j i2 j2 d : Nat) (hi : i < h) (hj : j < w) (hi2 : i2 < h)
    (hj2 : j2 < w) (hr : max (Nat.dist i i2) (Nat.dist j j2) = d + 1) :
    ∃ i3 j3, i3 < h ∧ j3 < w ∧ max (Nat.dist i i3) (Nat.dist j j3) = d ∧
      max (Nat.dist i3 i2) (Nat.dist j3 j2) = 1 := by
  unfold Nat.dist at hr ⊢
  rcases Nat.lt_trichotomy i i2 with h1 | h1 | h1 <;>
    rcases Nat.lt_trichotomy j j2 with h2 | h2 | h2
  · exact ⟨i2 - 1, j2 - 1, by omega, by omega, by omega, by omega⟩
  · exact ⟨i2 - 1, j2, by omega, by omega, by omega, by omega⟩
  · exact ⟨i2 - 1, j2 + 1, by omega, by omega, by omega, by omega⟩
  · exact ⟨i2, j2 - 1, by omega, by omega, by omega, by omega⟩
  · omega
  · exact ⟨i2, j2 + 1, by omega, by omega, by omega, by omega⟩
  · exact ⟨i2 + 1, j2 - 1, by omega, by omega, by omega, by omega⟩
  · exact ⟨i2 + 1, j2, by omega, by omega, by omega, by omega⟩
  · exact ⟨i2 + 1, j2 + 1, by omega, by omega, by omega, by omega⟩

theorem grid8_isDist (width height : Nat) (g : Graph_blaze) (d i j i2 j2 : Nat)
    (hi : i < height) (hj : j < width) (hi2 : i2 < height) (hj2 : j2 < width) :
    IsDist (Grid8_blaze.construct width height g).m d (i * width + j) (i2 * width + j2) ↔
      d = max (Nat.dist i i2) (Nat.dist j j2) :=
  grid_isDist _ width height (fun i j i2 j2 => max (Nat.dist i i2) (Nat.dist j j2))
    (fun i j v hi hj => grid8_adj width height g i j v hi hj)
    (fun i j => by simp only [Nat.dist_self, max_self])
    (fun i j i2 j2 hr => by beta_reduce at hr; unfold Nat.dist at hr; omega)
    (fun i j i2 j2 i3 j3 => by
      beta_reduce
      have a := Nat.dist.triangle_inequality i i2 i3
      have b := Nat.dist.triangle_inequality j j2 j3
      omega)
    (fun i j i2 j2 d hi hj hi2 hj2 hr => chebyshev_step height width i j i2 j2 d hi hj hi2 hj2 hr)
    d i j i2 j2 hi hj hi2 hj2

/-- C32. Grid4 levels are Manhattan rings: for every `width` and `height` (at least 1, as
there is a cell), every `maxDepth` and all cells `(i, j)`, `(i2, j2)` of
`Grid4_blaze(width, height)`, node
`i2 * width + j2` occurs in bucket `d` of `getNeighborsNew(i * width + j, maxDepth)` if and
only if `d == |i - i2| + |j - j2|` and `d <= maxDepth`; for the sparse and for the dense
explorer. -/
theorem grid4_levels_manhattan (width height maxDepth d i j i2 j2 : Nat)
    (hi : i < height) (hj : j < width) (hi2 : i2 < height) (hj2 : j2 < width) :
    (i2 * width + j2 ∈
        ((Grid4_blaze.ofSize width height).getNeighborsNew_sparse (i * width + j) maxDepth).getD
          d [] ↔
      d = Nat.dist i i2 + Nat.dist j j2 ∧ d ≤ maxDepth) ∧
    (i2 * width + j2 ∈
        ((Grid4_blaze.ofSize width height).getNeighborsNew_dense (i * width + j) maxDepth).getD
          d [] ↔
      d = Nat.dist i i2 + Nat.dist j j2 ∧ d ≤ maxDepth) := by
  have key : i2 * width + j2 ∈
      (explored (Grid4_blaze.ofSize width height).m (i * width + j) maxDepth).getD d [] ↔
      d = Nat.dist i i2 + Nat.dist j j2 ∧ d ≤ maxDepth := by
    unfold Grid4_blaze.ofSize
    rw [mem_explored _ _ _ (grid4_cell_lt_columns width height _ i j hi hj),
      grid4_isDist width height _ d i j i2 j2 hi hj hi2 hj2]
    exact and_comm
  rw [getNeighborsNew_sparse_eq, getNeighborsNew_dense_eq]
  exact ⟨key, key⟩

/-- Witness of C32: the 3 × 4 grid, from the cell `(0, 1)` to the cell `(2, 3)`, at Manhattan
distance 4. -/
theorem grid4_levels_manhattan_witness :
    (0 < 3 ∧ 1 < 4 ∧ 2 < 3 ∧ 3 < 4) ∧
    (2 * 4 + 3 ∈ ((Grid4_blaze.ofSize 4 3).getNeighborsNew_sparse (0 * 4 + 1) 5).getD 4 [] ↔
      4 = Nat.dist 0 2 + Nat.dist 1 3 ∧ 4 ≤ 5) :=
  ⟨by decide,
    (grid4_levels_manhattan 4 3 5 4 0 1 2 3 (by decide) (by decide) (by decide)
      (by decide)).1⟩

/-- C33. Grid8 levels are Chebyshev rings: for every `width` and `height` (at least 1, as
there is a cell), every `maxDepth` and all cells `(i, j)`, `(i2, j2)` of
`Grid8_blaze(width, height)`, node
`i2 * width + j2` occurs in bucket `d` of `getNeighborsNew(i * width + j, maxDepth)` if and
only if `d == max(|i - i2|, |j - j2|)` and `d <= maxDepth`; for the sparse and for the dense
explorer. -/
theorem grid8_levels_chebyshev (width height maxDepth d i j i2 j2 : Nat)
    (hi : i < height) (hj : j < width) (hi2 : i2 < height) (hj2 : j2 < width) :
    (i2 * width + j2 ∈
        ((Grid8_blaze.ofSize width height).getNeighborsNew_sparse (i * width + j) maxDepth).getD
          d [] ↔
      d = max (Nat.dist i i2) (Nat.dist j j2) ∧ d ≤ maxDepth) ∧
    (i2 * width + j2 ∈
        ((Grid8_blaze.ofSize width height).getNeighborsNew_dense (i * width + j) maxDepth).getD
          d [] ↔
      d = max (Nat.dist i i2) (Nat.dist j j2) ∧ d ≤ maxDepth) := by
  have key : i2 * width + j2 ∈
      (explored (Grid8_blaze.ofSize width height).m (i * width + j) maxDepth).getD d [] ↔
      d = max (Nat.dist i i2) (Nat.dist j j2) ∧ d ≤ maxDepth := by
    unfold Grid8_blaze.ofSize
    rw [mem_explored _ _ _ (grid8_cell_lt_columns width height _ i j hi hj),
      grid8_isDist width height _ d i j i2 j2 hi hj hi2 hj2]
    exact and_comm
  rw [getNeighborsNew_sparse_eq, getNeighborsNew_dense_eq]
  exact ⟨key, key⟩

/-- Witness of C33: the 3 × 4 grid, from the cell `(0, 1)` to the cell `(2, 3)`, at Chebyshev
distance 2. -/
theorem grid8_levels_chebyshev_witness :
    (0 < 3 ∧ 1 < 4 ∧ 2 < 3 ∧ 3 < 4) ∧
    (2 * 4 + 3 ∈ ((Grid8_blaze.ofSize 4 3).getNeighborsNew_sparse (0 * 4 + 1) 5).getD 2 [] ↔
      2 = max (Nat.dist 0 2) (Nat.dist 1 3) ∧ 2 ≤ 5) :=
  ⟨by decide,
    (grid8_levels_chebyshev 4 3 5 2 0 1 2 3 (by decide) (by decide) (by decide)
      (by decide)).1⟩

/-! ## The map of depths kept by the depth-first explorers -/

theorem mapFind_nil (k : Nat) : Graph_blaze.mapFind [] k = none := rfl

theorem mapFind_cons (e : Nat × Nat) (idx : List (Nat × Nat)) (k : Nat) :
    Graph_blaze.mapFind (e :: idx) k =
      if e.1 = k then some e.2 else Graph_blaze.mapFind idx k := by
  unfold Graph_blaze.mapFind
  by_cases h : e.1 = k
  · rw [if_pos h, List.find?_cons_of_pos _ (by simp [h])]
    rfl
  · rw [if_neg h, List.find?_cons_of_neg _ (by simp [h])]

theorem mapFind_eq_none_iff (idx : List (Nat × Nat)) (k : Nat) :
    Graph_blaze.mapFind idx k = none ↔ k ∉ idx.map Prod.fst := by
  induction idx with
  | nil => simp [mapFind_nil]
  | cons e idx ih =>
    rw [mapFind_cons]
    by_cases h : e.1 = k
    · simp [h]
    · rw [if_neg h, ih]
      simp only [List.map_cons, List.mem_cons, not_or]
      constructor
      · intro h2; exact ⟨fun e2 => h e2.symm, h2⟩
      · intro h2; exact h2.2

theorem mapSet_nil (k v : Nat) : Graph_blaze.mapSet [] k v = [(k, v)] := rfl

theorem mapSet_cons (e : Nat × Nat) (idx : List (Nat × Nat)) (k v : Nat) :
    Graph_blaze.mapSet (e :: idx) k v =
      if e.1 = k then (k, v) :: idx.map (fun x => if x.1 == k then (k, v) else x)
      else e :: Graph_blaze.mapSet idx k v := by
  unfold Graph_blaze.mapSet
  by_cases h : e.1 = k
  · rw [if_pos h, List.find?_cons_of_pos _ (by simp [h])]
    simp [h]
  · rw [if_neg h, List.find?_cons_of_neg _ (by simp [h])]
    by_cases hs : (List.find? (fun x => x.1 == k) idx).isSome = true
    · rw [if_pos hs, if_pos hs]
      simp [h]
    · rw [if_neg hs, if_neg hs]
      rfl

theorem mapFind_map_replace (idx : List (Nat × Nat)) (k v k2 : Nat) (h : k2 ≠ k) :
    Graph_blaze.mapFind (idx.map (fun x => if x.1 == k then (k, v) else x)) k2 =
      Graph_blaze.mapFind idx k2 := by
  induction idx with
  | nil => rfl
  | cons e idx ih =>
    rw [List.map_cons, mapFind_cons, mapFind_cons, ih]
    by_cases he : e.1 = k
    · simp [he, h, Ne.symm h]
    · simp [he]

theorem mapFind_mapSet_self (idx : List (Nat × Nat)) (k v : Nat) :
    Graph_blaze.mapFind (Graph_blaze.mapSet idx k v) k = some v := by
  induction idx with
  | nil => rw [mapSet_nil, mapFind_cons]; simp
  | cons e idx ih =>
    rw [mapSet_cons]
    by_cases h : e.1 = k
    · rw [if_pos h, mapFind_cons]; simp
    · rw [if_neg h, mapFind_cons, if_neg h, ih]

theorem mapFind_mapSet_ne (idx : List (Nat × Nat)) (k v k2 : Nat) (h : k2 ≠ k) :
    Graph_blaze.mapFind (Graph_blaze.mapSet idx k v) k2 = Graph_blaze.mapFind idx k2 := by
  induction idx with
  | nil => rw [mapSet_nil, mapFind_cons, if_neg (Ne.symm h)]
  | cons e idx ih =>
    rw [mapSet_cons]
    by_cases he : e.1 = k
    · rw [if_pos he, mapFind_cons, mapFind_cons, mapFind_map_replace idx k v k2 h]
      simp [he, Ne.symm h]
    · rw [if_neg he, mapFind_cons, mapFind_cons, ih]

theorem keys_map_replace (idx : List (Nat × Nat)) (k v : Nat) :
    (idx.map (fun x => if x.1 == k then (k, v) else x)).map Prod.fst = idx.map Prod.fst := by
  induction idx with
  | nil => rfl
  | cons e idx ih =>
    rw [List.map_cons, List.map_cons, List.map_cons, ih]
    by_cases he : e.1 = k
    · simp [he]
    · simp [he]

theorem keys_mapSet (idx : List (Nat × Nat)) (k v : Nat) :
    (Graph_blaze.mapSet idx k v).map Prod.fst =
      if k ∈ idx.map Prod.fst then idx.map Prod.fst else idx.map Prod.fst ++ [k] := by
  induction idx with
  | nil => simp [mapSet_nil]
  | cons e idx ih =>
    rw [mapSet_cons]
    by_cases he : e.1 = k
    · rw [if_pos he, List.map_cons, keys_map_replace]
      simp [he]
    · rw [if_neg he, List.map_cons, ih]
      by_cases hk : k ∈ idx.map Prod.fst
      · rw [if_pos hk, if_pos (by simp only [List.map_cons, List.mem_cons]; exact Or.inr hk)]
        rfl
      · rw [if_neg hk, if_neg (by
          simp only [List.map_cons, List.mem_cons, not_or]
          exact ⟨fun e2 => he e2.symm, hk⟩)]
        rfl

theorem keysNodup_mapSet (idx : List (Nat × Nat)) (k v : Nat) (h : KeysNodup idx) :
    KeysNodup (Graph_blaze.mapSet idx k v) := by
  unfold KeysNodup at h ⊢
  rw [keys_mapSet]
  by_cases hk : k ∈ idx.map Prod.fst
  · rw [if_pos hk]; exact h
  · rw [if_neg hk]
    exact List.Nodup.append h (List.nodup_singleton k)
      (by
        intro x hx hx2
        rw [List.mem_singleton] at hx2
        subst hx2
        exact hk hx)

theorem mem_iff_mapFind (idx : List (Nat × Nat)) (h : KeysNodup idx) (k v : Nat) :
    (k, v) ∈ idx ↔ Graph_blaze.mapFind idx k = some v := by
  induction idx with
  | nil => simp [mapFind_nil]
  | cons e idx ih =>
    unfold KeysNodup at h
    rw [List.map_cons, List.nodup_cons] at h
    rw [mapFind_cons, List.mem_cons]
    by_cases he : e.1 = k
    · rw [if_pos he]
      constructor
      · rintro (e2 | e2)
        · rw [← e2]
        · exfalso
          apply h.1
          rw [he]
          exact List.mem_map.2 ⟨(k, v), e2, rfl⟩
      · intro e2
        left
        simp only [Option.some.injEq] at e2
        rw [← he, ← e2]
    · rw [if_neg he, ← ih h.2]
      constructor
      · rintro (e2 | e2)
        · exact absurd (by rw [← e2]) he
        · exact e2
      · intro e2; exact Or.inr e2

theorem mapLower_cases (idx : List (Nat × Nat)) (k v : Nat) :
    (mapLower idx k v = idx ∧ ∃ d0, d0 ≤ v ∧ Graph_blaze.mapFind idx k = some d0) ∨
    (mapLower idx k v = Graph_blaze.mapSet idx k v ∧
      ∀ d0, Graph_blaze.mapFind idx k = some d0 → v < d0) := by
  unfold mapLower
  cases h : Graph_blaze.mapFind idx k with
  | none =>
    right
    exact ⟨rfl, fun d0 h2 => absurd h2 (by simp)⟩
  | some deep =>
    by_cases hd : deep > v
    · right
      simp only [if_pos hd]
      refine ⟨trivial, fun d0 h2 => ?_⟩
      simp only [Option.some.injEq] at h2
      omega
    · left
      simp only [if_neg hd]
      exact ⟨trivial, deep, by omega, rfl⟩

theorem keysNodup_mapLower (idx : List (Nat × Nat)) (k v : Nat) (h : KeysNodup idx) :
    KeysNodup (mapLower idx k v) := by
  rcases mapLower_cases idx k v with ⟨e, _⟩ | ⟨e, _⟩
  · rw [e]; exact h
  · rw [e]; exact keysNodup_mapSet idx k v h

theorem mapFind_mapLower_ne (idx : List (Nat × Nat)) (k v u : Nat) (h : u ≠ k) :
    Graph_blaze.mapFind (mapLower idx k v) u = Graph_blaze.mapFind idx u := by
  rcases mapLower_cases idx k v with ⟨e, _⟩ | ⟨e, _⟩
  · rw [e]
  · rw [e]; exact mapFind_mapSet_ne idx k v u h

theorem mapFind_mapLower_self (idx : List (Nat × Nat)) (k v : Nat) :
    ∃ d0, d0 ≤ v ∧ Graph_blaze.mapFind (mapLower idx k v) k = some d0 := by
  rcases mapLower_cases idx k v with ⟨e, d0, h1, h2⟩ | ⟨e, _⟩
  · rw [e]; exact ⟨d0, h1, h2⟩
  · rw [e]; exact ⟨v, Nat.le_refl v, mapFind_mapSet_self idx k v⟩

theorem mapLe_refl (idx : List (Nat × Nat)) : MapLe idx idx :=
  fun _ d h => ⟨d, Nat.le_refl d, h⟩

theorem mapLe_trans (a b c : List (Nat × Nat)) (h1 : MapLe a b) (h2 : MapLe b c) :
    MapLe a c := by
  intro v d h
  obtain ⟨d2, hd2, e2⟩ := h1 v d h
  obtain ⟨d3, hd3, e3⟩ := h2 v d2 e2
  exact ⟨d3, by omega, e3⟩

theorem mapLe_mapLower (idx : List (Nat × Nat)) (k v : Nat) : MapLe idx (mapLower idx k v) := by
  intro u d h
  by_cases hu : u = k
  · subst hu
    rcases mapLower_cases idx u v with ⟨e, _⟩ | ⟨e, h2⟩
    · rw [e]; exact ⟨d, Nat.le_refl d, h⟩
    · rw [e]
      exact ⟨v, Nat.le_of_lt (h2 d h), mapFind_mapSet_self idx u v⟩
  · rw [mapFind_mapLower_ne idx k v u hu]
    exact ⟨d, Nat.le_refl d, h⟩

theorem closedKept_refl (row : Nat → List Nat) (L : Nat) (idx : List (Nat × Nat)) :
    ClosedKept row L idx idx := by
  intro u h
  rcases h with h | h
  · exact absurd rfl h
  · exact h

theorem closedKept_trans (row : Nat → List Nat) (L : Nat) (a b c : List (Nat × Nat))
    (h1 : ClosedKept row L a b) (h2 : ClosedKept row L b c) : ClosedKept row L a c := by
  intro u h
  rcases h with h | h
  · by_cases e : Graph_blaze.mapFind b u = Graph_blaze.mapFind a u
    · exact h2 u (Or.inl (by rw [e]; exact h))
    · exact h2 u (Or.inr (h1 u (Or.inl e)))
  · exact h2 u (Or.inr (h1 u (Or.inr h)))

/-- An entry that is closed stays closed when its own depth is kept and no entry is raised. -/
theorem closedAt_of_mapLe (row : Nat → List Nat) (L : Nat) (a b : List (Nat × Nat)) (u : Nat)
    (hle : MapLe a b) (he : Graph_blaze.mapFind b u = Graph_blaze.mapFind a u)
    (h : ClosedAt row L a u) : ClosedAt row L b u := by
  intro d hd hL w hw
  rw [he] at hd
  obtain ⟨d2, h2, e2⟩ := h d hd hL w hw
  obtain ⟨d3, h3, e3⟩ := hle w d2 e2
  exact ⟨d3, by omega, e3⟩

theorem rowWalk_cons (row : Nat → List Nat) (u w : Nat) (hw : w ∈ row u) :
    ∀ (j v : Nat), RowWalk row j w v → RowWalk row (j + 1) u v := by
  intro j
  induction j with
  | zero =>
    intro v h
    have e : w = v := h
    subst e
    exact ⟨u, rfl, hw⟩
  | succ j ih =>
    intro v h
    obtain ⟨x, hx, hv⟩ := h
    exact ⟨x, ih x hx, hv⟩

theorem knownAt_iff (idx : List (Nat × Nat)) (node deep : Nat) :
    knownAt idx node deep = true ↔ ∃ d, d ≤ deep ∧ Graph_blaze.mapFind idx node = some d := by
  unfold knownAt
  cases h : Graph_blaze.mapFind idx node with
  | none => simp
  | some second => simp

/-! ## Depth-first exploration computes shortest distances -/

theorem walkPost_foldl (row : Nat → List Nat) (L base : Nat)
    (F : List (Nat × Nat) → Nat → List (Nat × Nat))
    (hF : ∀ w idx, KeysNodup idx → WalkPost row L [w] base idx (F idx w)) :
    ∀ (ws : List Nat) (idx : List (Nat × Nat)), KeysNodup idx →
      WalkPost row L ws base idx (ws.foldl F idx) := by
  intro ws
  induction ws with
  | nil =>
    intro idx h
    exact ⟨h, mapLe_refl idx, closedKept_refl row L idx,
      fun _ w hw => absurd hw (List.not_mem_nil w), fun v d hv => Or.inl hv⟩
  | cons w ws ih =>
    intro idx h
    obtain ⟨p1, p2, p3, p4, p5⟩ := hF w idx h
    obtain ⟨q1, q2, q3, q4, q5⟩ := ih (F idx w) p1
    rw [List.foldl_cons]
    refine ⟨q1, mapLe_trans _ _ _ p2 q2, closedKept_trans row L _ _ _ p3 q3, ?_, ?_⟩
    · intro hb x hx
      rcases List.mem_cons.1 hx with e | e
      · subst e
        obtain ⟨d, hd, e1⟩ := p4 hb x (List.mem_singleton.2 rfl)
        obtain ⟨d2, hd2, e2⟩ := q2 x d e1
        exact ⟨d2, by omega, e2⟩
      · exact q4 hb x e
    · intro v d hv
      rcases q5 v d hv with e | ⟨x, hx, j, hj⟩
      · rcases p5 v d e with e2 | ⟨x, hx, j, hj⟩
        · exact Or.inl e2
        · rw [List.mem_singleton] at hx
          subst hx
          exact Or.inr ⟨x, List.mem_cons_self _ _, j, hj⟩
      · exact Or.inr ⟨x, List.mem_cons_of_mem _ hx, j, hj⟩

theorem walkPost_same (row : Nat → List Nat) (L node deep : Nat) (idx : List (Nat × Nat))
    (h : KeysNodup idx)
    (hentry : deep ≤ L → ∃ d, d ≤ deep ∧ Graph_blaze.mapFind idx node = some d) :
    WalkPost row L [node] deep idx idx :=
  ⟨h, mapLe_refl idx, closedKept_refl row L idx,
    fun hb w hw => by
      rw [List.mem_singleton] at hw
      subst hw
      exact hentry hb,
    fun v d hv => Or.inl hv⟩

theorem walkSpec_post (row : Nat → List Nat) (prune : Bool) (L : Nat) :
    ∀ (k node : Nat) (idx : List (Nat × Nat)) (deep : Nat), L + 1 = deep + k →
      KeysNodup idx → WalkPost row L [node] deep idx (walkSpec row prune k node idx deep) := by
  intro k
  induction k with
  | zero =>
    intro node idx deep hL h
    unfold walkSpec
    exact walkPost_same row L node deep idx h (fun hb => by omega)
  | succ k ih =>
    intro node idx deep hL h
    unfold walkSpec
    by_cases hprune : (prune && knownAt idx node deep) = true
    · rw [if_pos hprune]
      apply walkPost_same row L node deep idx h
      intro _
      rw [Bool.and_eq_true] at hprune
      exact (knownAt_iff idx node deep).1 hprune.2
    · rw [if_neg hprune]
      have h1 : KeysNodup (mapLower idx node deep) := keysNodup_mapLower idx node deep h
      obtain ⟨f1, f2, f3, f4, f5⟩ := walkPost_foldl row L (deep + 1)
        (fun acc w => walkSpec row prune k w acc (deep + 1))
        (fun w acc hacc => ih w acc (deep + 1) (by omega) hacc)
        (row node) (mapLower idx node deep) h1
      refine ⟨f1, mapLe_trans _ _ _ (mapLe_mapLower idx node deep) f2, ?_, ?_, ?_⟩
      · -- closed entries
        intro u hu
        by_cases hun : u = node
        · subst hun
          by_cases hch : Graph_blaze.mapFind ((row u).foldl
              (fun acc w => walkSpec row prune k w acc (deep + 1)) (mapLower idx u deep)) u =
              Graph_blaze.mapFind (mapLower idx u deep) u
          · rcases mapLower_cases idx u deep with ⟨e, _⟩ | ⟨e, _⟩
            · rw [e] at f3 hu ⊢
              exact f3 u hu
            · intro d hd hdL w hw
              rw [hch, e, mapFind_mapSet_self] at hd
              simp only [Option.some.injEq] at hd
              subst hd
              exact f4 (by omega) w hw
          · exact f3 u (Or.inl hch)
        · refine f3 u ?_
          rw [mapFind_mapLower_ne idx node deep u hun]
          rcases hu with hu | hu
          · exact Or.inl hu
          · exact Or.inr (closedAt_of_mapLe row L _ _ u (mapLe_mapLower idx node deep)
              (mapFind_mapLower_ne idx node deep u hun) hu)
      · -- the entry of the node
        intro _ w hw
        rw [List.mem_singleton] at hw
        subst hw
        obtain ⟨d0, hd0, e0⟩ := mapFind_mapLower_self idx w deep
        obtain ⟨d2, hd2, e2⟩ := f2 w d0 e0
        exact ⟨d2, by omega, e2⟩
      · -- new depths are lengths of walks
        intro v d hv
        rcases f5 v d hv with e | ⟨w, hw, j, hj, hd, hdL⟩
        · by_cases hvn : v = node
          · subst hvn
            rcases mapLower_cases idx v deep with ⟨e2, _⟩ | ⟨e2, _⟩
            · rw [e2] at e; exact Or.inl e
            · rw [e2, mapFind_mapSet_self] at e
              simp only [Option.some.injEq] at e
              exact Or.inr ⟨v, List.mem_singleton.2 rfl, 0, rfl, by omega, by omega⟩
          · rw [mapFind_mapLower_ne idx node deep v hvn] at e
            exact Or.inl e
        · exact Or.inr ⟨node, List.mem_singleton.2 rfl, j + 1, rowWalk_cons row node w hw j v hj,
            by omega, hdL⟩

/-- In a map that holds the start at depth 0 and all of whose entries are closed, every node
reached by a walk of `k <= maxDeep` steps has an entry of depth at most `k`. -/
theorem closed_complete (row : Nat → List Nat) (L start : Nat) (R : List (Nat × Nat))
    (hstart : Graph_blaze.mapFind R start = some 0)
    (hclosed : ∀ u, ClosedAt row L R u) :
    ∀ (k v : Nat), k ≤ L → RowWalk row k start v →
      ∃ d, d ≤ k ∧ Graph_blaze.mapFind R v = some d := by
  intro k
  induction k with
  | zero =>
    intro v _ hw
    have e : start = v := hw
    subst e
    exact ⟨0, Nat.le_refl 0, hstart⟩
  | succ k ih =>
    intro v hk hw
    obtain ⟨w, hw1, hw2⟩ := hw
    obtain ⟨d, hd, e⟩ := ih w (by omega) hw1
    obtain ⟨d2, hd2, e2⟩ := hclosed w d e (by omega) v hw2
    exact ⟨d2, by omega, e2⟩

/-- The map a depth-first exploration from `start` to depth `maxDeep` returns, with or without
pruning, holds every node at its shortest distance from `start` if that is at most `maxDeep`,
and no other entry. -/
theorem walkSpec_dist (row : Nat → List Nat) (prune : Bool) (L start : Nat) :
    KeysNodup (walkSpec row prune (L + 1) start [] 0) ∧
    ∀ v d, Graph_blaze.mapFind (walkSpec row prune (L + 1) start [] 0) v = some d ↔
      d ≤ L ∧ RowDist row d start v := by
  obtain ⟨p1, _, p3, p4, p5⟩ := walkSpec_post row prune L (L + 1) start [] 0 (by omega)
    (List.nodup_nil)
  have hsound : ∀ v d, Graph_blaze.mapFind (walkSpec row prune (L + 1) start [] 0) v = some d →
      RowWalk row d start v ∧ d ≤ L := by
    intro v d hv
    rcases p5 v d hv with e | ⟨w, hw, j, hj, hd, hdL⟩
    · exact absurd e (by simp [mapFind_nil])
    · rw [List.mem_singleton] at hw
      subst hw
      have e : d = j := by omega
      subst e
      exact ⟨hj, hdL⟩
  have hstart : Graph_blaze.mapFind (walkSpec row prune (L + 1) start [] 0) start = some 0 := by
    obtain ⟨d, hd, e⟩ := p4 (Nat.zero_le L) start (List.mem_singleton.2 rfl)
    have e0 : d = 0 := by omega
    subst e0
    exact e
  have hclosed : ∀ u, ClosedAt row L (walkSpec row prune (L + 1) start [] 0) u := by
    intro u
    apply p3 u
    right
    intro d hd
    exact absurd hd (by simp [mapFind_nil])
  have hcomplete := closed_complete row L start _ hstart hclosed
  refine ⟨p1, ?_⟩
  intro v d
  constructor
  · intro hv
    obtain ⟨hw, hdL⟩ := hsound v d hv
    refine ⟨hdL, hw, ?_⟩
    intro k hk hwk
    obtain ⟨d2, hd2, e2⟩ := hcomplete k v (by omega) hwk
    rw [hv] at e2
    simp only [Option.some.injEq] at e2
    omega
  · rintro ⟨hdL, hw, hmin⟩
    obtain ⟨d2, hd2, e2⟩ := hcomplete d v hdL hw
    obtain ⟨hw2, _⟩ := hsound v d2 e2
    rcases Nat.lt_or_ge d2 d with hlt | hge
    · exact absurd hw2 (hmin d2 hlt)
    · have e : d2 = d := by omega
      rw [← e]
      exact e2

/-! ## Reading the buckets back from the map -/

theorem getD_set_nil (nl : List (List Nat)) (i d : Nat) (x : List Nat) (h : i < nl.length) :
    (nl.set i x).getD d [] = if i = d then x else nl.getD d [] := by
  by_cases e : i = d
  · subst e
    rw [if_pos rfl, getD_set_self nl i x h]
  · rw [if_neg e]
    simp only [List.getD_eq_getElem?_getD, List.getElem?_set_ne e]

theorem bucket_foldl (idx : List (Nat × Nat)) : ∀ (nl : List (List Nat)),
    (∀ e ∈ idx, e.2 < nl.length) →
    (idx.foldl (fun nl e => nl.set e.2 (nl.getD e.2 [] ++ [e.1])) nl).length = nl.length ∧
    ∀ d, (idx.foldl (fun nl e => nl.set e.2 (nl.getD e.2 [] ++ [e.1])) nl).getD d [] =
      nl.getD d [] ++ (idx.filter (fun e => e.2 == d)).map Prod.fst := by
  induction idx with
  | nil =>
    intro nl _
    exact ⟨rfl, fun d => by simp⟩
  | cons e idx ih =>
    intro nl h
    have he : e.2 < nl.length := h e (List.mem_cons_self _ _)
    obtain ⟨i1, i2⟩ := ih (nl.set e.2 (nl.getD e.2 [] ++ [e.1]))
      (fun x hx => by rw [List.length_set]; exact h x (List.mem_cons_of_mem _ hx))
    rw [List.foldl_cons]
    refine ⟨by rw [i1, List.length_set], ?_⟩
    intro d
    rw [i2 d, getD_set_nil nl e.2 d _ he, List.filter_cons]
    by_cases hd : e.2 = d
    · subst hd
      simp
    · rw [if_neg hd]
      have : (e.2 == d) = false := by simp [hd]
      rw [this]
      simp

theorem bucketsOf_spec (idx : List (Nat × Nat)) (n : Nat) (h : ∀ e ∈ idx, e.2 < n) :
    (bucketsOf idx n).length = n ∧
    ∀ d, (bucketsOf idx n).getD d [] = (idx.filter (fun e => e.2 == d)).map Prod.fst := by
  unfold bucketsOf
  obtain ⟨h1, h2⟩ := bucket_foldl idx (List.replicate n [])
    (fun e he => by rw [List.length_replicate]; exact h e he)
  refine ⟨by rw [h1, List.length_replicate], ?_⟩
  intro d
  rw [h2 d, getD_replicate_nil]
  rfl

theorem mem_bucketsOf (idx : List (Nat × Nat)) (n : Nat) (h : ∀ e ∈ idx, e.2 < n) (d v : Nat) :
    v ∈ (bucketsOf idx n).getD d [] ↔ (v, d) ∈ idx := by
  rw [(bucketsOf_spec idx n h).2 d]
  simp only [List.mem_map, List.mem_filter, beq_iff_eq]
  constructor
  · rintro ⟨⟨a, b⟩, ⟨hm, hb⟩, ha⟩
    simp only at hb ha
    subst hb ha
    exact hm
  · intro hm
    exact ⟨(v, d), ⟨hm, rfl⟩, rfl⟩

theorem nodup_bucketsOf (idx : List (Nat × Nat)) (n : Nat) (h : ∀ e ∈ idx, e.2 < n)
    (hk : KeysNodup idx) (d : Nat) : ((bucketsOf idx n).getD d []).Nodup := by
  rw [(bucketsOf_spec idx n h).2 d]
  exact List.Nodup.sublist (List.Sublist.map _ (List.filter_sublist _)) hk

/-! ## The legacy walk -/

theorem option_foldl (F : List (Nat × Nat) → Nat → List (Nat × Nat))
    (G : Option (List (Nat × Nat)) → Nat → Option (List (Nat × Nat))) :
    ∀ (ws : List Nat) (acc : List (Nat × Nat)),
      (∀ w ∈ ws, ∀ a, G (some a) w = some (F a w)) →
      ws.foldl G (some acc) = some (ws.foldl F acc) := by
  intro ws
  induction ws with
  | nil => intro acc _; rfl
  | cons w ws ih =>
    intro acc h
    rw [List.foldl_cons, List.foldl_cons, h w (List.mem_cons_self _ _) acc]
    exact ih _ (fun x hx a => h x (List.mem_cons_of_mem _ hx) a)

theorem mapLower_of_not_known (idx : List (Nat × Nat)) (k v : Nat)
    (h : ¬ knownAt idx k v = true) : mapLower idx k v = Graph_blaze.mapSet idx k v := by
  rcases mapLower_cases idx k v with ⟨_, d0, h1, h2⟩ | ⟨e, _⟩
  · exact absurd ((knownAt_iff idx k v).2 ⟨d0, h1, h2⟩) h
  · exact e

/-- On a graph whose adjacency lists name nodes of the graph only, `neighboursWalk` returns
within `maxDeep + 2 - deep` nested calls, and returns the map of the pruned depth-first
exploration. -/
theorem neighboursWalk_eq (g : Graph) (maxDeep : Nat)
    (hwf : ∀ row ∈ g.edges, ∀ w ∈ row, w < g.edges.length) :
    ∀ (k fuel index : Nat) (idx : List (Nat × Nat)) (deep : Nat),
      maxDeep + 1 = deep + k → k + 1 ≤ fuel → index < g.edges.length →
      Graph.neighboursWalk g.edges maxDeep fuel index idx deep =
        some (walkSpec g.neighbours true k index idx deep) := by
  intro k
  induction k with
  | zero =>
    intro fuel index idx deep hL hfuel _
    obtain ⟨f, rfl⟩ : ∃ f, fuel = f + 1 := ⟨fuel - 1, by omega⟩
    unfold Graph.neighboursWalk walkSpec
    rw [if_pos (by omega)]
  | succ k ih =>
    intro fuel index idx deep hL hfuel hin
    obtain ⟨f, rfl⟩ : ∃ f, fuel = f + 1 := ⟨fuel - 1, by omega⟩
    unfold Graph.neighboursWalk walkSpec
    rw [if_neg (by omega)]
    simp only [Bool.true_and]
    change (if knownAt idx index deep = true then some idx else _) = _
    by_cases hknown : knownAt idx index deep = true
    · rw [if_pos hknown, if_pos hknown]
    · rw [if_neg hknown, if_neg hknown, mapLower_of_not_known idx index deep hknown]
      have hrow : g.edges[index]? = some (g.neighbours index) := by
        unfold Graph.neighbours
        rw [List.getD_eq_getElem?_getD, List.getElem?_eq_getElem hin]
        rfl
      rw [hrow]
      simp only []
      apply option_foldl
      intro w hw a
      have hwin : w < g.edges.length := by
        apply hwf (g.neighbours index) _ w hw
        unfold Graph.neighbours
        rw [List.getD_eq_getElem?_getD, List.getElem?_eq_getElem hin]
        exact List.getElem_mem _
      exact ih f w a (deep + 1) (by omega) (by omega) hwin

/-- The buckets read back from the map of a depth-first exploration to depth `maxDeep`: there
are `maxDeep + 1` of them, bucket `d` holds the nodes at shortest distance `d`, and no node
occurs twice. -/
theorem buckets_of_walkSpec (row : Nat → List Nat) (prune : Bool) (L start : Nat) :
    (bucketsOf (walkSpec row prune (L + 1) start [] 0) (L + 1)).length = L + 1 ∧
    (∀ d v, v ∈ (bucketsOf (walkSpec row prune (L + 1) start [] 0) (L + 1)).getD d [] ↔
      d ≤ L ∧ RowDist row d start v) ∧
    (∀ d, ((bucketsOf (walkSpec row prune (L + 1) start [] 0) (L + 1)).getD d []).Nodup) ∧
    (∀ d1 d2 v,
      v ∈ (bucketsOf (walkSpec row prune (L + 1) start [] 0) (L + 1)).getD d1 [] →
      v ∈ (bucketsOf (walkSpec row prune (L + 1) start [] 0) (L + 1)).getD d2 [] →
      d1 = d2) := by
  obtain ⟨hk, hdist⟩ := walkSpec_dist row prune L start
  have hrange : ∀ e ∈ walkSpec row prune (L + 1) start [] 0, e.2 < L + 1 := by
    rintro ⟨v, d⟩ he
    have := ((hdist v d).1 ((mem_iff_mapFind _ hk v d).1 he)).1
    exact Nat.lt_succ_of_le this
  have hmem : ∀ d v,
      v ∈ (bucketsOf (walkSpec row prune (L + 1) start [] 0) (L + 1)).getD d [] ↔
        Graph_blaze.mapFind (walkSpec row prune (L + 1) start [] 0) v = some d := by
    intro d v
    rw [mem_bucketsOf _ _ hrange, mem_iff_mapFind _ hk]
  refine ⟨(bucketsOf_spec _ _ hrange).1, ?_, fun d => nodup_bucketsOf _ _ hrange hk d, ?_⟩
  · intro d v
    rw [hmem, hdist]
  · intro d1 d2 v h1 h2
    rw [hmem] at h1 h2
    rw [h1] at h2
    exact Option.some.inj h2

theorem legacy_getNeighbours_eq (g : Graph) (nodeIndex maxDeep fuel : Nat)
    (hin : nodeIndex < g.edges.length)
    (hwf : ∀ row ∈ g.edges, ∀ w ∈ row, w < g.edges.length) (hfuel : maxDeep + 2 ≤ fuel) :
    Graph.getNeighbours fuel g nodeIndex maxDeep =
      some (bucketsOf (walkSpec g.neighbours true (maxDeep + 1) nodeIndex [] 0)
        (maxDeep + 1)) := by
  unfold Graph.getNeighbours
  simp only []
  rw [neighboursWalk_eq g maxDeep hwf (maxDeep + 1) fuel nodeIndex [] 0 (by omega) (by omega)
    hin]
  rfl

/-- C36. Legacy walk computes minimum depth: for every legacy `Graph` whose adjacency lists
`edges` name nodes of the graph, every `nodeIndex` inside the graph and every `maxDeep`,
`Graph::getNeighbours(nodeIndex, maxDeep)` returns (the recursion `neighboursWalk` nests at most
`maxDeep + 2` calls, `deep` being bounded by `maxDeep + 1`) `maxDeep + 1` buckets in which node
`v` occurs in bucket `d` if and only if `d` is the length of a shortest path from `nodeIndex` to
`v` along `edges` and `d <= maxDeep`, each node occurring at most once. -/
theorem legacy_walk_minimum_depth (g : Graph) (nodeIndex maxDeep fuel : Nat)
    (hin : nodeIndex < g.edges.length)
    (hwf : ∀ row ∈ g.edges, ∀ w ∈ row, w < g.edges.length) (hfuel : maxDeep + 2 ≤ fuel) :
    ∃ res, Graph.getNeighbours fuel g nodeIndex maxDeep = some res ∧
      res.length = maxDeep + 1 ∧
      (∀ d v, v ∈ res.getD d [] ↔ d ≤ maxDeep ∧ RowDist g.neighbours d nodeIndex v) ∧
      (∀ d, (res.getD d []).Nodup) ∧
      (∀ d1 d2 v, v ∈ res.getD d1 [] → v ∈ res.getD d2 [] → d1 = d2) :=
  ⟨_, legacy_getNeighbours_eq g nodeIndex maxDeep fuel hin hwf hfuel,
    buckets_of_walkSpec g.neighbours true maxDeep nodeIndex⟩

/-- Witness of C36: the path 0 - 1 - 2 with the extra edge 0 - 2 closing a triangle and a
pendant node 3 at node 2, explored from node 0 to depth 3 with 5 nested calls allowed: the
buckets are `[0]`, `[1, 2]`, `[3]`, `[]`. -/
theorem legacy_walk_minimum_depth_witness :
    ((0 : Nat) < 4 ∧
      (∀ row ∈ [[1, 2], [0, 2], [1, 0, 3], [2]], ∀ w ∈ row, w < 4) ∧ 3 + 2 ≤ 5) ∧
    Graph.getNeighbours 5 ⟨4, true, [[1, 2], [0, 2], [1, 0, 3], [2]]⟩ 0 3 =
      some [[0], [1, 2], [3], []] ∧
    ∃ res, Graph.getNeighbours 5 ⟨4, true, [[1, 2], [0, 2], [1, 0, 3], [2]]⟩ 0 3 = some res ∧
      res.length = 3 + 1 ∧
      (∀ d v, v ∈ res.getD d [] ↔
        d ≤ 3 ∧ RowDist (Graph.neighbours ⟨4, true, [[1, 2], [0, 2], [1, 0, 3], [2]]⟩) d 0 v) :=
  have h : ∀ row ∈ [[1, 2], [0, 2], [1, 0, 3], [2]], ∀ w ∈ row, w < 4 := by decide
  ⟨⟨by decide, h, by decide⟩, by decide,
    (legacy_walk_minimum_depth ⟨4, true, [[1, 2], [0, 2], [1, 0, 3], [2]]⟩ 0 3 5 (by decide) h
      (by decide)).imp (fun _ hr => ⟨hr.1, hr.2.1, hr.2.2.1⟩)⟩


/-! ## The stack-based explorer as a depth-first exploration -/

/-- A frame whose iterator is at its end, or that lies below `maxDeep`, is popped whatever its
iterator holds. -/
theorem loop_pop_any (m : MatrixType) (maxDeep fuel row : Nat) (rows top : List Nat)
    (its : List (List Nat)) (idx : List (Nat × Nat)) (depth : Nat)
    (h : top = [] ∨ depth > maxDeep) :
    Graph_blaze.getNeighboursLoop m maxDeep (fuel + 1) (row :: rows) (top :: its) idx depth =
      Graph_blaze.getNeighboursLoop m maxDeep (fuel + 1) (row :: rows) ([] :: its) idx
        depth := by
  simp only [Graph_blaze.getNeighboursLoop]
  rw [if_pos h, if_pos (Or.inl trivial)]

theorem loop_pop_bottom (m : MatrixType) (maxDeep fuel row : Nat) (rows : List Nat)
    (its : List (List Nat)) (idx : List (Nat × Nat)) :
    Graph_blaze.getNeighboursLoop m maxDeep (fuel + 1) (row :: rows) ([] :: its) idx 1 =
      some idx := by
  simp only [Graph_blaze.getNeighboursLoop]
  rw [if_pos (Or.inl trivial), if_pos (by omega)]

theorem loop_pop_inner (m : MatrixType) (maxDeep fuel row : Nat) (rows below : List Nat)
    (rest : List (List Nat)) (idx : List (Nat × Nat)) (depth : Nat) (hd : 1 ≤ depth) :
    Graph_blaze.getNeighboursLoop m maxDeep (fuel + 1) (row :: rows) ([] :: below :: rest) idx
        (depth + 1) =
      Graph_blaze.getNeighboursLoop m maxDeep fuel rows (below.tail :: rest) idx depth := by
  simp only [Graph_blaze.getNeighboursLoop]
  rw [if_pos (Or.inl trivial), if_neg (by omega)]
  rfl

theorem loop_push (m : MatrixType) (maxDeep fuel row : Nat) (rows : List Nat) (w : Nat)
    (rest : List Nat) (its : List (List Nat)) (idx : List (Nat × Nat)) (depth : Nat)
    (hd : depth ≤ maxDeep) :
    Graph_blaze.getNeighboursLoop m maxDeep (fuel + 1) (row :: rows) ((w :: rest) :: its) idx
        depth =
      Graph_blaze.getNeighboursLoop m maxDeep fuel (w :: row :: rows)
        (m.sparseRow w :: (w :: rest) :: its) (mapLower idx w depth) (depth + 1) := by
  simp only [Graph_blaze.getNeighboursLoop]
  rw [if_neg (by simp; omega)]
  rfl

theorem foldl_walkSpec_zero (row : Nat → List Nat) (prune : Bool) (depth : Nat) :
    ∀ (top : List Nat) (idx : List (Nat × Nat)),
      top.foldl (fun acc w => walkSpec row prune 0 w acc depth) idx = idx := by
  intro top
  induction top with
  | nil => intro idx; rfl
  | cons w top ih =>
    intro idx
    rw [List.foldl_cons]
    exact ih idx

theorem walkSpec_succ_all (row : Nat → List Nat) (k w : Nat) (idx : List (Nat × Nat))
    (depth : Nat) :
    walkSpec row false (k + 1) w idx depth =
      (row w).foldl (fun acc x => walkSpec row false k x acc (depth + 1))
        (mapLower idx w depth) := by
  rw [walkSpec]
  rw [if_neg (by simp)]

/-- The loop of `getNeighbours` works through the frame on top of its stacks: from a frame at
`depth` whose iterator still holds `top`, it reaches, in a number of iterations fixed by the
frame, the same frame with the iterator at its end and the map the depth-first exploration of
`top` gives. -/
theorem loop_frame (m : MatrixType) (maxDeep : Nat) :
    ∀ (k depth : Nat), 1 ≤ depth → k = maxDeep + 1 - depth →
      ∀ (top : List Nat) (row : Nat) (rows : List Nat) (its : List (List Nat))
        (idx : List (Nat × Nat)),
      ∃ n, ∀ fuel,
        Graph_blaze.getNeighboursLoop m maxDeep (fuel + n + 1) (row :: rows) (top :: its) idx
            depth =
          Graph_blaze.getNeighboursLoop m maxDeep (fuel + 1) (row :: rows) ([] :: its)
            (top.foldl (fun acc w => walkSpec m.sparseRow false k w acc depth) idx) depth := by
  intro k
  induction k with
  | zero =>
    intro depth _ hk top row rows its idx
    refine ⟨0, fun fuel => ?_⟩
    rw [foldl_walkSpec_zero]
    exact loop_pop_any m maxDeep fuel row rows top its idx depth (Or.inr (by omega))
  | succ k ih =>
    intro depth hd hk top
    induction top with
    | nil =>
      intro row rows its idx
      exact ⟨0, fun fuel => rfl⟩
    | cons w rest ihtop =>
      intro row rows its idx
      obtain ⟨n1, h1⟩ := ih (depth + 1) (by omega) (by omega) (m.sparseRow w) w (row :: rows)
        ((w :: rest) :: its) (mapLower idx w depth)
      obtain ⟨n2, h2⟩ := ihtop row rows its
        ((m.sparseRow w).foldl (fun acc x => walkSpec m.sparseRow false k x acc (depth + 1))
          (mapLower idx w depth))
      refine ⟨n2 + n1 + 2, fun fuel => ?_⟩
      have e1 : fuel + (n2 + n1 + 2) + 1 = (fuel + n2 + 1 + n1 + 1) + 1 := by omega
      rw [e1, loop_push m maxDeep _ row rows w rest its idx depth (by omega),
        h1 (fuel + n2 + 1), loop_pop_inner m maxDeep _ w (row :: rows) (w :: rest) its _ depth hd,
        List.tail_cons, h2 fuel, List.foldl_cons, walkSpec_succ_all]

/-- With enough iterations allowed, the loop of `getNeighbours` returns the map of the
depth-first exploration without pruning. -/
theorem getNeighboursLoop_eq (m : MatrixType) (index maxDeep : Nat) :
    ∃ n, ∀ fuel, n ≤ fuel →
      Graph_blaze.getNeighboursLoop m maxDeep fuel [index] [m.sparseRow index] [(index, 0)] 1 =
        some (walkSpec m.sparseRow false (maxDeep + 1) index [] 0) := by
  obtain ⟨n, h⟩ := loop_frame m maxDeep maxDeep 1 (Nat.le_refl 1) (by omega)
    (m.sparseRow index) index [] [] [(index, 0)]
  refine ⟨n + 1, fun fuel hf => ?_⟩
  have e : fuel = (fuel - n - 1) + n + 1 := by omega
  rw [e, h, loop_pop_bottom, walkSpec_succ_all]
  rfl

theorem rowWalk_sparseRow (m : MatrixType) : ∀ (k u v : Nat),
    RowWalk m.sparseRow k u v ↔ IsWalk m k u v := by
  intro k
  induction k with
  | zero => intro u v; rfl
  | succ k ih =>
    intro u v
    unfold RowWalk IsWalk
    constructor
    · rintro ⟨w, h1, h2⟩
      exact ⟨w, (ih u w).1 h1, (mem_sparseRow m w v).1 h2⟩
    · rintro ⟨w, h1, h2⟩
      exact ⟨w, (ih u w).2 h1, (mem_sparseRow m w v).2 h2⟩

theorem rowDist_sparseRow (m : MatrixType) (d u v : Nat) :
    RowDist m.sparseRow d u v ↔ IsDist m d u v := by
  unfold RowDist IsDist
  rw [rowWalk_sparseRow]
  constructor
  · rintro ⟨h1, h2⟩
    exact ⟨h1, fun k hk hw => h2 k hk ((rowWalk_sparseRow m k u v).2 hw)⟩
  · rintro ⟨h1, h2⟩
    exact ⟨h1, fun k hk hw => h2 k hk ((rowWalk_sparseRow m k u v).1 hw)⟩

theorem getNeighbours_eq (g : Graph_blaze) (start maxDepth : Nat) :
    ∃ n, ∀ fuel, n ≤ fuel →
      Graph_blaze.getNeighbours false fuel g start maxDepth =
        some (bucketsOf (walkSpec g.m.sparseRow false (maxDepth + 1) start [] 0)
          (maxDepth + 1)) := by
  obtain ⟨n, h⟩ := getNeighboursLoop_eq g.m start maxDepth
  refine ⟨n, fun fuel hf => ?_⟩
  unfold Graph_blaze.getNeighbours
  rw [if_neg (by simp)]
  simp only []
  rw [h fuel hf]
  rfl

/-- C35. Old and new explorers agree: for every boolean sparse adjacency container, every
start inside it and every `maxDepth`, the stack-based `getNeighbours(start, maxDepth)` returns,
once its loop is allowed enough iterations, and both it and the level-synchronous
`getNeighborsNew(start, maxDepth)` return `maxDepth + 1` buckets; for every `d`, bucket `d` of
the one holds the same nodes as bucket `d` of the other, each node once (the order inside a
bucket may differ). -/
theorem old_and_new_explorers_agree (g : Graph_blaze) (start maxDepth : Nat)
    (h : start < g.m.columns) :
    ∃ n, ∀ fuel, n ≤ fuel →
      ∃ old, Graph_blaze.getNeighbours false fuel g start maxDepth = some old ∧
        old.length = maxDepth + 1 ∧
        (g.getNeighborsNew_sparse start maxDepth).length = maxDepth + 1 ∧
        (∀ d v, v ∈ old.getD d [] ↔ v ∈ (g.getNeighborsNew_sparse start maxDepth).getD d []) ∧
        (∀ d, (old.getD d []).Nodup ∧
          ((g.getNeighborsNew_sparse start maxDepth).getD d []).Nodup) := by
  obtain ⟨n, hn⟩ := getNeighbours_eq g start maxDepth
  obtain ⟨b1, b2, b3, _⟩ := buckets_of_walkSpec g.m.sparseRow false maxDepth start
  have e : g.getNeighborsNew_sparse start maxDepth = explored g.m start maxDepth :=
    getNeighborsNew_sparse_eq g start maxDepth
  rw [e]
  refine ⟨n, fun fuel hf => ⟨_, hn fuel hf, b1, length_explored g.m start maxDepth, ?_, ?_⟩⟩
  · intro d v
    rw [b2 d v, mem_explored g.m start maxDepth h, rowDist_sparseRow]
  · intro d
    exact ⟨b3 d, nodup_bucket g.m start maxDepth d⟩

set_option maxRecDepth 100000 in
/-- Witness of C35: the 2 × 2 four-connected grid from node 0 to depth 2; with 40 iterations
allowed the stack-based explorer returns the buckets `[0]`, `[1, 2]`, `[3]`, which are those of
the level-synchronous one. -/
theorem old_and_new_explorers_agree_witness :
    0 < (Grid4_blaze.ofSize 2 2).m.columns ∧
    Graph_blaze.getNeighbours false 40 (Grid4_blaze.ofSize 2 2) 0 2 =
      some [[0], [1, 2], [3]] ∧
    (Grid4_blaze.ofSize 2 2).getNeighborsNew_sparse 0 2 = [[0], [1, 2], [3]] ∧
    ∃ n, ∀ fuel, n ≤ fuel →
      ∃ old, Graph_blaze.getNeighbours false fuel (Grid4_blaze.ofSize 2 2) 0 2 = some old ∧
        ∀ d v, v ∈ old.getD d [] ↔
          v ∈ ((Grid4_blaze.ofSize 2 2).getNeighborsNew_sparse 0 2).getD d [] :=
  ⟨by decide, by decide, by decide,
    (old_and_new_explorers_agree (Grid4_blaze.ofSize 2 2) 0 2 (by decide)).imp
      (fun _ hn fuel hf => (hn fuel hf).imp (fun _ hr => ⟨hr.1, hr.2.2.2.1⟩))⟩

end SOM_details
